import Mathlib

/-!
# go-markup: a verification development for `gomarkup.go`

The Go package parses an HTML-like markup string into a forest of `Node`s.
This file embeds `ParseMarkup`, `parseNode`, `parseAttributes` and
`parseChildren` in Lean and proves properties of them.

## Modelling conventions

* A Go `string` is a sequence of bytes: `Str := List Nat`, every element a
  byte value.  `len`, indexing and slicing are byte operations, exactly as in
  Go.  String literals of the source are written `bytes "..."` (UTF-8).
  No theorem assumes that the elements are below 256 or that the bytes are
  valid UTF-8: the statements hold for every Go string.
* `strings.Index`, `strings.TrimSpace` and the two `regexp` calls belong to the
  Go standard library; they are modelled by `Index`, `TrimSpace` and a small
  backtracking matcher `Regex.run` with Go's leftmost-first semantics.
  All delimiters of the two patterns are ASCII and an ASCII byte is never
  part of a multi-byte UTF-8 sequence, so matching byte by byte visits the
  same spans as matching rune by rune (an invalid byte is read by Go as
  U+FFFD of width one, which the negated classes accept like any other rune).
* The `for` loops and the recursion `parseNode -> parseChildren -> parseNode`
  are modelled with an explicit fuel argument; a result `none` means that the
  fuel ran out, `some r` that the Go function returns `r`.
-/

namespace GoMarkup

/-- A Go string: its bytes. -/
abbrev Str := List Nat

/-- UTF-8 encoding of one code point. -/
def utf8Encode (c : Nat) : Str :=
  if c < 0x80 then [c]
  else if c < 0x800 then [0xC0 + c / 64, 0x80 + c % 64]
  else if c < 0x10000 then [0xE0 + c / 4096, 0x80 + (c / 64) % 64, 0x80 + c % 64]
  else [0xF0 + c / 262144, 0x80 + (c / 4096) % 64, 0x80 + (c / 64) % 64, 0x80 + c % 64]

/-- The bytes of a string literal of the source. -/
def bytes (s : String) : Str :=
  (s.toList.map (fun c => utf8Encode c.toNat)).flatten

/-- Byte `<`. -/
def LT : Nat := 60
/-- Byte `>`. -/
def GT : Nat := 62
/-- Byte `/`. -/
def SLASH : Nat := 47
/-- Byte `=`. -/
def EQUALS : Nat := 61
/-- Byte `"`. -/
def QUOTE : Nat := 34

/-! ## `strings.Index` -/

/-- Go `strings.Index(s, substr)`: the index of the first occurrence of `substr`
in `s`; `none` stands for `-1`. -/
def Index : Str → Str → Option Nat
  | [], sub => if sub.isEmpty then some 0 else none
  | c :: t, sub =>
    if sub.isPrefixOf (c :: t) then some 0
    else match Index t sub with
      | some i => some (i + 1)
      | none => none

/-! ## `strings.TrimSpace` -/

/-- The six ASCII bytes for which `unicode.IsSpace` holds:
`\t`, `\n`, `\v`, `\f`, `\r` and the blank. -/
def isAsciiSpace (c : Nat) : Bool :=
  c == 9 || c == 10 || c == 11 || c == 12 || c == 13 || c == 32

/-- Two-byte UTF-8 encodings of white space: U+0085 and U+00A0. -/
def isSpace2 (a b : Nat) : Bool :=
  a == 0xC2 && (b == 0x85 || b == 0xA0)

/-- Three-byte UTF-8 encodings of white space: U+1680, U+2000 to U+200A,
U+2028, U+2029, U+202F, U+205F and U+3000. -/
def isSpace3 (a b c : Nat) : Bool :=
  (a == 0xE1 && b == 0x9A && c == 0x80) ||
  (a == 0xE2 && b == 0x80 &&
    ((0x80 ≤ c && c ≤ 0x8A) || c == 0xA8 || c == 0xA9 || c == 0xAF)) ||
  (a == 0xE2 && b == 0x81 && c == 0x9F) ||
  (a == 0xE3 && b == 0x80 && c == 0x80)

/-- Removal of leading runes: `p1`, `p2` and `p3` recognise the one-, two- and
three-byte sequences to remove.  The string is read from its first byte;
a sequence is removed only when it is complete. -/
def stripRunes (p1 : Nat → Bool) (p2 : Nat → Nat → Bool) (p3 : Nat → Nat → Nat → Bool) :
    Str → Str
  | [] => []
  | [a] => if p1 a then [] else [a]
  | [a, b] =>
    if p1 a then stripRunes p1 p2 p3 [b]
    else if p2 a b then [] else [a, b]
  | a :: b :: c :: t =>
    if p1 a then stripRunes p1 p2 p3 (b :: c :: t)
    else if p2 a b then stripRunes p1 p2 p3 (c :: t)
    else if p3 a b c then stripRunes p1 p2 p3 t
    else a :: b :: c :: t

/-- Removal of the leading white-space runes (`strings.TrimLeftFunc` with
`unicode.IsSpace`). -/
def trimLeft (s : Str) : Str :=
  stripRunes isAsciiSpace isSpace2 isSpace3 s

/-- Removal of the trailing white-space runes (`strings.TrimRightFunc` with
`unicode.IsSpace`): the string is read from its last byte, so the byte
sequences are recognised in reverse. -/
def trimRight (s : Str) : Str :=
  (stripRunes isAsciiSpace (fun b a => isSpace2 a b) (fun c b a => isSpace3 a b c)
    s.reverse).reverse

/-- Go `strings.TrimSpace`: leading white space is removed first, then
trailing white space of what is left. -/
def TrimSpace (s : Str) : Str :=
  trimRight (trimLeft s)

/-! ## Regular expressions (`regexp`) -/

/-- The fragment of Go regular-expression syntax that the two patterns of the
source use.  Every repetition in them is over a class of single characters. -/
inductive Regex where
  /-- one byte of a class (a literal is the class of one byte) -/
  | byte (p : Nat → Bool)
  /-- `[class]*`, greedy -/
  | star (p : Nat → Bool)
  /-- `[class]+`, greedy -/
  | plus (p : Nat → Bool)
  /-- concatenation -/
  | seq (a b : Regex)
  /-- `(?:a)?`, greedy: `a` is tried first, the empty match second -/
  | opt (a : Regex)
  /-- capturing group number `i` -/
  | group (i : Nat) (a : Regex)

/-- State of a match: the current offset, the input from there on, and the
capturing groups closed so far (latest first) as `(number, start, end)`. -/
structure MState where
  pos : Nat
  rest : Str
  caps : List (Nat × Nat × Nat)

/-- Greedy repetition of a class with backtracking: the longest run is tried
first, then each shorter one, until the continuation `k` succeeds. -/
def starLoop (p : Nat → Bool) (k : MState → Option MState) (caps : List (Nat × Nat × Nat)) :
    Nat → Str → Option MState
  | pos, [] => k ⟨pos, [], caps⟩
  | pos, c :: t =>
    if p c then
      match starLoop p k caps (pos + 1) t with
      | some r => some r
      | none => k ⟨pos, c :: t, caps⟩
    else k ⟨pos, c :: t, caps⟩

/-- Backtracking matcher with Go's leftmost-first preference order: `run r s k`
is the first way, in preference order, to match `r` from state `s` such that
the continuation `k` succeeds on the state reached. -/
def Regex.run : Regex → MState → (MState → Option MState) → Option MState
  | .byte p, s, k =>
    match s.rest with
    | [] => none
    | c :: t => if p c then k ⟨s.pos + 1, t, s.caps⟩ else none
  | .star p, s, k => starLoop p k s.caps s.pos s.rest
  | .plus p, s, k =>
    match s.rest with
    | [] => none
    | c :: t => if p c then starLoop p k s.caps (s.pos + 1) t else none
  | .seq a b, s, k => a.run s (fun s1 => b.run s1 k)
  | .opt a, s, k =>
    match a.run s k with
    | some r => some r
    | none => k s
  | .group i a, s, k => a.run s (fun s1 => k ⟨s1.pos, s1.rest, (i, s.pos, s1.pos) :: s1.caps⟩)

/-- Offsets `(start, end)` of capturing group `i` in a finished match. -/
def MState.group (m : MState) (i : Nat) : Nat × Nat :=
  match m.caps.find? (fun c => c.1 == i) with
  | some c => c.2
  | none => (0, 0)

/-- Match of a pattern anchored at the start of the input (a pattern that
begins with `^`). -/
def Regex.matchStart (r : Regex) (input : Str) : Option MState :=
  r.run ⟨0, input, []⟩ some

/-- `FindAllStringSubmatch(s, -1)` for a pattern that matches no empty string:
the successive non-overlapping leftmost matches, with offsets counted from the
start of `s`.  At each offset a match is tried; after a match the scan resumes
where the match ended (`skip` counts the bytes of the last match still to pass
over). -/
def Regex.findAll (r : Regex) : Nat → Nat → Str → List MState
  | _, _, [] => []
  | skip + 1, pos, _ :: t => r.findAll skip (pos + 1) t
  | 0, pos, c :: t =>
    match r.run ⟨pos, c :: t, []⟩ some with
    | some m => m :: r.findAll (m.pos - pos - 1) (pos + 1) t
    | none => r.findAll 0 (pos + 1) t

/-- Class `[a-zA-Z0-9_\-]`. -/
def isNameByte (c : Nat) : Bool :=
  (97 ≤ c && c ≤ 122) || (65 ≤ c && c ≤ 90) || (48 ≤ c && c ≤ 57) || c == 95 || c == 45

/-- Class `\s` of Go regular expressions: `[\t\n\f\r ]` (no vertical tab). -/
def isReSpace (c : Nat) : Bool :=
  c == 9 || c == 10 || c == 12 || c == 13 || c == 32

/-- The pattern `^<([a-zA-Z0-9_\-]+)((?:\s+[^>]+)?)\s*>` of `parseNode`, without
its anchor `^` (see `Regex.matchStart`). -/
def tagOpen : Regex :=
  .seq (.byte (· == LT))
    (.seq (.group 1 (.plus isNameByte))
      (.seq (.group 2 (.opt (.seq (.plus isReSpace) (.plus (· != GT)))))
        (.seq (.star isReSpace) (.byte (· == GT)))))

/-- The pattern `([a-zA-Z0-9_\-]+)\s*=\s*"([^"]*)"` of `parseAttributes`. -/
def attrRx : Regex :=
  .seq (.group 1 (.plus isNameByte))
    (.seq (.star isReSpace)
      (.seq (.byte (· == EQUALS))
        (.seq (.star isReSpace)
          (.seq (.byte (· == QUOTE))
            (.seq (.group 2 (.star (· != QUOTE))) (.byte (· == QUOTE)))))))

/-- Go slice expression `s[i:j]`. -/
def slice (s : Str) (i j : Nat) : Str :=
  (s.take j).drop i

/-! ## The data model -/

/-- Go `map[string]interface{}` whose values are strings: the entries, one for
each key.  The order of the entries carries no meaning. -/
abbrev AttrMap := List (Str × Str)

/-- Go `res[k] = v`: the entry of `k` is replaced or added. -/
def AttrMap.set (m : AttrMap) (k v : Str) : AttrMap :=
  m.filter (fun e => e.1 != k) ++ [(k, v)]

/-- Go `m[k]` with the comma-ok form. -/
def AttrMap.get (m : AttrMap) (k : Str) : Option Str :=
  match m.find? (fun e => e.1 == k) with
  | some e => some e.2
  | none => none

/-- Go `type Node struct`. -/
inductive Node where
  | mk (Tag : Str) (Attributes : AttrMap) (Children : List Node) (Text : Str)

/-- Field `Tag`. -/
def Node.Tag : Node → Str
  | .mk t _ _ _ => t

/-- Field `Attributes`. -/
def Node.Attributes : Node → AttrMap
  | .mk _ a _ _ => a

/-- Field `Children`. -/
def Node.Children : Node → List Node
  | .mk _ _ c _ => c

/-- Field `Text`. -/
def Node.Text : Node → Str
  | .mk _ _ _ t => t

/-- The two errors `parseNode` makes with `fmt.Errorf`, with the argument of
the format string. -/
inductive ParseError where
  /-- `"invalid tag start: %s"` with the input -/
  | invalidTagStart (input : Str)
  /-- `"no closing tag for <%s>"` with the tag name -/
  | unclosedTag (tagName : Str)

/-- Result of `parseNode`: `return nil, 0, err` or `return node, consumed, nil`. -/
inductive NodeResult where
  | err (e : ParseError)
  | ok (node : Node) (consumed : Nat)

/-! ## The parser -/

/-- Go `"</" + tagName + ">"`. -/
def endTagOf (tagName : Str) : Str :=
  bytes "</" ++ tagName ++ bytes ">"

/-- Go `parseAttributes`. -/
def parseAttributes (s : Str) : AttrMap :=
  (attrRx.findAll 0 0 s).foldl
    (fun res m =>
      res.set (slice s (m.group 1).1 (m.group 1).2) (slice s (m.group 2).1 (m.group 2).2))
    []

/-- The loop of Go `parseChildren`, one unit of fuel for each iteration;
`pn` is `parseNode`. -/
def parseChildrenLoop (pn : Str → Option NodeResult) :
    Nat → Str → List Node → Str → Option (List Node × Str)
  | 0, _, _, _ => none
  | fuel + 1, body, res, txt =>
    let body := TrimSpace body
    if body.length = 0 then some (res, TrimSpace txt)
    else if body.head? ≠ some LT then
      match Index body [LT] with
      | none => some (res, TrimSpace (txt ++ body))
      | some i => parseChildrenLoop pn fuel (body.drop i) res (txt ++ body.take i)
    else
      match pn body with
      | none => none
      | some (.err _) => some (res, TrimSpace txt)
      | some (.ok node consumed) =>
        parseChildrenLoop pn fuel (body.drop consumed) (res ++ [node]) txt

/-- Go `parseNode`, one unit of fuel for each level of nesting. -/
def parseNodeFuel : Nat → Str → Option NodeResult
  | 0, _ => none
  | fuel + 1, input =>
    match tagOpen.matchStart input with
    | none => some (.err (.invalidTagStart input))
    | some loc =>
      let tagName := slice input (loc.group 1).1 (loc.group 1).2
      let rawAttrs := slice input (loc.group 2).1 (loc.group 2).2
      let attrs := parseAttributes rawAttrs
      let offset := loc.pos
      let rem := input.drop offset
      let endTag := endTagOf tagName
      match Index rem endTag with
      | none => some (.err (.unclosedTag tagName))
      | some endIdx =>
        let body := rem.take endIdx
        match parseChildrenLoop (parseNodeFuel fuel) (body.length + 1) body [] [] with
        | none => none
        | some (children, text) =>
          some (.ok (.mk tagName attrs children text) (offset + endIdx + endTag.length))

/-- Go `parseNode`. -/
def parseNode (input : Str) : Option NodeResult :=
  parseNodeFuel (input.length + 1) input

/-- Go `parseChildren`. -/
def parseChildren (body : Str) : Option (List Node × Str) :=
  parseChildrenLoop parseNode (body.length + 1) body [] []

/-- The loop of Go `ParseMarkup`, one unit of fuel for each iteration.  The
result is the pair the Go function returns: the nodes and the error
(`none` for `nil`). -/
def parseMarkupLoop : Nat → Str → List Node → Option (List Node × Option ParseError)
  | 0, _, _ => none
  | fuel + 1, input, nodes =>
    if input.length > 0 then
      let input := TrimSpace input
      if input.length = 0 then some (nodes, none)
      else if input.head? ≠ some LT then
        match Index input [LT] with
        | none => some (nodes, none)
        | some i => parseMarkupLoop fuel (input.drop i) nodes
      else
        match parseNode input with
        | none => none
        | some (.err e) => some ([], some e)
        | some (.ok node consumed) =>
          parseMarkupLoop fuel (input.drop consumed) (nodes ++ [node])
    else some (nodes, none)

/-- Go `ParseMarkup`. -/
def ParseMarkup (input : Str) : Option (List Node × Option ParseError) :=
  parseMarkupLoop (input.length + 1) (TrimSpace input) []

/-! ## Definitions used in the statements and proofs -/

/-- The loop of `parseChildren` entered with body `body`, children `res` and
text `txt`, with the fuel `parseChildren` gives it. -/
def childrenFrom (body : Str) (res : List Node) (txt : Str) : Option (List Node × Str) :=
  parseChildrenLoop parseNode (body.length + 1) body res txt

/-- The loop of `ParseMarkup` entered with input `input` and nodes `nodes`,
with the fuel `ParseMarkup` gives it. -/
def markupFrom (input : Str) (nodes : List Node) : Option (List Node × Option ParseError) :=
  parseMarkupLoop (input.length + 1) input nodes

/-- The part of an iteration of the loop of `ParseMarkup` that parses a node,
on an input that starts with `<`. -/
def markupNode (input : Str) (nodes : List Node) : Option (List Node × Option ParseError) :=
  match parseNode input with
  | none => none
  | some (.err e) => some ([], some e)
  | some (.ok node consumed) => markupFrom (input.drop consumed) (nodes ++ [node])

/-- The part of an iteration of the loop of `parseChildren` that parses a node,
on a body that starts with `<`. -/
def childrenNode (body : Str) (res : List Node) (txt : Str) : Option (List Node × Str) :=
  match parseNode body with
  | none => none
  | some (.err _) => some (res, TrimSpace txt)
  | some (.ok node consumed) => childrenFrom (body.drop consumed) (res ++ [node]) txt

/-- What `ParseMarkup` returns when the nodes `n0` were collected before the
part of the input that gives the result `r`: the error of `r` alone, or the
nodes `n0` followed by those of `r`. -/
def prependNodes (n0 : List Node) (r : List Node × Option ParseError) :
    List Node × Option ParseError :=
  match r.2 with
  | none => (n0 ++ r.1, none)
  | some e => ([], some e)

/-- The property `P` holds for a node and for every node below it, at every
depth. -/
inductive Node.Forall (P : Node → Prop) : Node → Prop where
  | mk (tag : Str) (attrs : AttrMap) (children : List Node) (text : Str) :
    P (.mk tag attrs children text) → (∀ c ∈ children, Node.Forall P c) →
    Node.Forall P (.mk tag attrs children text)

/-- A tag or attribute name: non-empty, over `[A-Za-z0-9_-]`. -/
def IsName (n : Str) : Prop :=
  n ≠ [] ∧ ∀ c ∈ n, isNameByte c = true

/-- The input begins with a well-formed opening tag: `<`, the non-empty name
`name` over `[A-Za-z0-9_-]`, the attribute region `region` (empty, or starting
with a white-space character of class `\s`, and without `>`), then `>`;
`rest` is what follows the opening tag. -/
def OpensWith (input name region rest : Str) : Prop :=
  name ≠ [] ∧ (∀ c ∈ name, isNameByte c = true) ∧
    (region = [] ∨ ∃ c t, region = c :: t ∧ isReSpace c = true) ∧ GT ∉ region ∧
    input = LT :: (name ++ region ++ GT :: rest)

/-- The raw attribute text `parseNode` takes from an attribute region: the
region itself when it has a white-space character and at least one more
character, the empty string otherwise (capturing group 2 of the pattern). -/
def attrText (region : Str) : Str :=
  if region.length ≤ 1 then [] else region

/-- Closed form of the match of the opening-tag pattern. -/
def tagOpenClosed (input : Str) : Option MState :=
  match input with
  | [] => none
  | c :: r =>
    if c = LT then
      let n := (r.takeWhile isNameByte).length
      if n = 0 then none
      else match r.dropWhile isNameByte with
        | [] => none
        | d :: t =>
          if d = GT then some ⟨n + 2, t, [(2, n + 1, n + 1), (1, 1, n + 1)]⟩
          else if isReSpace d then
            match Index t [GT] with
            | none => none
            | some q =>
              some ⟨n + q + 3, t.drop (q + 1),
                [(2, n + 1, if q = 0 then n + 1 else n + q + 2), (1, 1, n + 1)]⟩
          else none
    else none

/-- The tail `\s*>` of the opening-tag pattern. -/
def tailK (k : MState → Option MState) (s : MState) : Option MState :=
  (Regex.seq (.star isReSpace) (.byte (· == GT))).run s k

/-- Continuation at the end of capturing group 2, opened at offset `p0`. -/
def closeK (p0 : Nat) (s1 : MState) : Option MState :=
  tailK some ⟨s1.pos, s1.rest, (2, p0, s1.pos) :: s1.caps⟩

/-- Continuation after `\s+` inside group 2: the repetition `[^>]+`. -/
def attrK (p0 : Nat) (s1 : MState) : Option MState :=
  (Regex.plus (· != GT)).run s1 (closeK p0)

/-- Continuation at the end of capturing group 1. -/
def nameK (s1 : MState) : Option MState :=
  (Regex.group 2 (.opt (.seq (.plus isReSpace) (.plus (· != GT))))).run
    ⟨s1.pos, s1.rest, (1, 1, s1.pos) :: s1.caps⟩ (tailK some)

/-- The part `\s*=\s*"([^"]*)"` of the attribute pattern. -/
def attrTail : Regex :=
  .seq (.star isReSpace)
    (.seq (.byte (· == EQUALS))
      (.seq (.star isReSpace)
        (.seq (.byte (· == QUOTE))
          (.seq (.group 2 (.star (· != QUOTE))) (.byte (· == QUOTE))))))

/-- Continuation at the end of capturing group 1 of the attribute pattern,
opened at offset `p0`. -/
def attrNameK (p0 : Nat) (s1 : MState) : Option MState :=
  attrTail.run ⟨s1.pos, s1.rest, (1, p0, s1.pos) :: s1.caps⟩ some

/-- Continuation at the end of capturing group 2 of the attribute pattern,
opened at offset `p0`. -/
def attrValueK (p0 : Nat) (s1 : MState) : Option MState :=
  (Regex.byte (· == QUOTE)).run ⟨s1.pos, s1.rest, (2, p0, s1.pos) :: s1.caps⟩ some

/-- Continuation of the attribute pattern after the white space that follows
the name: `=\s*"([^"]*)"`. -/
def attrEqK (s1 : MState) : Option MState :=
  (Regex.seq (.byte (· == EQUALS))
    (.seq (.star isReSpace)
      (.seq (.byte (· == QUOTE))
        (.seq (.group 2 (.star (· != QUOTE))) (.byte (· == QUOTE)))))).run s1 some

/-- Continuation of the attribute pattern after the white space that follows
`=`: `"([^"]*)"`. -/
def attrQuoteK (s1 : MState) : Option MState :=
  (Regex.seq (.byte (· == QUOTE))
    (.seq (.group 2 (.star (· != QUOTE))) (.byte (· == QUOTE)))).run s1 some

/-- The name and the value of each match of the attribute pattern in `s`, in
the order of the matches: `m[1]` and `m[2]` of Go `parseAttributes`. -/
def attrMatches (s : Str) : List (Str × Str) :=
  (attrRx.findAll 0 0 s).map
    (fun m => (slice s (m.group 1).1 (m.group 1).2, slice s (m.group 2).1 (m.group 2).2))

/-- A byte that occurs at no place of the sequences `p1`, `p2`, `p3` recognise. -/
def Inert (p1 : Nat → Bool) (p2 : Nat → Nat → Bool) (p3 : Nat → Nat → Nat → Bool)
    (c : Nat) : Prop :=
  p1 c = false ∧ (∀ x, p2 c x = false ∧ p2 x c = false) ∧
    (∀ x y, p3 c x y = false ∧ p3 x c y = false ∧ p3 x y c = false)

/-- An ASCII byte that is not white space: it is part of no white-space rune. -/
def Solid (c : Nat) : Prop := c < 128 ∧ isAsciiSpace c = false

/-! ## Lemmas on `Index` -/

theorem Index_cons (c : Nat) (t sub : Str) :
    Index (c :: t) sub =
      if sub.isPrefixOf (c :: t) then some 0
      else match Index t sub with
        | some i => some (i + 1)
        | none => none := by
  rfl

theorem Index_eq_none_iff (s sub : Str) : Index s sub = none ↔ ¬ sub <:+: s := by
  induction s with
  | nil =>
    cases sub with
    | nil => simp [Index]
    | cons a u => simp [Index]
  | cons c t ih =>
    rw [Index_cons]
    by_cases hp : sub.isPrefixOf (c :: t) = true
    · rw [if_pos hp]
      have : sub <:+: c :: t := (List.isPrefixOf_iff_prefix.mp hp).isInfix
      simp [this]
    · rw [if_neg hp]
      have hnp : ¬ sub <+: c :: t := fun h => hp (List.isPrefixOf_iff_prefix.mpr h)
      rw [List.infix_cons_iff]
      cases hi : Index t sub with
      | none =>
        have := ih.mp hi
        simp [hnp, this]
      | some i =>
        have : sub <:+: t := by
          by_contra h
          have := ih.mpr h
          rw [hi] at this
          cases this
        simp [this]

/-- What `Index s sub = some i` means: an occurrence at offset `i`, none before. -/
theorem Index_eq_some_iff (s sub : Str) (i : Nat) :
    Index s sub = some i ↔
      i ≤ s.length ∧ sub <+: s.drop i ∧ ∀ j, j < i → ¬ sub <+: s.drop j := by
  induction s generalizing i with
  | nil =>
    cases sub with
    | nil =>
      simp only [Index, List.isEmpty_nil, if_true, Option.some.injEq, List.length_nil,
        Nat.le_zero, List.drop_nil, List.prefix_rfl, true_and]
      constructor
      · intro h; subst h; simp
      · intro h; exact h.1.symm
    | cons a u =>
      simp [Index]
  | cons c t ih =>
    rw [Index_cons]
    by_cases hp : sub.isPrefixOf (c :: t) = true
    · rw [if_pos hp]
      simp only [Option.some.injEq]
      have hp' := List.isPrefixOf_iff_prefix.mp hp
      constructor
      · intro h; subst h
        exact ⟨Nat.zero_le _, by simpa using hp', fun j hj => absurd hj (Nat.not_lt_zero j)⟩
      · rintro ⟨_, _, h3⟩
        by_contra hne
        exact h3 0 (Nat.pos_of_ne_zero (Ne.symm hne)) (by simpa using hp')
    · rw [if_neg hp]
      have hnp : ¬ sub <+: c :: t := fun h => hp (List.isPrefixOf_iff_prefix.mpr h)
      cases hi : Index t sub with
      | none =>
        simp only [reduceCtorEq, false_iff, not_and, not_forall]
        intro hle hpre
        cases i with
        | zero => exact absurd (by simpa using hpre) hnp
        | succ k =>
          exfalso
          have hk := (Index_eq_none_iff t sub).mp hi
          apply hk
          have : sub <+: t.drop k := by simpa using hpre
          exact this.isInfix.trans (List.drop_suffix k t).isInfix
      | some i0 =>
        have h0 := (ih i0).mp hi
        simp only [Option.some.injEq]
        constructor
        · intro h; subst h
          refine ⟨by simpa using h0.1, by simpa using h0.2.1, ?_⟩
          intro j hj
          cases j with
          | zero => simpa using hnp
          | succ k => simpa using h0.2.2 k (by omega)
        · rintro ⟨h1, h2, h3⟩
          cases i with
          | zero => exact absurd (by simpa using h2) hnp
          | succ k =>
            have : Index t sub = some k := by
              apply (ih k).mpr
              refine ⟨by simpa using h1, by simpa using h2, ?_⟩
              intro j hj
              simpa using h3 (j + 1) (by omega)
            rw [hi] at this
            simp only [Option.some.injEq] at this
            rw [this]

theorem Index_le_length {s sub : Str} {i : Nat} (h : Index s sub = some i) : i ≤ s.length :=
  ((Index_eq_some_iff s sub i).mp h).1

/-- An occurrence found by `Index` splits the string. -/
theorem Index_some_split {s sub : Str} {i : Nat} (h : Index s sub = some i) :
    s = s.take i ++ sub ++ s.drop (i + sub.length) ∧ i + sub.length ≤ s.length := by
  obtain ⟨h1, ⟨w, hw⟩, _⟩ := (Index_eq_some_iff s sub i).mp h
  have hlen : (List.drop i s).length = sub.length + w.length := by
    rw [← hw, List.length_append]
  have hd : s.drop (i + sub.length) = w := by
    rw [← List.drop_drop, ← hw]
    simp
  constructor
  · rw [hd, List.append_assoc, hw, List.take_append_drop]
  · rw [List.length_drop] at hlen
    omega

/-- The first occurrence of one byte. -/
theorem Index_byte_some {s : Str} {c i : Nat} (h : Index s [c] = some i) :
    s = s.take i ++ c :: s.drop (i + 1) ∧ c ∉ s.take i ∧ i < s.length := by
  obtain ⟨h1, h2⟩ := Index_some_split h
  refine ⟨by simpa using h1, ?_, by simpa using h2⟩
  intro hm
  obtain ⟨j, hj, hjc⟩ := List.getElem_of_mem hm
  have hji : j < i := by
    rw [List.length_take] at hj
    omega
  have := ((Index_eq_some_iff s [c] i).mp h).2.2 j hji
  apply this
  rw [List.getElem_take] at hjc
  refine ⟨s.drop (j + 1), ?_⟩
  rw [List.singleton_append, ← hjc]
  exact (List.drop_eq_getElem_cons _).symm

theorem Index_byte_none {s : Str} {c : Nat} (h : Index s [c] = none) : c ∉ s := by
  intro hm
  have := (Index_eq_none_iff s [c]).mp h
  obtain ⟨a, b, hab⟩ := List.mem_iff_append.mp hm
  exact this ⟨a, b, by simp [hab]⟩

theorem Index_byte_of_not_mem {s : Str} {c : Nat} (h : c ∉ s) : Index s [c] = none := by
  rw [Index_eq_none_iff]
  rintro ⟨a, b, hab⟩
  apply h
  rw [← hab]
  simp

/-- The first occurrence of a byte that the part before it does not contain. -/
theorem Index_byte_append {a : Str} {c : Nat} (h : c ∉ a) (b : Str) :
    Index (a ++ c :: b) [c] = some a.length := by
  rw [Index_eq_some_iff]
  refine ⟨by simp, by simp, ?_⟩
  intro j hj hp
  apply h
  rw [List.drop_append_of_le_length (by omega)] at hp
  obtain ⟨w, hw⟩ := hp
  have hne : a.drop j ≠ [] := by
    intro e
    have := congrArg List.length e
    rw [List.length_drop] at this
    simp at this
    omega
  obtain ⟨x, y, hxy⟩ := List.exists_cons_of_ne_nil hne
  rw [hxy] at hw
  simp only [List.singleton_append, List.cons_append, List.cons.injEq] at hw
  have hx : x ∈ a.drop j := by rw [hxy]; simp
  rw [← hw.1] at hx
  exact List.mem_of_mem_drop hx

/-- An occurrence found in `x` is the first occurrence in every extension of `x`. -/
theorem Index_append_of_some {x sub : Str} {i : Nat} (h : Index x sub = some i) (y : Str) :
    Index (x ++ y) sub = some i := by
  obtain ⟨h1, h2, h3⟩ := (Index_eq_some_iff x sub i).mp h
  have hlen := (Index_some_split h).2
  rw [Index_eq_some_iff]
  refine ⟨by rw [List.length_append]; omega, ?_, ?_⟩
  · rw [List.drop_append_of_le_length h1]
    exact h2.trans (List.prefix_append _ _)
  · intro j hj hp
    apply h3 j hj
    rw [List.drop_append_of_le_length (by omega)] at hp
    refine List.prefix_of_prefix_length_le hp (List.prefix_append _ _) ?_
    rw [List.length_drop]
    omega

/-- `Index` looks only at the bytes up to the end of the first occurrence. -/
theorem Index_congr_take {x y sub : Str} {i : Nat} (h : Index x sub = some i)
    (hy : y.take (i + sub.length) = x.take (i + sub.length)) :
    Index y sub = some i := by
  obtain ⟨h1, h2, h3⟩ := (Index_eq_some_iff x sub i).mp h
  have hsplit := Index_some_split h
  have hx : x.take (i + sub.length) = x.take i ++ sub := by
    conv_lhs => rw [hsplit.1]
    rw [List.append_assoc, List.take_append_eq_append_take]
    have e1 : (List.take i x).length = i := by rw [List.length_take]; omega
    rw [List.take_of_length_le (by omega), e1]
    simp
  have hy2 : y = (x.take i ++ sub) ++ y.drop (i + sub.length) := by
    rw [← hx, ← hy, List.take_append_drop]
  have hpre : Index (x.take i ++ sub) sub = some i := by
    rw [Index_eq_some_iff]
    have e1 : (List.take i x).length = i := by rw [List.length_take]; omega
    refine ⟨by rw [List.length_append]; omega, ?_, ?_⟩
    · rw [List.drop_append_of_le_length (by omega), List.drop_of_length_le (by omega)]
      simp
    · intro j hj hp
      apply h3 j hj
      rw [hsplit.1, List.append_assoc, List.drop_append_of_le_length (by omega)]
      rw [List.drop_append_of_le_length (by omega)] at hp
      rw [← List.append_assoc]
      exact hp.trans (List.prefix_append _ _)
  rw [hy2]
  exact Index_append_of_some hpre _

/-! ## Lemmas on `stripRunes` and `TrimSpace` -/

section strip
variable (p1 : Nat → Bool) (p2 : Nat → Nat → Bool) (p3 : Nat → Nat → Nat → Bool)

theorem strip_one {a : Nat} (h : p1 a = true) (s : Str) :
    stripRunes p1 p2 p3 (a :: s) = stripRunes p1 p2 p3 s := by
  match s with
  | [] => simp [stripRunes, h]
  | [b] => simp [stripRunes, h]
  | b :: c :: t => simp [stripRunes, h]

theorem strip_two {a b : Nat} (h1 : p1 a = false) (h2 : p2 a b = true) (s : Str) :
    stripRunes p1 p2 p3 (a :: b :: s) = stripRunes p1 p2 p3 s := by
  match s with
  | [] => simp [stripRunes, h1, h2]
  | c :: t => simp [stripRunes, h1, h2]

theorem strip_three {a b c : Nat} (h1 : p1 a = false) (h2 : p2 a b = false)
    (h3 : p3 a b c = true) (s : Str) :
    stripRunes p1 p2 p3 (a :: b :: c :: s) = stripRunes p1 p2 p3 s := by
  simp [stripRunes, h1, h2, h3]

theorem strip_inert_cons {c : Nat} (h : Inert p1 p2 p3 c) (t : Str) :
    stripRunes p1 p2 p3 (c :: t) = c :: t := by
  obtain ⟨h1, h2, h3⟩ := h
  match t with
  | [] => simp [stripRunes, h1]
  | [b] => simp [stripRunes, h1, (h2 b).1]
  | b :: d :: u => simp [stripRunes, h1, (h2 b).1, (h3 b d).1]

theorem strip_append_inert {c : Nat} (h : Inert p1 p2 p3 c) (p t : Str) :
    stripRunes p1 p2 p3 (p ++ c :: t) = stripRunes p1 p2 p3 p ++ c :: t := by
  induction p using stripRunes.induct p1 p2 p3 with
  | case1 => simpa using strip_inert_cons p1 p2 p3 h t
  | case2 a ha =>
    rw [List.singleton_append, strip_one p1 p2 p3 ha, strip_inert_cons p1 p2 p3 h]
    simp [stripRunes, ha]
  | case3 a ha =>
    have ha' : p1 a = false := by simpa using ha
    match t with
    | [] => simp [stripRunes, ha', (h.2.1 a).2]
    | d :: u => simp [stripRunes, ha', (h.2.1 a).2, (h.2.2 a d).2.1]
  | case4 a b ha ih =>
    have e : [a, b] ++ c :: t = a :: ([b] ++ c :: t) := rfl
    rw [e, strip_one p1 p2 p3 ha, ih, strip_one p1 p2 p3 ha]
  | case5 a b ha hb =>
    have ha' : p1 a = false := by simpa using ha
    have e : [a, b] ++ c :: t = a :: b :: (c :: t) := rfl
    rw [e, strip_two p1 p2 p3 ha' hb, strip_inert_cons p1 p2 p3 h]
    simp [stripRunes, ha', hb]
  | case6 a b ha hb =>
    have ha' : p1 a = false := by simpa using ha
    have hb' : p2 a b = false := by simpa using hb
    simp [stripRunes, ha', hb', (h.2.2 a b).2.2]
  | case7 a b d u ha ih =>
    have e : a :: b :: d :: u ++ c :: t = a :: (b :: d :: u ++ c :: t) := rfl
    rw [e, strip_one p1 p2 p3 ha, ih, strip_one p1 p2 p3 ha]
  | case8 a b d u ha hb ih =>
    have ha' : p1 a = false := by simpa using ha
    have e : a :: b :: d :: u ++ c :: t = a :: b :: (d :: u ++ c :: t) := rfl
    rw [e, strip_two p1 p2 p3 ha' hb, ih, strip_two p1 p2 p3 ha' hb]
  | case9 a b d u ha hb hd ih =>
    have ha' : p1 a = false := by simpa using ha
    have hb' : p2 a b = false := by simpa using hb
    have e : a :: b :: d :: u ++ c :: t = a :: b :: d :: (u ++ c :: t) := rfl
    rw [e, strip_three p1 p2 p3 ha' hb' hd, ih, strip_three p1 p2 p3 ha' hb' hd]
  | case10 a b d u ha hb hd =>
    have ha' : p1 a = false := by simpa using ha
    have hb' : p2 a b = false := by simpa using hb
    have hd' : p3 a b d = false := by simpa using hd
    simp [stripRunes, ha', hb', hd']

/-- What `stripRunes` removes holds no inert byte, and what it leaves starts
with no sequence to remove. -/
theorem strip_split (s : Str) :
    ∃ w, s = w ++ stripRunes p1 p2 p3 s ∧ (∀ c ∈ w, ¬ Inert p1 p2 p3 c) ∧
      stripRunes p1 p2 p3 (stripRunes p1 p2 p3 s) = stripRunes p1 p2 p3 s := by
  induction s using stripRunes.induct p1 p2 p3 with
  | case1 => exact ⟨[], by simp [stripRunes]⟩
  | case2 a ha =>
    refine ⟨[a], by simp [stripRunes, ha], ?_, by simp [stripRunes, ha]⟩
    intro c hc hi
    simp only [List.mem_singleton] at hc
    subst hc
    rw [hi.1] at ha
    cases ha
  | case3 a ha => exact ⟨[], by simp [stripRunes, ha]⟩
  | case4 a b ha ih =>
    obtain ⟨w, hw, hin, hid⟩ := ih
    rw [strip_one p1 p2 p3 ha]
    refine ⟨a :: w, by rw [List.cons_append, ← hw], ?_, hid⟩
    intro c hc hi
    rcases List.mem_cons.mp hc with rfl | hc
    · rw [hi.1] at ha; cases ha
    · exact hin c hc hi
  | case5 a b ha hb =>
    have ha' : p1 a = false := by simpa using ha
    refine ⟨[a, b], by simp [stripRunes, ha', hb], ?_, by simp [stripRunes, ha', hb]⟩
    intro c hc hi
    simp only [List.mem_cons, List.mem_singleton, List.not_mem_nil, or_false] at hc
    rcases hc with rfl | rfl
    · rw [(hi.2.1 b).1] at hb; cases hb
    · rw [(hi.2.1 a).2] at hb; cases hb
  | case6 a b ha hb =>
    have ha' : p1 a = false := by simpa using ha
    have hb' : p2 a b = false := by simpa using hb
    exact ⟨[], by simp [stripRunes, ha', hb']⟩
  | case7 a b d u ha ih =>
    obtain ⟨w, hw, hin, hid⟩ := ih
    rw [strip_one p1 p2 p3 ha]
    refine ⟨a :: w, by rw [List.cons_append, ← hw], ?_, hid⟩
    intro c hc hi
    rcases List.mem_cons.mp hc with rfl | hc
    · rw [hi.1] at ha; cases ha
    · exact hin c hc hi
  | case8 a b d u ha hb ih =>
    have ha' : p1 a = false := by simpa using ha
    obtain ⟨w, hw, hin, hid⟩ := ih
    rw [strip_two p1 p2 p3 ha' hb]
    refine ⟨a :: b :: w, by rw [List.cons_append, List.cons_append, ← hw], ?_, hid⟩
    intro c hc hi
    rcases List.mem_cons.mp hc with rfl | hc
    · rw [(hi.2.1 b).1] at hb; cases hb
    · rcases List.mem_cons.mp hc with rfl | hc
      · rw [(hi.2.1 a).2] at hb; cases hb
      · exact hin c hc hi
  | case9 a b d u ha hb hd ih =>
    have ha' : p1 a = false := by simpa using ha
    have hb' : p2 a b = false := by simpa using hb
    obtain ⟨w, hw, hin, hid⟩ := ih
    rw [strip_three p1 p2 p3 ha' hb' hd]
    refine ⟨a :: b :: d :: w, by simp only [List.cons_append, ← hw], ?_, hid⟩
    intro c hc hi
    rcases List.mem_cons.mp hc with rfl | hc
    · rw [(hi.2.2 b d).1] at hd; cases hd
    · rcases List.mem_cons.mp hc with rfl | hc
      · rw [(hi.2.2 a d).2.1] at hd; cases hd
      · rcases List.mem_cons.mp hc with rfl | hc
        · rw [(hi.2.2 a b).2.2] at hd; cases hd
        · exact hin c hc hi
  | case10 a b d u ha hb hd =>
    have ha' : p1 a = false := by simpa using ha
    have hb' : p2 a b = false := by simpa using hb
    have hd' : p3 a b d = false := by simpa using hd
    exact ⟨[], by simp [stripRunes, ha', hb', hd']⟩

end strip

theorem Solid.inert_left {c : Nat} (h : Solid c) : Inert isAsciiSpace isSpace2 isSpace3 c := by
  obtain ⟨h1, h2⟩ := h
  refine ⟨h2, fun x => ⟨?_, ?_⟩, fun x y => ⟨?_, ?_, ?_⟩⟩
  all_goals
    simp only [isSpace2, isSpace3, Bool.and_eq_false_iff, Bool.or_eq_false_iff, beq_eq_false_iff_ne,
      decide_eq_false_iff_not, Bool.decide_eq_false, Bool.not_eq_true]
    omega

theorem Solid.inert_right {c : Nat} (h : Solid c) :
    Inert isAsciiSpace (fun b a => isSpace2 a b) (fun c b a => isSpace3 a b c) c := by
  obtain ⟨h1, h2⟩ := h
  refine ⟨h2, fun x => ⟨?_, ?_⟩, fun x y => ⟨?_, ?_, ?_⟩⟩
  all_goals
    simp only [isSpace2, isSpace3, Bool.and_eq_false_iff, Bool.or_eq_false_iff, beq_eq_false_iff_ne,
      decide_eq_false_iff_not, Bool.decide_eq_false, Bool.not_eq_true]
    omega

theorem solid_LT : Solid LT := ⟨by decide, by decide⟩
theorem solid_GT : Solid GT := ⟨by decide, by decide⟩

theorem trimLeft_solid_cons {c : Nat} (h : Solid c) (t : Str) : trimLeft (c :: t) = c :: t :=
  strip_inert_cons _ _ _ h.inert_left t

theorem trimLeft_append_solid {c : Nat} (h : Solid c) (p t : Str) :
    trimLeft (p ++ c :: t) = trimLeft p ++ c :: t :=
  strip_append_inert _ _ _ h.inert_left p t

theorem trimRight_append_solid {c : Nat} (h : Solid c) (x y : Str) :
    trimRight (x ++ c :: y) = x ++ c :: trimRight y := by
  simp only [trimRight, List.reverse_append, List.reverse_cons, List.append_assoc,
    List.singleton_append]
  rw [strip_append_inert _ _ _ h.inert_right]
  simp

theorem trimLeft_idem (s : Str) : trimLeft (trimLeft s) = trimLeft s :=
  (strip_split _ _ _ s).choose_spec.2.2

theorem trimRight_idem (s : Str) : trimRight (trimRight s) = trimRight s := by
  simp only [trimRight, List.reverse_reverse]
  rw [(strip_split _ _ _ s.reverse).choose_spec.2.2]

theorem trimLeft_split (s : Str) :
    ∃ w, s = w ++ trimLeft s ∧ ∀ c ∈ w, ¬ Solid c := by
  obtain ⟨w, hw, hin, _⟩ := strip_split isAsciiSpace isSpace2 isSpace3 s
  exact ⟨w, hw, fun c hc hs => hin c hc hs.inert_left⟩

theorem trimRight_split (s : Str) :
    ∃ w, s = trimRight s ++ w ∧ ∀ c ∈ w, ¬ Solid c := by
  obtain ⟨w, hw, hin, _⟩ := strip_split isAsciiSpace (fun b a => isSpace2 a b)
    (fun c b a => isSpace3 a b c) s.reverse
  refine ⟨w.reverse, ?_, fun c hc hs => hin c (List.mem_reverse.mp hc) hs.inert_right⟩
  have := congrArg List.reverse hw
  simpa [trimRight] using this

theorem trimLeft_nil : trimLeft [] = [] := by simp [trimLeft, stripRunes]
theorem trimRight_nil : trimRight [] = [] := by simp [trimRight, stripRunes]
theorem TrimSpace_nil : TrimSpace [] = [] := by simp [TrimSpace, trimLeft_nil, trimRight_nil]

/-- `TrimSpace s` is a contiguous part of `s`; a solid byte is never removed. -/
theorem TrimSpace_split (s : Str) :
    ∃ w1 w2, s = w1 ++ TrimSpace s ++ w2 ∧ (∀ c ∈ w1, ¬ Solid c) ∧ (∀ c ∈ w2, ¬ Solid c) := by
  obtain ⟨w1, h1, hs1⟩ := trimLeft_split s
  obtain ⟨w2, h2, hs2⟩ := trimRight_split (trimLeft s)
  refine ⟨w1, w2, ?_, hs1, hs2⟩
  rw [TrimSpace, List.append_assoc, ← h2, ← h1]

theorem TrimSpace_length_le (s : Str) : (TrimSpace s).length ≤ s.length := by
  obtain ⟨w1, w2, h, _⟩ := TrimSpace_split s
  have := congrArg List.length h
  simp only [List.length_append] at this
  omega

theorem mem_of_mem_TrimSpace {s : Str} {c : Nat} (h : c ∈ TrimSpace s) : c ∈ s := by
  obtain ⟨w1, w2, hs, _⟩ := TrimSpace_split s
  rw [hs]
  simp [h]

/-- `TrimSpace` of a string that contains `<`: the white space before the first
`<` and after it is trimmed separately. -/
theorem TrimSpace_lt (p t : Str) :
    TrimSpace (p ++ LT :: t) = trimLeft p ++ LT :: trimRight t := by
  rw [TrimSpace, trimLeft_append_solid solid_LT, trimRight_append_solid solid_LT]

theorem TrimSpace_lt_idem (p t : Str) :
    TrimSpace (trimLeft p ++ LT :: trimRight t) = trimLeft p ++ LT :: trimRight t := by
  rw [TrimSpace_lt, trimLeft_idem, trimRight_idem]

theorem TrimSpace_lt_cons (t : Str) :
    TrimSpace (LT :: trimRight t) = LT :: trimRight t := by
  have := TrimSpace_lt_idem [] t
  simpa [trimLeft_nil] using this

/-! ## The matcher on the two patterns -/

/-- A greedy repetition whose continuation rejects every input that starts with
a byte of the class takes the longest run. -/
theorem starLoop_longest (p : Nat → Bool) (k : MState → Option MState)
    (hk : ∀ pos c t caps, p c = true → k ⟨pos, c :: t, caps⟩ = none)
    (caps : List (Nat × Nat × Nat)) (pos : Nat) (s : Str) :
    starLoop p k caps pos s =
      k ⟨pos + (s.takeWhile p).length, s.dropWhile p, caps⟩ := by
  induction s generalizing pos with
  | nil => simp [starLoop]
  | cons c t ih =>
    by_cases hc : p c = true
    · simp only [starLoop, hc, if_true, List.takeWhile_cons_of_pos, List.length_cons,
        List.dropWhile_cons_of_pos]
      rw [ih, hk pos c t caps hc]
      have : pos + 1 + (List.takeWhile p t).length = pos + ((List.takeWhile p t).length + 1) := by
        omega
      rw [this]
      cases k ⟨pos + ((List.takeWhile p t).length + 1), List.dropWhile p t, caps⟩ <;> rfl
    · simp [starLoop, hc]

theorem tailK_no_gt (k : MState → Option MState) (pos : Nat) (u : Str)
    (caps : List (Nat × Nat × Nat)) (h : GT ∉ u) : tailK k ⟨pos, u, caps⟩ = none := by
  simp only [tailK, Regex.run]
  induction u generalizing pos with
  | nil => simp [starLoop, Regex.run]
  | cons c t ih =>
    have hc : c ≠ GT := fun e => h (by simp [e])
    have ht : GT ∉ t := fun e => h (by simp [e])
    simp only [starLoop, Regex.run, ih _ ht]
    simp [hc]

theorem tailK_gt (k : MState → Option MState) (pos : Nat) (t : Str)
    (caps : List (Nat × Nat × Nat)) : tailK k ⟨pos, GT :: t, caps⟩ = k ⟨pos + 1, t, caps⟩ := by
  simp [tailK, Regex.run, starLoop, isReSpace, GT]

theorem Index_gt_cons (c : Nat) (t : Str) (hc : c ≠ GT) :
    Index (c :: t) [GT] = (Index t [GT]).map (· + 1) := by
  have hpre : List.isPrefixOf [GT] (c :: t) = false := by
    simp [List.isPrefixOf, Ne.symm hc]
  rw [Index_cons, hpre]
  cases Index t [GT] <;> rfl

theorem Index_gt_head (t : Str) : Index (GT :: t) [GT] = some 0 := by
  simp [Index_cons, List.isPrefixOf]

theorem isReSpace_GT : isReSpace GT = false := by decide

theorem isReSpace_ne_gt {c : Nat} (h : isReSpace c = true) : c ≠ GT := by
  intro e; subst e; simp [isReSpace, GT] at h

theorem notGt_loop (p0 : Nat) (caps : List (Nat × Nat × Nat)) (pos : Nat) (u : Str) :
    starLoop (· != GT) (closeK p0) caps pos u =
      match Index u [GT] with
      | none => none
      | some q => some ⟨pos + q + 1, u.drop (q + 1), (2, p0, pos + q) :: caps⟩ := by
  induction u generalizing pos with
  | nil => simp [starLoop, closeK, tailK_no_gt, Index]
  | cons c t ih =>
    by_cases hc : c = GT
    · subst hc
      simp [starLoop, closeK, tailK_gt, Index_cons]
    · have hne : (c != GT) = true := by simpa using hc
      simp only [starLoop, hne, if_true]
      rw [ih, Index_gt_cons c t hc]
      cases hi : Index t [GT] with
      | none =>
        have hn : GT ∉ c :: t := by
          have := Index_byte_none hi
          simp [this, Ne.symm hc]
        simp [closeK, tailK_no_gt _ _ _ _ hn]
      | some q =>
        simp only [Option.map_some', List.drop_succ_cons]
        have e1 : pos + 1 + q = pos + (q + 1) := by omega
        rw [e1]

theorem ws_loop (p0 : Nat) (caps : List (Nat × Nat × Nat)) (pos : Nat) (t : Str) :
    starLoop isReSpace (attrK p0) caps pos t =
      match Index t [GT] with
      | none => none
      | some 0 => none
      | some (q + 1) => some ⟨pos + q + 2, t.drop (q + 2), (2, p0, pos + q + 1) :: caps⟩ := by
  induction t generalizing pos with
  | nil => simp [starLoop, attrK, Regex.run, Index]
  | cons c u ih =>
    by_cases hg : c = GT
    · subst hg
      simp [starLoop, attrK, Regex.run, Index_gt_head, isReSpace_GT]
    · have hne : (c != GT) = true := by simpa using hg
      have hA : attrK p0 ⟨pos, c :: u, caps⟩ =
          match Index u [GT] with
          | none => none
          | some q => some ⟨pos + 1 + q + 1, u.drop (q + 1), (2, p0, pos + 1 + q) :: caps⟩ := by
        simp only [attrK, Regex.run, hne, if_true]
        exact notGt_loop p0 caps (pos + 1) u
      rw [Index_gt_cons c u hg]
      by_cases hw : isReSpace c = true
      · simp only [starLoop, hw, if_true]
        rw [ih, hA]
        cases hi : Index u [GT] with
        | none => rfl
        | some q =>
          cases q with
          | zero => rfl
          | succ q =>
            simp only [Option.map_some', List.drop_succ_cons]
            have e1 : pos + 1 + q + 2 = pos + (q + 1) + 2 := by omega
            have e2 : pos + 1 + q + 1 = pos + (q + 1) + 1 := by omega
            rw [e1, e2]
      · simp only [starLoop, hw, Bool.false_eq_true, if_false]
        rw [hA]
        cases hi : Index u [GT] with
        | none => rfl
        | some q =>
          simp only [Option.map_some', List.drop_succ_cons]
          have e1 : pos + 1 + q + 1 = pos + q + 2 := by omega
          have e2 : pos + 1 + q = pos + q + 1 := by omega
          rw [e1, e2]

/-- The part `((?:\s+[^>]+)?)\s*>` of the opening-tag pattern, from offset `p0`. -/
theorem attrs_run (p0 : Nat) (caps : List (Nat × Nat × Nat)) (rest : Str) :
    (Regex.group 2 (.opt (.seq (.plus isReSpace) (.plus (· != GT))))).run
        ⟨p0, rest, caps⟩ (tailK some) =
      match rest with
      | [] => none
      | d :: t =>
        if d = GT then some ⟨p0 + 1, t, (2, p0, p0) :: caps⟩
        else if isReSpace d = true then
          match Index t [GT] with
          | none => none
          | some q =>
            some ⟨p0 + q + 2, t.drop (q + 1),
              (2, p0, if q = 0 then p0 else p0 + q + 1) :: caps⟩
        else none := by
  have hrun : (Regex.group 2 (.opt (.seq (.plus isReSpace) (.plus (· != GT))))).run
        ⟨p0, rest, caps⟩ (tailK some) =
      match (Regex.plus isReSpace).run ⟨p0, rest, caps⟩ (attrK p0) with
      | some r => some r
      | none => closeK p0 ⟨p0, rest, caps⟩ := rfl
  rw [hrun]
  cases rest with
  | nil => simp [Regex.run, closeK, tailK_no_gt]
  | cons d t =>
    by_cases hg : d = GT
    · subst hg
      simp [Regex.run, closeK, tailK_gt, isReSpace_GT]
    · by_cases hw : isReSpace d = true
      · simp only [Regex.run, hw, if_true, hg, if_false]
        rw [ws_loop]
        cases hi : Index t [GT] with
        | none =>
          have hn : GT ∉ d :: t := by
            have := Index_byte_none hi
            simp [this, Ne.symm hg]
          simp [closeK, tailK_no_gt _ _ _ _ hn]
        | some q =>
          cases q with
          | zero =>
            have h0 := (Index_eq_some_iff t [GT] 0).mp hi
            obtain ⟨v, hv⟩ : ∃ v, t = GT :: v := by
              have := h0.2.1
              simp only [List.drop_zero] at this
              obtain ⟨w, hw⟩ := this
              exact ⟨w, by simpa using hw.symm⟩
            subst hv
            simp [closeK, tailK, Regex.run, starLoop, hw, isReSpace_GT]
          | succ q =>
            simp only [List.drop_succ_cons, Nat.add_one_ne_zero, if_false]
            have e1 : p0 + 1 + q + 2 = p0 + (q + 1) + 2 := by omega
            have e2 : p0 + 1 + q + 1 = p0 + (q + 1) + 1 := by omega
            rw [e1, e2]
      · simp only [Regex.run, hw, Bool.false_eq_true, if_false, hg]
        simp [closeK, tailK, Regex.run, starLoop, hw, hg]

theorem isNameByte_not_space {c : Nat} (h : isNameByte c = true) : isReSpace c = false := by
  simp only [isNameByte, Bool.or_eq_true, Bool.and_eq_true, decide_eq_true_eq, beq_iff_eq] at h
  simp only [isReSpace, Bool.or_eq_false_iff, beq_eq_false_iff_ne]
  omega

theorem isNameByte_ne_gt {c : Nat} (h : isNameByte c = true) : c ≠ GT := by
  simp only [isNameByte, Bool.or_eq_true, Bool.and_eq_true, decide_eq_true_eq, beq_iff_eq] at h
  simp only [GT]
  omega

theorem isNameByte_ne_lt {c : Nat} (h : isNameByte c = true) : c ≠ LT := by
  simp only [isNameByte, Bool.or_eq_true, Bool.and_eq_true, decide_eq_true_eq, beq_iff_eq] at h
  simp only [LT]
  omega

theorem nameK_rejects (pos c : Nat) (t : Str) (caps : List (Nat × Nat × Nat))
    (h : isNameByte c = true) : nameK ⟨pos, c :: t, caps⟩ = none := by
  simp only [nameK]
  rw [attrs_run]
  simp [isNameByte_ne_gt h, isNameByte_not_space h]

/-- The opening-tag pattern matches exactly as `tagOpenClosed` says. -/
theorem tagOpen_matchStart_eq (input : Str) :
    tagOpen.matchStart input = tagOpenClosed input := by
  cases input with
  | nil => rfl
  | cons c r =>
    have hrun : tagOpen.matchStart (c :: r) =
        if (c == LT) = true then (Regex.plus isNameByte).run ⟨1, r, []⟩ nameK else none := rfl
    rw [hrun]
    by_cases hc : c = LT
    · subst hc
      simp only [beq_self_eq_true, if_true, tagOpenClosed]
      cases r with
      | nil => simp [Regex.run]
      | cons a t =>
        by_cases ha : isNameByte a = true
        · simp only [Regex.run, ha, if_true, List.takeWhile_cons_of_pos, List.length_cons,
            Nat.add_one_ne_zero, if_false, List.dropWhile_cons_of_pos]
          rw [starLoop_longest isNameByte nameK nameK_rejects]
          simp only [nameK]
          rw [attrs_run]
          cases hd : List.dropWhile isNameByte t with
          | nil => rfl
          | cons d u =>
            simp only
            have e1 : 1 + 1 + (List.takeWhile isNameByte t).length
                = (List.takeWhile isNameByte t).length + 1 + 1 := by omega
            rw [e1]
            by_cases hg : d = GT
            · simp [hg]
            · simp only [hg, if_false]
              by_cases hw : isReSpace d = true
              · simp only [hw, if_true]
                cases Index u [GT] with
                | none => rfl
                | some q =>
                  simp only
                  have e2 : (List.takeWhile isNameByte t).length + 1 + 1 + q + 2
                      = (List.takeWhile isNameByte t).length + 1 + q + 3 := by omega
                  have e3 : (List.takeWhile isNameByte t).length + 1 + 1 + q + 1
                      = (List.takeWhile isNameByte t).length + 1 + q + 2 := by omega
                  rw [e2, e3]
              · simp [hw]
        · simp [Regex.run, ha]
    · simp [hc, tagOpenClosed]

/-! ## The opening tag -/

theorem takeWhile_name_append {name s : Str} (hn : ∀ c ∈ name, isNameByte c = true)
    (hs : ∀ d t, s = d :: t → isNameByte d = false) :
    (name ++ s).takeWhile isNameByte = name ∧ (name ++ s).dropWhile isNameByte = s := by
  induction name with
  | nil =>
    cases s with
    | nil => simp
    | cons d t => simp [hs d t rfl]
  | cons a u ih =>
    have ha : isNameByte a = true := hn a (by simp)
    have := ih (fun c hc => hn c (by simp [hc]))
    simp [ha, this.1, this.2]

theorem isReSpace_not_name {c : Nat} (h : isReSpace c = true) : isNameByte c = false := by
  cases hn : isNameByte c with
  | false => rfl
  | true => rw [isNameByte_not_space hn] at h; cases h

theorem isNameByte_GT : isNameByte GT = false := by decide

/-- The pattern matches every input that begins with a well-formed opening tag. -/
theorem tagOpen_of_opensWith {input name region rest : Str}
    (h : OpensWith input name region rest) :
    tagOpen.matchStart input =
      some ⟨name.length + region.length + 2, rest,
        [(2, name.length + 1, name.length + 1 + (attrText region).length),
          (1, 1, name.length + 1)]⟩ := by
  obtain ⟨hne, hname, hreg, hgt, hin⟩ := h
  rw [tagOpen_matchStart_eq, hin, tagOpenClosed]
  have hs : ∀ d t, region ++ GT :: rest = d :: t → isNameByte d = false := by
    intro d t hd
    rcases hreg with rfl | ⟨c, u, rfl, hc⟩
    · simp only [List.nil_append, List.cons.injEq] at hd
      rw [← hd.1]; exact isNameByte_GT
    · simp only [List.cons_append, List.cons.injEq] at hd
      rw [← hd.1]; exact isReSpace_not_name hc
  have htd := takeWhile_name_append hname hs
  rw [List.append_assoc] 
  simp only [if_true, htd.1, htd.2]
  have hlen : name.length ≠ 0 := by
    intro e; exact hne (List.length_eq_zero.mp e)
  rw [if_neg hlen]
  rcases hreg with rfl | ⟨c, u, rfl, hc⟩
  · simp [attrText]
  · have hcg : c ≠ GT := isReSpace_ne_gt hc
    have hu : GT ∉ u := fun e => hgt (by simp [e])
    simp only [List.cons_append, hcg, if_false, hc, if_true, Index_byte_append hu]
    simp only [List.length_cons, attrText]
    have e1 : List.drop (u.length + 1) (u ++ GT :: rest) = rest := by
      rw [List.drop_append]; rfl
    rw [e1]
    by_cases hu0 : u.length = 0
    · simp [hu0]
    · have h2 : ¬ (u.length + 1 ≤ 1) := by omega
      simp only [hu0, if_false, h2, List.length_cons]
      have e2 : name.length + (u.length + 1) + 2 = name.length + u.length + 3 := by omega
      have e3 : name.length + 1 + (u.length + 1) = name.length + u.length + 2 := by omega
      rw [e2, e3]

/-- Whatever the pattern matches is a well-formed opening tag. -/
theorem opensWith_of_tagOpen {input : Str} {loc : MState}
    (h : tagOpen.matchStart input = some loc) :
    ∃ name region rest, OpensWith input name region rest := by
  rw [tagOpen_matchStart_eq] at h
  cases input with
  | nil => simp [tagOpenClosed] at h
  | cons c r =>
    simp only [tagOpenClosed] at h
    by_cases hc : c = LT
    · subst hc
      simp only [if_true] at h
      by_cases hn : (List.takeWhile isNameByte r).length = 0
      · simp [hn] at h
      · rw [if_neg hn] at h
        have hname : ∀ x ∈ List.takeWhile isNameByte r, isNameByte x = true :=
          fun x hx => List.mem_takeWhile_imp hx
        have hnil : List.takeWhile isNameByte r ≠ [] := fun e => hn (by rw [e]; rfl)
        cases hd : List.dropWhile isNameByte r with
        | nil => simp [hd] at h
        | cons d t =>
          have hr : r = List.takeWhile isNameByte r ++ d :: t := by
            rw [← hd, List.takeWhile_append_dropWhile]
          rw [hd] at h
          simp only at h
          by_cases hg : d = GT
          · subst hg
            refine ⟨List.takeWhile isNameByte r, [], t, hnil, hname, Or.inl rfl, by simp, ?_⟩
            rw [List.append_nil, ← hr]
          · rw [if_neg hg] at h
            by_cases hw : isReSpace d = true
            · rw [if_pos hw] at h
              cases hi : Index t [GT] with
              | none => simp [hi] at h
              | some q =>
                obtain ⟨hsplit, hnot, _⟩ := Index_byte_some hi
                refine ⟨List.takeWhile isNameByte r, d :: t.take q, t.drop (q + 1), hnil, hname,
                  Or.inr ⟨d, _, rfl, hw⟩, ?_, ?_⟩
                · simp [Ne.symm hg, hnot]
                · rw [List.append_assoc, List.cons_append, ← hsplit, ← hr]
            · simp [hw] at h
    · simp [hc] at h

theorem tagOpen_none_iff (input : Str) :
    tagOpen.matchStart input = none ↔ ¬ ∃ name region rest, OpensWith input name region rest := by
  constructor
  · rintro h ⟨name, region, rest, ho⟩
    rw [tagOpen_of_opensWith ho] at h
    cases h
  · intro h
    cases hm : tagOpen.matchStart input with
    | none => rfl
    | some loc => exact absurd (opensWith_of_tagOpen hm) h

/-- The opening tag of an input is unique. -/
theorem OpensWith.unique {input n1 r1 s1 n2 r2 s2 : Str}
    (h1 : OpensWith input n1 r1 s1) (h2 : OpensWith input n2 r2 s2) :
    n1 = n2 ∧ r1 = r2 ∧ s1 = s2 := by
  have e1 := tagOpen_of_opensWith h1
  have e2 := tagOpen_of_opensWith h2
  rw [e1] at e2
  simp only [Option.some.injEq, MState.mk.injEq, List.cons.injEq, Prod.mk.injEq, true_and,
    and_true] at e2
  obtain ⟨hp, hs, ⟨hn, _⟩, _⟩ := e2
  have hn' : n1.length = n2.length := by omega
  have hr' : r1.length = r2.length := by omega
  have hi1 := h1.2.2.2.2
  have hi2 := h2.2.2.2.2
  rw [hi1] at hi2
  simp only [List.cons.injEq, true_and, List.append_assoc] at hi2
  have := List.append_inj hi2 hn'
  have := List.append_inj this.2 hr'
  exact ⟨by tauto, by tauto, hs⟩

/-! ## `parseNode`, one level unfolded -/

theorem bytes_open : bytes "</" = [LT, SLASH] := by rfl
theorem bytes_close : bytes ">" = [GT] := by rfl

theorem endTagOf_eq (name : Str) : endTagOf name = LT :: SLASH :: (name ++ [GT]) := by
  simp [endTagOf, bytes_open, bytes_close]

theorem endTagOf_length (name : Str) : (endTagOf name).length = name.length + 3 := by
  simp [endTagOf_eq]

theorem slice_name (name tail : Str) :
    slice (LT :: (name ++ tail)) 1 (name.length + 1) = name := by
  simp [slice]

theorem slice_region (name region tail : Str) :
    slice (LT :: (name ++ region ++ tail)) (name.length + 1)
      (name.length + 1 + (attrText region).length) = attrText region := by
  simp only [slice, attrText]
  by_cases h : region.length ≤ 1
  · simp [h]
  · simp only [h, if_false]
    have e : name.length + 1 + region.length = (name ++ region).length + 1 := by
      simp; omega
    rw [e, List.take_succ_cons, List.take_left', List.drop_succ_cons, List.drop_left']
    · rfl
    · rfl

theorem drop_opening (name region rest : Str) :
    List.drop (name.length + region.length + 2) (LT :: (name ++ region ++ GT :: rest)) = rest := by
  have e : name.length + region.length + 2 = (name ++ region).length + 1 + 1 := by simp
  rw [e, List.drop_succ_cons, List.drop_append]
  rfl

theorem parseNodeFuel_no_tag {input : Str} (h : tagOpen.matchStart input = none) (f : Nat) :
    parseNodeFuel (f + 1) input = some (.err (.invalidTagStart input)) := by
  simp [parseNodeFuel, h]

/-- One level of `parseNode` on an input that begins with an opening tag. -/
theorem parseNodeFuel_opens {input name region rest : Str}
    (h : OpensWith input name region rest) (f : Nat) :
    parseNodeFuel (f + 1) input =
      match Index rest (endTagOf name) with
      | none => some (.err (.unclosedTag name))
      | some endIdx =>
        match parseChildrenLoop (parseNodeFuel f) ((rest.take endIdx).length + 1)
            (rest.take endIdx) [] [] with
        | none => none
        | some (children, text) =>
          some (.ok (.mk name (parseAttributes (attrText region)) children text)
            (name.length + region.length + 2 + endIdx + (endTagOf name).length)) := by
  have hm := tagOpen_of_opensWith h
  have hin := h.2.2.2.2
  simp only [parseNodeFuel, hm, MState.group, List.find?]
  have e1 : ((2 : Nat) == 1) = false := by decide
  have e2 : ((2 : Nat) == 2) = true := by decide
  have e3 : ((1 : Nat) == 1) = true := by decide
  simp only [e1, e2, e3]
  rw [hin, List.append_assoc, slice_name, ← List.append_assoc, slice_region, drop_opening]
  try rfl

/-! ## Fuel -/

/-- A text span skipped by a loop is not empty. -/
theorem Index_lt_pos {b : Str} {i : Nat} (hh : b.head? ≠ some LT) (hi : Index b [LT] = some i) :
    0 < i := by
  rcases Nat.eq_zero_or_pos i with h0 | h0
  · subst h0
    obtain ⟨hs, _, _⟩ := Index_byte_some hi
    rw [hs] at hh
    simp at hh
  · exact h0

theorem drop_length_lt {b : Str} {i : Nat} (hb : b.length ≠ 0) (hi : 0 < i) :
    (b.drop i).length < b.length := by
  rw [List.length_drop]; omega

/-- The loop of `parseChildren` asks `pn` only about strings no longer than the body. -/
theorem parseChildrenLoop_congr (pn pn' : Str → Option NodeResult) (n : Nat) :
    ∀ (b : Str) (r : List Node) (t : Str), (∀ y : Str, y.length ≤ b.length → pn y = pn' y) →
      parseChildrenLoop pn n b r t = parseChildrenLoop pn' n b r t := by
  induction n with
  | zero => intro b r t _; rfl
  | succ m ih =>
    intro b r t h
    have hle := TrimSpace_length_le b
    simp only [parseChildrenLoop]
    split
    · rfl
    · split
      · split
        · rfl
        · rename_i i hi
          apply ih
          intro y hy
          apply h
          rw [List.length_drop] at hy
          omega
      · rw [← h (TrimSpace b) hle]
        split
        · rfl
        · rfl
        · rename_i node c hc
          apply ih
          intro y hy
          apply h
          rw [List.length_drop] at hy
          omega

/-- Surplus fuel does not change the result of the loop of `parseChildren`. -/
theorem parseChildrenLoop_fuel (pn : Str → Option NodeResult)
    (hprog : ∀ y node c, pn y = some (.ok node c) → 0 < c) (n : Nat) :
    ∀ (n' : Nat) (b : Str) (r : List Node) (t : Str), b.length < n → b.length < n' →
      parseChildrenLoop pn n b r t = parseChildrenLoop pn n' b r t := by
  induction n with
  | zero => intro n' b r t h; omega
  | succ m ih =>
    intro n' b r t h h'
    obtain ⟨m', rfl⟩ : ∃ m', n' = m' + 1 := ⟨n' - 1, by omega⟩
    have hle := TrimSpace_length_le b
    simp only [parseChildrenLoop]
    split
    · rfl
    · rename_i hne
      split
      · rename_i hh
        split
        · rfl
        · rename_i i hi
          have := drop_length_lt hne (Index_lt_pos hh hi)
          apply ih <;> omega
      · split
        · rfl
        · rfl
        · rename_i node c hc
          have := drop_length_lt hne (hprog _ _ _ hc)
          apply ih <;> omega

/-- With fuel above the length of the body the loop of `parseChildren` returns. -/
theorem parseChildrenLoop_total (pn : Str → Option NodeResult)
    (hprog : ∀ y node c, pn y = some (.ok node c) → 0 < c) (n : Nat) :
    ∀ (b : Str) (r : List Node) (t : Str), b.length < n →
      (∀ y : Str, y.length ≤ b.length → pn y ≠ none) →
      parseChildrenLoop pn n b r t ≠ none := by
  induction n with
  | zero => intro b r t h; omega
  | succ m ih =>
    intro b r t h htot
    have hle := TrimSpace_length_le b
    simp only [parseChildrenLoop]
    split
    · simp
    · rename_i hne
      split
      · rename_i hh
        split
        · simp
        · rename_i i hi
          have := drop_length_lt hne (Index_lt_pos hh hi)
          apply ih
          · omega
          · intro y hy; apply htot; omega
      · split
        · rename_i hpn
          exact absurd hpn (htot _ hle)
        · simp
        · rename_i node c hc
          have := drop_length_lt hne (hprog _ _ _ hc)
          apply ih
          · omega
          · intro y hy; apply htot; omega

/-- What a successful `parseNode` has read. -/
theorem parseNodeFuel_ok_inv {f : Nat} {x : Str} {node : Node} {c : Nat}
    (h : parseNodeFuel f x = some (.ok node c)) :
    ∃ name region rest endIdx children text,
      OpensWith x name region rest ∧ Index rest (endTagOf name) = some endIdx ∧
      node = .mk name (parseAttributes (attrText region)) children text ∧
      c = name.length + region.length + 2 + endIdx + (endTagOf name).length := by
  cases f with
  | zero => simp [parseNodeFuel] at h
  | succ f =>
    cases hm : tagOpen.matchStart x with
    | none => rw [parseNodeFuel_no_tag hm] at h; simp at h
    | some loc =>
      obtain ⟨name, region, rest, ho⟩ := opensWith_of_tagOpen hm
      rw [parseNodeFuel_opens ho] at h
      cases hi : Index rest (endTagOf name) with
      | none => rw [hi] at h; simp at h
      | some endIdx =>
        rw [hi] at h
        simp only at h
        cases hl : parseChildrenLoop (parseNodeFuel f) ((rest.take endIdx).length + 1)
            (rest.take endIdx) [] [] with
        | none => rw [hl] at h; simp at h
        | some p =>
          obtain ⟨children, text⟩ := p
          rw [hl] at h
          simp only [Option.some.injEq, NodeResult.ok.injEq] at h
          exact ⟨name, region, rest, endIdx, children, text, ho, hi, h.1.symm, h.2.symm⟩

theorem parseNodeFuel_progress (f : Nat) (y : Str) (node : Node) (c : Nat)
    (h : parseNodeFuel f y = some (.ok node c)) : 0 < c := by
  obtain ⟨name, region, rest, endIdx, _, _, _, _, _, hc⟩ := parseNodeFuel_ok_inv h
  rw [endTagOf_length] at hc
  omega

theorem OpensWith.length_eq {input name region rest : Str}
    (h : OpensWith input name region rest) :
    input.length = name.length + region.length + 2 + rest.length := by
  rw [h.2.2.2.2]
  simp
  omega

/-- With fuel above the length of the input `parseNode` returns, and more fuel
does not change what it returns. -/
theorem parseNodeFuel_stable (f : Nat) :
    ∀ x : Str, x.length < f →
      parseNodeFuel f x ≠ none ∧ ∀ f', x.length < f' → parseNodeFuel f x = parseNodeFuel f' x := by
  induction f with
  | zero => intro x h; omega
  | succ f ih =>
    intro x hx
    cases hm : tagOpen.matchStart x with
    | none =>
      refine ⟨by rw [parseNodeFuel_no_tag hm]; simp, ?_⟩
      intro f' hf'
      obtain ⟨m', rfl⟩ : ∃ m', f' = m' + 1 := ⟨f' - 1, by omega⟩
      rw [parseNodeFuel_no_tag hm, parseNodeFuel_no_tag hm]
    | some loc =>
      obtain ⟨name, region, rest, ho⟩ := opensWith_of_tagOpen hm
      have hlen := ho.length_eq
      rw [parseNodeFuel_opens ho]
      cases hi : Index rest (endTagOf name) with
      | none =>
        refine ⟨by simp, ?_⟩
        intro f' hf'
        obtain ⟨m', rfl⟩ : ∃ m', f' = m' + 1 := ⟨f' - 1, by omega⟩
        rw [parseNodeFuel_opens ho, hi]
      | some endIdx =>
        have hb2 : (rest.take endIdx).length ≤ rest.length := by
          have := List.length_take endIdx rest
          omega
        have hb : (rest.take endIdx).length < f := by omega
        constructor
        · have := parseChildrenLoop_total (parseNodeFuel f) (parseNodeFuel_progress f)
            ((rest.take endIdx).length + 1) (rest.take endIdx) [] [] (by omega)
            (fun y hy => (ih y (by omega)).1)
          simp only
          cases hl : parseChildrenLoop (parseNodeFuel f) ((rest.take endIdx).length + 1)
              (rest.take endIdx) [] [] with
          | none => exact absurd hl this
          | some p => simp
        · intro f' hf'
          obtain ⟨m', rfl⟩ : ∃ m', f' = m' + 1 := ⟨f' - 1, by omega⟩
          rw [parseNodeFuel_opens ho, hi]
          simp only
          rw [parseChildrenLoop_congr (parseNodeFuel f) (parseNodeFuel m')]
          intro y hy
          exact (ih y (by omega)).2 m' (by omega)

theorem parseNode_ne_none (x : Str) : parseNode x ≠ none :=
  (parseNodeFuel_stable (x.length + 1) x (by omega)).1

theorem parseNodeFuel_eq_parseNode {f : Nat} {x : Str} (h : x.length < f) :
    parseNodeFuel f x = parseNode x :=
  (parseNodeFuel_stable f x h).2 (x.length + 1) (by omega)

theorem parseNode_progress (y : Str) (node : Node) (c : Nat)
    (h : parseNode y = some (.ok node c)) : 0 < c :=
  parseNodeFuel_progress _ y node c h

/-! ## The recursion equations of the parser -/

theorem parseNode_no_tag {input : Str}
    (h : ¬ ∃ name region rest, OpensWith input name region rest) :
    parseNode input = some (.err (.invalidTagStart input)) :=
  parseNodeFuel_no_tag ((tagOpen_none_iff input).mpr h) _

/-- `parseNode` on an input that begins with an opening tag. -/
theorem parseNode_opens {input name region rest : Str}
    (h : OpensWith input name region rest) :
    parseNode input =
      match Index rest (endTagOf name) with
      | none => some (.err (.unclosedTag name))
      | some endIdx =>
        match parseChildren (rest.take endIdx) with
        | none => none
        | some (children, text) =>
          some (.ok (.mk name (parseAttributes (attrText region)) children text)
            (name.length + region.length + 2 + endIdx + (endTagOf name).length)) := by
  rw [parseNode, parseNodeFuel_opens h]
  cases hi : Index rest (endTagOf name) with
  | none => rfl
  | some endIdx =>
    have hc := parseChildrenLoop_congr (parseNodeFuel input.length) parseNode
      ((rest.take endIdx).length + 1) (rest.take endIdx) [] [] (by
        intro y hy
        apply parseNodeFuel_eq_parseNode
        have := h.length_eq
        have := List.length_take endIdx rest
        omega)
    simp only [parseChildren]
    rw [hc]
    try rfl

theorem parseNode_unclosed {input name region rest : Str}
    (h : OpensWith input name region rest) (hi : Index rest (endTagOf name) = none) :
    parseNode input = some (.err (.unclosedTag name)) := by
  rw [parseNode_opens h, hi]

theorem parseNode_closed {input name region rest : Str} {endIdx : Nat}
    {children : List Node} {text : Str}
    (h : OpensWith input name region rest) (hi : Index rest (endTagOf name) = some endIdx)
    (hc : parseChildren (rest.take endIdx) = some (children, text)) :
    parseNode input =
      some (.ok (.mk name (parseAttributes (attrText region)) children text)
        (name.length + region.length + 2 + endIdx + (endTagOf name).length)) := by
  rw [parseNode_opens h, hi]
  simp only
  rw [hc]

theorem parseChildren_eq (body : Str) : parseChildren body = childrenFrom body [] [] := rfl

theorem childrenFrom_fuel {n : Nat} {b : Str} (h : b.length < n) (r : List Node) (t : Str) :
    parseChildrenLoop parseNode n b r t = childrenFrom b r t :=
  parseChildrenLoop_fuel parseNode parseNode_progress n (b.length + 1) b r t h (by omega)

theorem childrenFrom_ne_none (b : Str) (r : List Node) (t : Str) : childrenFrom b r t ≠ none :=
  parseChildrenLoop_total parseNode parseNode_progress _ b r t (by omega)
    (fun y _ => parseNode_ne_none y)

/-- Surplus fuel does not change the result of the loop of `ParseMarkup`. -/
theorem parseMarkupLoop_fuel (n : Nat) :
    ∀ (n' : Nat) (x : Str) (nodes : List Node), x.length < n → x.length < n' →
      parseMarkupLoop n x nodes = parseMarkupLoop n' x nodes := by
  induction n with
  | zero => intro n' x nodes h; omega
  | succ m ih =>
    intro n' x nodes h h'
    obtain ⟨m', rfl⟩ : ∃ m', n' = m' + 1 := ⟨n' - 1, by omega⟩
    have hle := TrimSpace_length_le x
    simp only [parseMarkupLoop]
    split
    · split
      · rfl
      · rename_i hne
        split
        · rename_i hh
          split
          · rfl
          · rename_i i hi
            have := drop_length_lt hne (Index_lt_pos hh hi)
            apply ih <;> omega
        · split
          · rfl
          · rfl
          · rename_i node c hc
            have := drop_length_lt hne (parseNode_progress _ _ _ hc)
            apply ih <;> omega
    · rfl

theorem markupFrom_fuel {n : Nat} {x : Str} (h : x.length < n) (nodes : List Node) :
    parseMarkupLoop n x nodes = markupFrom x nodes :=
  parseMarkupLoop_fuel n (x.length + 1) x nodes h (by omega)

/-- With fuel above the length of the input the loop of `ParseMarkup` returns. -/
theorem parseMarkupLoop_total (n : Nat) :
    ∀ (x : Str) (nodes : List Node), x.length < n → parseMarkupLoop n x nodes ≠ none := by
  induction n with
  | zero => intro x nodes h; omega
  | succ m ih =>
    intro x nodes h
    have hle := TrimSpace_length_le x
    simp only [parseMarkupLoop]
    split
    · split
      · simp
      · rename_i hne
        split
        · rename_i hh
          split
          · simp
          · rename_i i hi
            have := drop_length_lt hne (Index_lt_pos hh hi)
            apply ih; omega
        · split
          · rename_i hpn
            exact absurd hpn (parseNode_ne_none _)
          · simp
          · rename_i node c hc
            have := drop_length_lt hne (parseNode_progress _ _ _ hc)
            apply ih; omega
    · simp

theorem ParseMarkup_eq (input : Str) : ParseMarkup input = markupFrom (TrimSpace input) [] :=
  markupFrom_fuel (by have := TrimSpace_length_le input; omega) []

theorem ParseMarkup_ne_none (input : Str) : ParseMarkup input ≠ none :=
  parseMarkupLoop_total _ _ _ (by have := TrimSpace_length_le input; omega)

/-! ### One iteration of the loops -/

theorem TrimSpace_ne_nil_length {x : Str} (h : TrimSpace x ≠ []) : x.length > 0 := by
  rcases x with _ | ⟨a, t⟩
  · exact absurd TrimSpace_nil h
  · simp

theorem markupFrom_blank {x : Str} (h : TrimSpace x = []) (nodes : List Node) :
    markupFrom x nodes = some (nodes, none) := by
  simp [markupFrom, parseMarkupLoop, h]

theorem markupFrom_text_end {x : Str} (hh : (TrimSpace x).head? ≠ some LT)
    (hi : Index (TrimSpace x) [LT] = none) (nodes : List Node) :
    markupFrom x nodes = some (nodes, none) := by
  simp only [markupFrom, parseMarkupLoop]
  split
  · split
    · rfl
    · simp [hh, hi]
  · rfl

theorem markupFrom_text {x : Str} {i : Nat} (hh : (TrimSpace x).head? ≠ some LT)
    (hi : Index (TrimSpace x) [LT] = some i) (nodes : List Node) :
    markupFrom x nodes = markupFrom ((TrimSpace x).drop i) nodes := by
  have hne : TrimSpace x ≠ [] := by
    intro e; rw [e] at hi; simp [Index] at hi
  have hx := TrimSpace_ne_nil_length hne
  have hl : (TrimSpace x).length ≠ 0 := fun e => hne (List.length_eq_zero.mp e)
  have hle := TrimSpace_length_le x
  have hd := drop_length_lt hl (Index_lt_pos hh hi)
  conv_lhs => simp only [markupFrom, parseMarkupLoop]
  rw [if_pos hx, if_neg hl, if_pos hh, hi]
  exact markupFrom_fuel (by omega) nodes

theorem markupFrom_node {x : Str} (hh : (TrimSpace x).head? = some LT) (nodes : List Node) :
    markupFrom x nodes = markupNode (TrimSpace x) nodes := by
  have hne : TrimSpace x ≠ [] := by
    intro e; rw [e] at hh; simp at hh
  have hx := TrimSpace_ne_nil_length hne
  have hl : (TrimSpace x).length ≠ 0 := fun e => hne (List.length_eq_zero.mp e)
  have hle := TrimSpace_length_le x
  conv_lhs => simp only [markupFrom, parseMarkupLoop]
  rw [if_pos hx, if_neg hl, if_neg (not_not.mpr hh)]
  simp only [markupNode]
  split
  · rfl
  · rfl
  · rename_i node c hc
    have hd := drop_length_lt hl (parseNode_progress _ _ _ hc)
    exact markupFrom_fuel (by omega) _

theorem childrenFrom_blank {b : Str} (h : TrimSpace b = []) (r : List Node) (t : Str) :
    childrenFrom b r t = some (r, TrimSpace t) := by
  simp [childrenFrom, parseChildrenLoop, h]

theorem childrenFrom_text_end {b : Str} (hne : TrimSpace b ≠ [])
    (hh : (TrimSpace b).head? ≠ some LT) (hi : Index (TrimSpace b) [LT] = none)
    (r : List Node) (t : Str) :
    childrenFrom b r t = some (r, TrimSpace (t ++ TrimSpace b)) := by
  have hl : (TrimSpace b).length ≠ 0 := fun e => hne (List.length_eq_zero.mp e)
  simp only [childrenFrom, parseChildrenLoop]
  rw [if_neg hl, if_pos hh, hi]

theorem childrenFrom_text {b : Str} {i : Nat} (hh : (TrimSpace b).head? ≠ some LT)
    (hi : Index (TrimSpace b) [LT] = some i) (r : List Node) (t : Str) :
    childrenFrom b r t =
      childrenFrom ((TrimSpace b).drop i) r (t ++ (TrimSpace b).take i) := by
  have hne : TrimSpace b ≠ [] := by
    intro e; rw [e] at hi; simp [Index] at hi
  have hl : (TrimSpace b).length ≠ 0 := fun e => hne (List.length_eq_zero.mp e)
  have hle := TrimSpace_length_le b
  have hd := drop_length_lt hl (Index_lt_pos hh hi)
  conv_lhs => simp only [childrenFrom, parseChildrenLoop]
  rw [if_neg hl, if_pos hh, hi]
  exact childrenFrom_fuel (by omega) _ _

theorem childrenFrom_node {b : Str} (hh : (TrimSpace b).head? = some LT)
    (r : List Node) (t : Str) :
    childrenFrom b r t = childrenNode (TrimSpace b) r t := by
  have hne : TrimSpace b ≠ [] := by
    intro e; rw [e] at hh; simp at hh
  have hl : (TrimSpace b).length ≠ 0 := fun e => hne (List.length_eq_zero.mp e)
  have hle := TrimSpace_length_le b
  conv_lhs => simp only [childrenFrom, parseChildrenLoop]
  rw [if_neg hl, if_neg (not_not.mpr hh)]
  simp only [childrenNode]
  split
  · rfl
  · rfl
  · rename_i node c hc
    have hd := drop_length_lt hl (parseNode_progress _ _ _ hc)
    exact childrenFrom_fuel (by omega) _ _

/-! ### The loops, from the first `<` on -/

/-- A string that contains `<` splits at the first one. -/
theorem split_at_lt {x : Str} (h : LT ∈ x) : ∃ p s, x = p ++ LT :: s ∧ LT ∉ p := by
  cases hi : Index x [LT] with
  | none => exact absurd h (Index_byte_none hi)
  | some i =>
    obtain ⟨hs, hn, _⟩ := Index_byte_some hi
    exact ⟨_, _, hs, hn⟩

theorem mem_of_mem_trimLeft {s : Str} {c : Nat} (h : c ∈ trimLeft s) : c ∈ s := by
  obtain ⟨w, hw, _⟩ := trimLeft_split s
  rw [hw]; simp [h]

theorem mem_of_mem_trimRight {s : Str} {c : Nat} (h : c ∈ trimRight s) : c ∈ s := by
  obtain ⟨w, hw, _⟩ := trimRight_split s
  rw [hw]; simp [h]

theorem head_ne_lt_of_not_mem {b : Str} (h : LT ∉ b) : b.head? ≠ some LT := by
  rcases b with _ | ⟨a, t⟩
  · simp
  · intro e
    simp only [List.head?_cons, Option.some.injEq] at e
    exact h (by simp [e])

theorem markupFrom_no_lt {x : Str} (h : LT ∉ x) (nodes : List Node) :
    markupFrom x nodes = some (nodes, none) := by
  have hb : LT ∉ TrimSpace x := fun e => h (mem_of_mem_TrimSpace e)
  exact markupFrom_text_end (head_ne_lt_of_not_mem hb) (Index_byte_of_not_mem hb) nodes

theorem markupFrom_lt_cons (y : Str) (nodes : List Node) :
    markupFrom (LT :: y) nodes = markupNode (LT :: trimRight y) nodes := by
  have e : TrimSpace (LT :: y) = LT :: trimRight y := by
    have := TrimSpace_lt [] y
    simpa [trimLeft_nil] using this
  rw [markupFrom_node (by rw [e]; rfl), e]

/-- The loop of `ParseMarkup` skips what stands before the first `<` and parses
a node there; trailing white space of the input is no longer part of it. -/
theorem markupFrom_lt {p : Str} (hp : LT ∉ p) (s : Str) (nodes : List Node) :
    markupFrom (p ++ LT :: s) nodes = markupNode (LT :: trimRight s) nodes := by
  have e : TrimSpace (p ++ LT :: s) = trimLeft p ++ LT :: trimRight s := TrimSpace_lt p s
  have hq : LT ∉ trimLeft p := fun h => hp (mem_of_mem_trimLeft h)
  cases hqe : trimLeft p with
  | nil =>
    rw [hqe, List.nil_append] at e
    rw [markupFrom_node (by rw [e]; rfl), e]
  | cons a q =>
    have hh : (TrimSpace (p ++ LT :: s)).head? ≠ some LT := by
      rw [e, hqe]
      intro h
      simp only [List.cons_append, List.head?_cons, Option.some.injEq] at h
      exact hq (by rw [hqe, h]; simp)
    have hi : Index (TrimSpace (p ++ LT :: s)) [LT] = some (trimLeft p).length := by
      rw [e]; exact Index_byte_append hq _
    rw [markupFrom_text hh hi, e, List.drop_left, markupFrom_lt_cons, trimRight_idem]

theorem ParseMarkup_eq_markupFrom (x : Str) : ParseMarkup x = markupFrom x [] := by
  rw [ParseMarkup_eq]
  by_cases h : LT ∈ x
  · obtain ⟨p, s, rfl, hp⟩ := split_at_lt h
    have hq : LT ∉ trimLeft p := fun h => hp (mem_of_mem_trimLeft h)
    rw [TrimSpace_lt, markupFrom_lt hq, markupFrom_lt hp, trimRight_idem]
  · have hb : LT ∉ TrimSpace x := fun e => h (mem_of_mem_TrimSpace e)
    rw [markupFrom_no_lt hb, markupFrom_no_lt h]

theorem childrenFrom_no_lt {b : Str} (h : LT ∉ b) (r : List Node) (t : Str) :
    childrenFrom b r t = some (r, TrimSpace (t ++ TrimSpace b)) := by
  have hb : LT ∉ TrimSpace b := fun e => h (mem_of_mem_TrimSpace e)
  by_cases hne : TrimSpace b = []
  · rw [childrenFrom_blank hne, hne, List.append_nil]
  · exact childrenFrom_text_end hne (head_ne_lt_of_not_mem hb) (Index_byte_of_not_mem hb) r t

theorem childrenFrom_lt_cons (y : Str) (r : List Node) (t : Str) :
    childrenFrom (LT :: y) r t = childrenNode (LT :: trimRight y) r t := by
  have e : TrimSpace (LT :: y) = LT :: trimRight y := by
    have := TrimSpace_lt [] y
    simpa [trimLeft_nil] using this
  rw [childrenFrom_node (by rw [e]; rfl), e]

/-- The loop of `parseChildren` adds what stands before the first `<`, without
its leading white space, to the text and parses a node there. -/
theorem childrenFrom_lt {p : Str} (hp : LT ∉ p) (s : Str) (r : List Node) (t : Str) :
    childrenFrom (p ++ LT :: s) r t =
      childrenNode (LT :: trimRight s) r (t ++ trimLeft p) := by
  have e : TrimSpace (p ++ LT :: s) = trimLeft p ++ LT :: trimRight s := TrimSpace_lt p s
  have hq : LT ∉ trimLeft p := fun h => hp (mem_of_mem_trimLeft h)
  cases hqe : trimLeft p with
  | nil =>
    rw [hqe, List.nil_append] at e
    rw [childrenFrom_node (by rw [e]; rfl), e, List.append_nil]
  | cons a q =>
    have hh : (TrimSpace (p ++ LT :: s)).head? ≠ some LT := by
      rw [e, hqe]
      intro h
      simp only [List.cons_append, List.head?_cons, Option.some.injEq] at h
      exact hq (by rw [hqe, h]; simp)
    have hi : Index (TrimSpace (p ++ LT :: s)) [LT] = some (trimLeft p).length := by
      rw [e]; exact Index_byte_append hq _
    rw [childrenFrom_text hh hi, e, List.drop_left, List.take_left, childrenFrom_lt_cons,
      trimRight_idem, hqe]

/-! ### Accumulators -/

theorem parseMarkupLoop_acc (n0 : List Node) (n : Nat) :
    ∀ (x : Str) (nodes : List Node),
      parseMarkupLoop n x (n0 ++ nodes) = (parseMarkupLoop n x nodes).map (prependNodes n0) := by
  induction n with
  | zero => intro x nodes; rfl
  | succ m ih =>
    intro x nodes
    simp only [parseMarkupLoop]
    split
    · split
      · rfl
      · split
        · split
          · rfl
          · exact ih _ _
        · split
          · rfl
          · rfl
          · rw [List.append_assoc]; exact ih _ _
    · rfl

theorem markupFrom_acc (n0 : List Node) (x : Str) (nodes : List Node) :
    markupFrom x (n0 ++ nodes) = (markupFrom x nodes).map (prependNodes n0) :=
  parseMarkupLoop_acc n0 _ x nodes

theorem parseChildrenLoop_acc (pn : Str → Option NodeResult) (r0 : List Node) (n : Nat) :
    ∀ (b : Str) (r : List Node) (t : Str),
      parseChildrenLoop pn n b (r0 ++ r) t =
        (parseChildrenLoop pn n b r t).map (fun q => (r0 ++ q.1, q.2)) := by
  induction n with
  | zero => intro b r t; rfl
  | succ m ih =>
    intro b r t
    simp only [parseChildrenLoop]
    split
    · rfl
    · split
      · split
        · rfl
        · exact ih _ _ _
      · split
        · rfl
        · rfl
        · rw [List.append_assoc]; exact ih _ _ _

theorem childrenFrom_acc (r0 : List Node) (b : Str) (r : List Node) (t : Str) :
    childrenFrom b (r0 ++ r) t = (childrenFrom b r t).map (fun q => (r0 ++ q.1, q.2)) :=
  parseChildrenLoop_acc parseNode r0 _ b r t

/-! ## Elements -/

theorem LT_not_mem_endTag_tail {n : Str} (hn : ∀ c ∈ n, isNameByte c = true) :
    LT ∉ SLASH :: (n ++ [GT]) := by
  intro h
  simp only [List.mem_cons, List.mem_append, List.mem_singleton, List.not_mem_nil, or_false] at h
  rcases h with h | h | h
  · revert h; decide
  · exact isNameByte_ne_lt (hn _ h) rfl
  · revert h; decide

/-- A string whose first byte does not occur again in it is first found, in
`body ++ sub ++ rest`, right after `body` when `body` does not contain it. -/
theorem Index_append_border {e0 : Nat} {E body : Str} (hE : e0 ∉ E)
    (hb : Index body (e0 :: E) = none) (rest : Str) :
    Index (body ++ (e0 :: E) ++ rest) (e0 :: E) = some body.length := by
  rw [Index_eq_none_iff] at hb
  rw [Index_eq_some_iff]
  refine ⟨by simp, ?_, ?_⟩
  · rw [List.append_assoc, List.drop_left]
    exact List.prefix_append _ _
  · intro j hj hp
    rw [List.append_assoc, List.drop_append_of_le_length (by omega)] at hp
    have hne : body.drop j ≠ [] := by
      intro e
      have := congrArg List.length e
      rw [List.length_drop] at this
      simp at this
      omega
    obtain ⟨x, d, hxd⟩ := List.exists_cons_of_ne_nil hne
    rw [hxd] at hp
    obtain ⟨w, hw⟩ := hp
    simp only [List.cons_append, List.cons.injEq] at hw
    obtain ⟨hx, hw⟩ := hw
    rcases Nat.lt_or_ge d.length E.length with hlt | hge
    · apply hE
      have h1 : (E ++ w)[d.length]? = some e0 := by
        rw [hw, List.getElem?_append_right (Nat.le_refl _)]
        simp
      rw [List.getElem?_append_left hlt] at h1
      exact List.getElem?_mem h1
    · apply hb
      have hpre : E <+: d := by
        refine List.prefix_of_prefix_length_le ⟨w, hw⟩ (List.prefix_append _ _) hge
      have : e0 :: E <+: body.drop j := by
        rw [hxd, ← hx]
        obtain ⟨z, hz⟩ := hpre
        exact ⟨z, by simp [hz]⟩
      exact this.isInfix.trans (List.drop_suffix j body).isInfix

theorem Index_endTag_append {n body : Str} (hn : ∀ c ∈ n, isNameByte c = true)
    (hb : Index body (endTagOf n) = none) (rest : Str) :
    Index (body ++ endTagOf n ++ rest) (endTagOf n) = some body.length := by
  rw [endTagOf_eq] at hb ⊢
  exact Index_append_border (LT_not_mem_endTag_tail hn) hb rest

theorem opensWith_plain {n : Str} (hne : n ≠ []) (hn : ∀ c ∈ n, isNameByte c = true)
    (rest : Str) : OpensWith (LT :: (n ++ GT :: rest)) n [] rest :=
  ⟨hne, hn, Or.inl rfl, by simp, by simp⟩

theorem parseAttributes_nil : parseAttributes [] = [] := by rfl

/-- `parseNode` on a complete element: opening tag, body, closing tag. -/
theorem parseNode_element {input n region body after : Str}
    (ho : OpensWith input n region (body ++ endTagOf n ++ after))
    (hb : Index body (endTagOf n) = none) {children : List Node} {text : Str}
    (hc : parseChildren body = some (children, text)) :
    parseNode input =
      some (.ok (.mk n (parseAttributes (attrText region)) children text)
        (n.length + region.length + 2 + body.length + (endTagOf n).length)) := by
  have hi := Index_endTag_append ho.2.1 hb after
  have ht : (body ++ endTagOf n ++ after).take body.length = body := by
    rw [List.append_assoc, List.take_left]
  exact parseNode_closed ho hi (by rw [ht]; exact hc)

theorem markupFrom_nil (nodes : List Node) : markupFrom [] nodes = some (nodes, none) :=
  markupFrom_no_lt (by simp) nodes

/-- `ParseMarkup` on one complete element. -/
theorem ParseMarkup_element (n region body : Str)
    (ho : OpensWith (LT :: (n ++ region ++ GT :: (body ++ endTagOf n))) n region
      (body ++ endTagOf n))
    (hb : Index body (endTagOf n) = none) {children : List Node} {text : Str}
    (hc : parseChildren body = some (children, text)) :
    ParseMarkup (LT :: (n ++ region ++ GT :: (body ++ endTagOf n))) =
      some ([.mk n (parseAttributes (attrText region)) children text], none) := by
  have hgt : trimRight (n ++ region ++ GT :: (body ++ endTagOf n))
      = n ++ region ++ GT :: (body ++ endTagOf n) := by
    have e : n ++ region ++ GT :: (body ++ endTagOf n)
        = (n ++ region ++ GT :: (body ++ LT :: SLASH :: n)) ++ GT :: [] := by
      simp [endTagOf_eq]
    rw [e, trimRight_append_solid solid_GT, trimRight_nil]
  have ho' : OpensWith (LT :: (n ++ region ++ GT :: (body ++ endTagOf n))) n region
      (body ++ endTagOf n ++ []) := by simpa using ho
  have hp := parseNode_element ho' hb hc
  have hlen : (LT :: (n ++ region ++ GT :: (body ++ endTagOf n))).length
      = n.length + region.length + 2 + body.length + (endTagOf n).length := by
    simp; omega
  rw [ParseMarkup_eq_markupFrom]
  rw [markupFrom_lt_cons, hgt, markupNode, hp]
  simp only
  rw [← hlen, List.drop_length, markupFrom_nil]
  rfl

theorem bytes_lt : bytes "<" = [LT] := by rfl

theorem element_eq (n body : Str) :
    bytes "<" ++ n ++ bytes ">" ++ body ++ bytes "</" ++ n ++ bytes ">"
      = LT :: (n ++ [] ++ GT :: (body ++ endTagOf n)) := by
  simp [bytes_lt, bytes_close, bytes_open, endTagOf_eq]

theorem parseMarkupLoop_error_nil (n : Nat) :
    ∀ (x : Str) (nodes r : List Node) (e : ParseError),
      parseMarkupLoop n x nodes = some (r, some e) → r = [] := by
  induction n with
  | zero => intro x nodes r e h; simp [parseMarkupLoop] at h
  | succ m ih =>
    intro x nodes r e h
    simp only [parseMarkupLoop] at h
    split at h
    · split at h
      · simp at h
      · split at h
        · split at h
          · simp at h
          · exact ih _ _ _ _ h
        · split at h
          · simp at h
          · simp only [Option.some.injEq, Prod.mk.injEq] at h
            exact h.1.symm
          · exact ih _ _ _ _ h
    · simp at h

/-- C2: when `ParseMarkup` returns an error, the node sequence it returns with
it is empty: nodes parsed before the failing tag are not returned. -/
theorem ParseMarkup_error_no_nodes (input : Str) (nodes : List Node) (e : ParseError)
    (h : ParseMarkup input = some (nodes, some e)) : nodes = [] :=
  parseMarkupLoop_error_nil _ _ _ _ _ h

/-- C2 at `<a></a><b>`: the error of `<b>` is returned, the node `a` is not. -/
theorem ParseMarkup_error_no_nodes_witness :
    ParseMarkup (bytes "<a></a><b>") = some ([], some (.unclosedTag (bytes "b"))) ∧
      ([] : List Node) = [] :=
  ⟨by rfl, ParseMarkup_error_no_nodes (bytes "<a></a><b>") [] (.unclosedTag (bytes "b")) (by rfl)⟩

/-- C3: for a name `n` and a body without `</n>`, `ParseMarkup` of
`<n>body</n>` returns no error and exactly one root node, with tag `n` and
with the children and text that `parseChildren` returns for the body;
`parseChildren` returns for every body, and where a nested tag fails to parse
it returns the children and the text collected before that tag. -/
theorem ParseMarkup_element_absorbs (n body : Str) (hn : IsName n)
    (hb : Index body (endTagOf n) = none) :
    (∃ children text, parseChildren body = some (children, text) ∧
      ParseMarkup (bytes "<" ++ n ++ bytes ">" ++ body ++ bytes "</" ++ n ++ bytes ">")
        = some ([.mk n [] children text], none)) ∧
    (∀ (p s : Str) (res : List Node) (txt : Str) (e : ParseError), LT ∉ p →
      parseNode (LT :: trimRight s) = some (.err e) →
      childrenFrom (p ++ LT :: s) res txt = some (res, TrimSpace (txt ++ trimLeft p))) := by
  constructor
  · cases hc : parseChildren body with
    | none => exact absurd hc (childrenFrom_ne_none body [] [])
    | some q =>
      obtain ⟨children, text⟩ := q
      refine ⟨children, text, rfl, ?_⟩
      rw [element_eq]
      have ho := opensWith_plain hn.1 hn.2 (body ++ endTagOf n)
      have := ParseMarkup_element n [] body (by simpa using ho) hb hc
      rw [this]
      rfl
  · intro p s res txt e hp he
    rw [childrenFrom_lt hp, childrenNode, he]

/-- C3 at `<p>x<a></a><b>y</p>`: the root `p` keeps the child `a` and the text
`x` collected before the tag `<b>` that has no closing tag. -/
theorem ParseMarkup_element_absorbs_witness :
    ParseMarkup (bytes "<p>x<a></a><b>y</p>")
        = some ([.mk (bytes "p") [] [.mk (bytes "a") [] [] []] (bytes "x")], none) ∧
    ∃ children text, parseChildren (bytes "x<a></a><b>y") = some (children, text) ∧
      ParseMarkup (bytes "<" ++ bytes "p" ++ bytes ">" ++ bytes "x<a></a><b>y" ++ bytes "</"
        ++ bytes "p" ++ bytes ">") = some ([.mk (bytes "p") [] children text], none) :=
  ⟨by rfl, (ParseMarkup_element_absorbs (bytes "p") (bytes "x<a></a><b>y")
    ⟨by decide, by decide⟩ (by rfl)).1⟩

theorem Index_none_of_initial {a b sub : Str} (hp : a <+: b) (h : Index b sub = none) :
    Index a sub = none := by
  rw [Index_eq_none_iff] at h ⊢
  exact fun hi => h (hi.trans hp.isInfix)

theorem trimRight_initial (s : Str) : trimRight s <+: s := by
  obtain ⟨w, hw, _⟩ := trimRight_split s
  exact ⟨w, hw.symm⟩

/-- C4: for a name `n` and a rest without `</n>`, `ParseMarkup` of `<n>rest`
returns the error "no closing tag" for `n` and no nodes. -/
theorem ParseMarkup_unclosed (n rest : Str) (hn : IsName n)
    (hr : Index rest (endTagOf n) = none) :
    ParseMarkup (bytes "<" ++ n ++ bytes ">" ++ rest) = some ([], some (.unclosedTag n)) := by
  have e : bytes "<" ++ n ++ bytes ">" ++ rest = [] ++ LT :: (n ++ GT :: rest) := by
    simp [bytes_lt, bytes_close]
  rw [e, ParseMarkup_eq_markupFrom, markupFrom_lt (by simp), trimRight_append_solid solid_GT,
    markupNode]
  have ho := opensWith_plain hn.1 hn.2 (trimRight rest)
  rw [parseNode_unclosed ho (Index_none_of_initial (trimRight_initial rest) hr)]

/-- C4 at `<tag>` and at `<parent><child></child>`. -/
theorem ParseMarkup_unclosed_witness :
    ParseMarkup (bytes "<tag>") = some ([], some (.unclosedTag (bytes "tag"))) ∧
    ParseMarkup (bytes "<" ++ bytes "parent" ++ bytes ">" ++ bytes "<child></child>")
      = some ([], some (.unclosedTag (bytes "parent"))) :=
  ⟨by rfl, ParseMarkup_unclosed (bytes "parent") (bytes "<child></child>")
    ⟨by decide, by decide⟩ (by rfl)⟩

/-- C5: on an input without `<`, `ParseMarkup` returns the empty forest and no
error. -/
theorem ParseMarkup_no_tag (input : Str) (h : LT ∉ input) :
    ParseMarkup input = some ([], none) := by
  rw [ParseMarkup_eq_markupFrom, markupFrom_no_lt h]

/-- C5 at the empty string, at white space and at text. -/
theorem ParseMarkup_no_tag_witness :
    ParseMarkup (bytes "") = some ([], none) ∧
    ParseMarkup (bytes " \t\n ") = some ([], none) ∧
    ParseMarkup (bytes "some text") = some ([], none) :=
  ⟨by rfl, by rfl, ParseMarkup_no_tag (bytes "some text") (by decide)⟩

/-- C6: for a name `n`, `ParseMarkup` of `<n></n>` returns no error and one
root node with tag `n`, no attributes, no children and empty text. -/
theorem ParseMarkup_empty_element (n : Str) (hn : IsName n) :
    ParseMarkup (bytes "<" ++ n ++ bytes ">" ++ bytes "</" ++ n ++ bytes ">")
      = some ([.mk n [] [] []], none) := by
  have e : bytes "<" ++ n ++ bytes ">" ++ bytes "</" ++ n ++ bytes ">"
      = LT :: (n ++ [] ++ GT :: ([] ++ endTagOf n)) := by
    simp [bytes_lt, bytes_close, bytes_open, endTagOf_eq]
  have ho := opensWith_plain hn.1 hn.2 ([] ++ endTagOf n)
  have hb : Index [] (endTagOf n) = none := by
    rw [endTagOf_eq]; rfl
  have hc : parseChildren [] = some ([], []) := by rfl
  rw [e, ParseMarkup_element n [] [] (by simpa using ho) hb hc]
  rfl

/-- C6 at `<tag></tag>`. -/
theorem ParseMarkup_empty_element_witness :
    ParseMarkup (bytes "<" ++ bytes "tag" ++ bytes ">" ++ bytes "</" ++ bytes "tag" ++ bytes ">")
      = some ([.mk (bytes "tag") [] [] []], none) :=
  ParseMarkup_empty_element (bytes "tag") ⟨by decide, by decide⟩

/-! ## Root-level text and concatenation -/

/-- Text without `<` before the input does not change what the loop of
`ParseMarkup` returns. -/
theorem markupFrom_skip {t : Str} (ht : LT ∉ t) (s : Str) (nodes : List Node) :
    markupFrom (t ++ s) nodes = markupFrom s nodes := by
  by_cases h : LT ∈ s
  · obtain ⟨p, s2, rfl, hp⟩ := split_at_lt h
    have htp : LT ∉ t ++ p := by
      simp only [List.mem_append, not_or]; exact ⟨ht, hp⟩
    rw [← List.append_assoc, markupFrom_lt htp, markupFrom_lt hp]
  · have hts : LT ∉ t ++ s := by
      simp only [List.mem_append, not_or]; exact ⟨ht, h⟩
    rw [markupFrom_no_lt hts, markupFrom_no_lt h]

/-- Trailing white space does not change what the loop of `ParseMarkup` returns. -/
theorem markupFrom_trimRight (z : Str) (nodes : List Node) :
    markupFrom (trimRight z) nodes = markupFrom z nodes := by
  by_cases h : LT ∈ z
  · obtain ⟨p, s2, rfl, hp⟩ := split_at_lt h
    rw [trimRight_append_solid solid_LT, markupFrom_lt hp, markupFrom_lt hp, trimRight_idem]
  · have hz : LT ∉ trimRight z := fun e => h (mem_of_mem_trimRight e)
    rw [markupFrom_no_lt hz, markupFrom_no_lt h]

/-- What a successful `parseNode` has read, with the result of `parseChildren`
on the body. -/
theorem parseNode_ok_inv {x : Str} {node : Node} {c : Nat}
    (h : parseNode x = some (.ok node c)) :
    ∃ name region rest endIdx children text,
      OpensWith x name region rest ∧ Index rest (endTagOf name) = some endIdx ∧
      parseChildren (rest.take endIdx) = some (children, text) ∧
      node = .mk name (parseAttributes (attrText region)) children text ∧
      c = name.length + region.length + 2 + endIdx + (endTagOf name).length := by
  obtain ⟨name, region, rest, endIdx, _, _, ho, hi, _, _⟩ := parseNodeFuel_ok_inv h
  cases hc : parseChildren (rest.take endIdx) with
  | none => exact absurd hc (childrenFrom_ne_none _ [] [])
  | some q =>
    obtain ⟨children, text⟩ := q
    have := parseNode_closed ho hi hc
    rw [h] at this
    simp only [Option.some.injEq, NodeResult.ok.injEq] at this
    exact ⟨name, region, rest, endIdx, children, text, ho, hi, hc, this.1, this.2⟩

/-- The bytes a successful `parseNode` has consumed end with `>`, and they are
all of the input that `parseNode` has looked at: every input with the same
first `consumed` bytes gives the same result. -/
theorem parseNode_ok_shape {x : Str} {node : Node} {c : Nat}
    (h : parseNode x = some (.ok node c)) :
    (∃ u v, x = LT :: (u ++ GT :: v) ∧ u.length + 2 = c) ∧
    ∀ y : Str, y.take c = x.take c → parseNode y = some (.ok node c) := by
  obtain ⟨name, region, rest, endIdx, children, text, ho, hi, hc, hnode, hcons⟩ :=
    parseNode_ok_inv h
  obtain ⟨hsplit, hle⟩ := Index_some_split hi
  have hin := ho.2.2.2.2
  have htk : (rest.take endIdx).length = endIdx := by
    rw [List.length_take]; omega
  have hx : x = LT :: ((name ++ region ++ GT :: (rest.take endIdx ++ LT :: SLASH :: name))
      ++ GT :: rest.drop (endIdx + (endTagOf name).length)) := by
    rw [hin]
    conv_lhs => rw [hsplit]
    simp [endTagOf_eq]
  have hlen : (name ++ region ++ GT :: (rest.take endIdx ++ LT :: SLASH :: name)).length + 2
      = c := by
    rw [hcons, endTagOf_length]
    simp only [List.length_append, List.length_cons, htk]
    omega
  refine ⟨⟨_, _, hx, hlen⟩, ?_⟩
  intro y hy
  have hxt : x.take c = LT :: (name ++ region ++ GT :: (rest.take endIdx ++ endTagOf name)) := by
    have e : x = (LT :: (name ++ region ++ GT :: (rest.take endIdx ++ endTagOf name)))
        ++ rest.drop (endIdx + (endTagOf name).length) := by
      rw [hin]
      conv_lhs => rw [hsplit]
      simp
    have hl : (LT :: (name ++ region ++ GT :: (rest.take endIdx ++ endTagOf name))).length
        = c := by
      rw [hcons]
      simp only [List.length_append, List.length_cons, htk]
      omega
    conv_lhs => rw [e]
    rw [← hl, List.take_left]
  have hy2 : y = LT :: (name ++ region ++ GT :: (rest.take endIdx ++ endTagOf name ++ y.drop c))
      := by
    conv_lhs => rw [← List.take_append_drop c y, hy, hxt]
    simp
  have hoy : OpensWith y name region (rest.take endIdx ++ endTagOf name ++ y.drop c) :=
    ⟨ho.1, ho.2.1, ho.2.2.1, ho.2.2.2.1, hy2⟩
  have hiy : Index (rest.take endIdx ++ endTagOf name ++ y.drop c) (endTagOf name)
      = some endIdx := by
    apply Index_congr_take hi
    have key : ∀ (B E D : Str), (B ++ E ++ D).take (B.length + E.length) = B ++ E := by
      intro B E D
      exact List.take_left' (by rw [List.length_append])
    have hk : endIdx + (endTagOf name).length
        = (rest.take endIdx).length + (endTagOf name).length := by rw [htk]
    rw [hk, key]
    have : List.take ((rest.take endIdx).length + (endTagOf name).length) rest
        = List.take ((rest.take endIdx).length + (endTagOf name).length)
          (rest.take endIdx ++ endTagOf name ++ rest.drop (endIdx + (endTagOf name).length)) :=
      congrArg _ hsplit
    rw [this, key]
  have hty : (rest.take endIdx ++ endTagOf name ++ y.drop c).take endIdx = rest.take endIdx := by
    rw [List.append_assoc]
    exact List.take_left' htk
  have := parseNode_closed hoy hiy (by rw [hty]; exact hc)
  rw [this, hnode, hcons]

/-- C9: text without `<` before the input is discarded: `ParseMarkup` returns
for `t ++ s` what it returns for `s`, the same forest or the same error. -/
theorem ParseMarkup_leading_text (t s : Str) (ht : LT ∉ t) :
    ParseMarkup (t ++ s) = ParseMarkup s := by
  rw [ParseMarkup_eq_markupFrom, ParseMarkup_eq_markupFrom, markupFrom_skip ht]

/-- C9 at `text <tag></tag>`. -/
theorem ParseMarkup_leading_text_witness :
    ParseMarkup (bytes "text <tag></tag>") = some ([.mk (bytes "tag") [] [] []], none) ∧
    ParseMarkup (bytes "text " ++ bytes "<tag></tag>") = ParseMarkup (bytes "<tag></tag>") :=
  ⟨by rfl, ParseMarkup_leading_text (bytes "text ") (bytes "<tag></tag>") (by decide)⟩

theorem prependNodes_inv {n0 A : List Node} {r : Option (List Node × Option ParseError)}
    (h : r.map (prependNodes n0) = some (A, none)) :
    ∃ A', r = some (A', none) ∧ A = n0 ++ A' := by
  cases r with
  | none => simp at h
  | some q =>
    obtain ⟨A', e⟩ := q
    cases e with
    | none =>
      simp only [Option.map_some', prependNodes, Option.some.injEq, Prod.mk.injEq, and_true] at h
      exact ⟨A', rfl, h.symm⟩
    | some e =>
      simp [prependNodes] at h

/-- A successful iteration of the loop of `ParseMarkup` at a `<`. -/
theorem markupNode_ok_inv {y : Str} {nodes A : List Node}
    (h : markupNode y nodes = some (A, none)) :
    ∃ node c A', parseNode y = some (.ok node c) ∧
      markupFrom (y.drop c) [] = some (A', none) ∧ A = nodes ++ node :: A' := by
  simp only [markupNode] at h
  split at h
  · simp at h
  · simp at h
  · rename_i node c hc
    have hacc := markupFrom_acc (nodes ++ [node]) (y.drop c) []
    rw [List.append_nil] at hacc
    rw [hacc] at h
    obtain ⟨A', hA', hA⟩ := prependNodes_inv h
    exact ⟨node, c, A', hc, hA', by rw [hA]; simp⟩

theorem markupNode_ok {y : Str} {node : Node} {c : Nat} {A' : List Node} (nodes : List Node)
    (hp : parseNode y = some (.ok node c))
    (hm : markupFrom (y.drop c) [] = some (A', none)) :
    markupNode y nodes = some (nodes ++ node :: A', none) := by
  simp only [markupNode, hp]
  have hacc := markupFrom_acc (nodes ++ [node]) (y.drop c) []
  rw [List.append_nil] at hacc
  rw [hacc, hm]
  simp [prependNodes]

theorem markupFrom_append (k : Nat) :
    ∀ (a b : Str) (A B : List Node), a.length ≤ k →
      markupFrom a [] = some (A, none) → markupFrom b [] = some (B, none) →
      markupFrom (a ++ b) [] = some (A ++ B, none) := by
  induction k with
  | zero =>
    intro a b A B hk ha hb
    have : a = [] := List.length_eq_zero.mp (by omega)
    subst this
    rw [markupFrom_nil] at ha
    simp only [Option.some.injEq, Prod.mk.injEq, and_true] at ha
    rw [← ha]
    simpa using hb
  | succ k ih =>
    intro a b A B hk ha hb
    by_cases hlt : LT ∈ a
    · obtain ⟨p, s, rfl, hp⟩ := split_at_lt hlt
      rw [markupFrom_lt hp] at ha
      obtain ⟨node, c, A', hpn, hrest, hA⟩ := markupNode_ok_inv ha
      obtain ⟨⟨u, v, huv, hc⟩, hcongr⟩ := parseNode_ok_shape hpn
      simp only [List.cons.injEq, true_and] at huv
      obtain ⟨w, hw, _⟩ := trimRight_split s
      rw [huv] at hw
      have hv : trimRight (v ++ w) = v := by
        have h1 := trimRight_append_solid solid_GT u (v ++ w)
        have h2 : u ++ GT :: (v ++ w) = s := by rw [hw]; simp
        rw [h2, huv] at h1
        have := List.append_cancel_left h1
        simp only [List.cons.injEq, true_and] at this
        exact this.symm
      have hs : s = u ++ GT :: (v ++ w) := by rw [hw]; simp
      have hdrop : ∀ Z : Str, (LT :: (u ++ GT :: Z)).drop c = Z := by
        intro Z
        have e : LT :: (u ++ GT :: Z) = (LT :: (u ++ [GT])) ++ Z := by simp
        rw [e]
        exact List.drop_left' (by simp; omega)
      have htake : ∀ Z : Str, (LT :: (u ++ GT :: Z)).take c = LT :: (u ++ [GT]) := by
        intro Z
        have e : LT :: (u ++ GT :: Z) = (LT :: (u ++ [GT])) ++ Z := by simp
        rw [e]
        exact List.take_left' (by simp; omega)
      have hvm : markupFrom (v ++ w) [] = some (A', none) := by
        rw [← markupFrom_trimRight, hv]
        rw [huv, hdrop] at hrest
        exact hrest
      have hlen : (v ++ w).length ≤ k := by
        have := congrArg List.length hs
        simp only [List.length_append, List.length_cons] at this hk ⊢
        omega
      have hih := ih (v ++ w) b A' B hlen hvm hb
      have e1 : p ++ LT :: s ++ b = p ++ LT :: (u ++ GT :: (v ++ w ++ b)) := by
        rw [hs]; simp
      rw [e1, markupFrom_lt hp, trimRight_append_solid solid_GT]
      have hpn2 : parseNode (LT :: (u ++ GT :: trimRight (v ++ w ++ b)))
          = some (.ok node c) := by
        apply hcongr
        rw [huv, htake, htake]
      have := markupNode_ok [] hpn2 (by
        rw [hdrop, markupFrom_trimRight]; exact hih)
      rw [this, hA]
      simp
    · rw [markupFrom_no_lt hlt] at ha
      simp only [Option.some.injEq, Prod.mk.injEq, and_true] at ha
      rw [markupFrom_skip hlt, ← ha]
      simpa using hb

/-- C7: root nodes come in input order, and parsing distributes over
concatenation: when `ParseMarkup` returns the forests `A` for `a` and `B` for
`b`, without error, it returns `A ++ B` for `a ++ b`. -/
theorem ParseMarkup_append (a b : Str) (A B : List Node)
    (ha : ParseMarkup a = some (A, none)) (hb : ParseMarkup b = some (B, none)) :
    ParseMarkup (a ++ b) = some (A ++ B, none) := by
  rw [ParseMarkup_eq_markupFrom] at ha hb ⊢
  exact markupFrom_append a.length a b A B (Nat.le_refl _) ha hb

/-- C7 at `<tag1></tag1>` and `<tag2></tag2>`. -/
theorem ParseMarkup_append_witness :
    ParseMarkup (bytes "<tag1></tag1><tag2></tag2>")
      = some ([.mk (bytes "tag1") [] [] [], .mk (bytes "tag2") [] [] []], none) ∧
    ParseMarkup (bytes "<tag1></tag1>" ++ bytes "<tag2></tag2>")
      = some ([.mk (bytes "tag1") [] [] []] ++ [.mk (bytes "tag2") [] [] []], none) :=
  ⟨by rfl, ParseMarkup_append (bytes "<tag1></tag1>") (bytes "<tag2></tag2>")
    [.mk (bytes "tag1") [] [] []] [.mk (bytes "tag2") [] [] []] (by rfl) (by rfl)⟩

/-- Where `ParseMarkup` returns a forest for a string, `parseChildren` collects
the same nodes from it. -/
theorem childrenFrom_of_markupFrom (k : Nat) :
    ∀ (body : Str) (F res : List Node) (txt : Str), body.length ≤ k →
      markupFrom body [] = some (F, none) →
      ∃ t, childrenFrom body res txt = some (res ++ F, t) := by
  induction k with
  | zero =>
    intro body F res txt hk hm
    have : body = [] := List.length_eq_zero.mp (by omega)
    subst this
    rw [markupFrom_nil] at hm
    simp only [Option.some.injEq, Prod.mk.injEq, and_true] at hm
    rw [← hm, childrenFrom_no_lt (by simp)]
    exact ⟨TrimSpace (txt ++ TrimSpace []), by simp⟩
  | succ k ih =>
    intro body F res txt hk hm
    by_cases hlt : LT ∈ body
    · obtain ⟨p, s, rfl, hp⟩ := split_at_lt hlt
      rw [markupFrom_lt hp] at hm
      obtain ⟨node, c, F', hpn, hrest, hF⟩ := markupNode_ok_inv hm
      have hc := parseNode_progress _ _ _ hpn
      have hlen : ((LT :: trimRight s).drop c).length ≤ k := by
        have h1 := (trimRight_initial s).length_le
        rw [List.length_drop]
        simp only [List.length_append, List.length_cons] at hk ⊢
        omega
      obtain ⟨t, ht⟩ := ih _ F' (res ++ [node]) (txt ++ trimLeft p) hlen hrest
      refine ⟨t, ?_⟩
      rw [childrenFrom_lt hp, childrenNode, hpn]
      simp only
      rw [ht, hF]
      simp
    · rw [markupFrom_no_lt hlt] at hm
      simp only [Option.some.injEq, Prod.mk.injEq, and_true] at hm
      rw [← hm, childrenFrom_no_lt hlt]
      exact ⟨TrimSpace (txt ++ TrimSpace body), by simp⟩

/-- C8: for a name `n` and a body without `</n>` for which `ParseMarkup`
returns the forest `F`, `ParseMarkup` of `<n>body</n>` returns one root node
with tag `n`, no attributes and the children `F`, in the same order. -/
theorem ParseMarkup_nested (n body : Str) (F : List Node) (hn : IsName n)
    (hb : Index body (endTagOf n) = none) (hF : ParseMarkup body = some (F, none)) :
    ∃ text, ParseMarkup (bytes "<" ++ n ++ bytes ">" ++ body ++ bytes "</" ++ n ++ bytes ">")
      = some ([.mk n [] F text], none) := by
  rw [ParseMarkup_eq_markupFrom] at hF
  obtain ⟨t, ht⟩ := childrenFrom_of_markupFrom body.length body F [] [] (Nat.le_refl _) hF
  rw [List.nil_append] at ht
  refine ⟨t, ?_⟩
  rw [element_eq]
  have ho := opensWith_plain hn.1 hn.2 (body ++ endTagOf n)
  rw [ParseMarkup_element n [] body (by simpa using ho) hb ht]
  rfl

/-- C8 at `<parent><child></child></parent>`. -/
theorem ParseMarkup_nested_witness :
    ParseMarkup (bytes "<parent><child></child></parent>")
      = some ([.mk (bytes "parent") [] [.mk (bytes "child") [] [] []] []], none) ∧
    ∃ text, ParseMarkup (bytes "<" ++ bytes "parent" ++ bytes ">" ++ bytes "<child></child>"
        ++ bytes "</" ++ bytes "parent" ++ bytes ">")
      = some ([.mk (bytes "parent") [] [.mk (bytes "child") [] [] []] text], none) :=
  ⟨by rfl, ParseMarkup_nested (bytes "parent") (bytes "<child></child>")
    [.mk (bytes "child") [] [] []] ⟨by decide, by decide⟩ (by rfl) (by rfl)⟩

/-! ## Attributes -/

theorem takeWhile_append_stop (p : Nat → Bool) {v : Str} (hv : ∀ c ∈ v, p c = true)
    {d : Nat} (hd : p d = false) (rest : Str) :
    (v ++ d :: rest).takeWhile p = v ∧ (v ++ d :: rest).dropWhile p = d :: rest := by
  induction v with
  | nil => simp [hd]
  | cons a u ih =>
    have ha : p a = true := hv a (by simp)
    have := ih (fun c hc => hv c (by simp [hc]))
    simp [ha, this.1, this.2]

theorem isNameByte_ne_equals {c : Nat} (h : isNameByte c = true) : c ≠ EQUALS := by
  simp only [isNameByte, Bool.or_eq_true, Bool.and_eq_true, decide_eq_true_eq, beq_iff_eq] at h
  simp only [EQUALS]
  omega

theorem attrNameK_rejects (p0 pos c : Nat) (t : Str) (caps : List (Nat × Nat × Nat))
    (h : isNameByte c = true) : attrNameK p0 ⟨pos, c :: t, caps⟩ = none := by
  simp [attrNameK, attrTail, Regex.run, starLoop, isNameByte_not_space h, isNameByte_ne_equals h]

theorem attrValueK_rejects (p0 pos c : Nat) (t : Str) (caps : List (Nat × Nat × Nat))
    (h : (c != QUOTE) = true) : attrValueK p0 ⟨pos, c :: t, caps⟩ = none := by
  have : c ≠ QUOTE := by simpa using h
  simp [attrValueK, Regex.run, this]

theorem attrRx_no_name (pos c : Nat) (t : Str) (h : isNameByte c = false) :
    attrRx.run ⟨pos, c :: t, []⟩ some = none := by
  simp [attrRx, Regex.run, h]

/-- The attribute pattern on `k="v"`. -/
theorem attrRx_pair {k v : Str} (hk : IsName k) (hq : QUOTE ∉ v) (pos : Nat) (rest : Str) :
    attrRx.run ⟨pos, k ++ EQUALS :: QUOTE :: (v ++ QUOTE :: rest), []⟩ some =
      some ⟨pos + k.length + 2 + v.length + 1, rest,
        [(2, pos + k.length + 2, pos + k.length + 2 + v.length), (1, pos, pos + k.length)]⟩ := by
  obtain ⟨hne, hname⟩ := hk
  obtain ⟨k0, k', rfl⟩ := List.exists_cons_of_ne_nil hne
  have h0 : isNameByte k0 = true := hname k0 (by simp)
  have hk' : ∀ c ∈ k', isNameByte c = true := fun c hc => hname c (by simp [hc])
  have hrun : attrRx.run ⟨pos, k0 :: k' ++ EQUALS :: QUOTE :: (v ++ QUOTE :: rest), []⟩ some =
      if isNameByte k0 = true then
        starLoop isNameByte (attrNameK pos) [] (pos + 1)
          (k' ++ EQUALS :: QUOTE :: (v ++ QUOTE :: rest))
      else none := rfl
  rw [hrun, if_pos h0, starLoop_longest isNameByte (attrNameK pos) (attrNameK_rejects pos)]
  have htd := takeWhile_append_stop isNameByte hk' (d := EQUALS) (by decide)
    (QUOTE :: (v ++ QUOTE :: rest))
  rw [htd.1, htd.2]
  have hval : attrNameK pos ⟨pos + 1 + k'.length, EQUALS :: QUOTE :: (v ++ QUOTE :: rest), []⟩
      = starLoop (· != QUOTE) (attrValueK (pos + 1 + k'.length + 1 + 1)) [(1, pos, pos + 1 + k'.length)]
          (pos + 1 + k'.length + 1 + 1) (v ++ QUOTE :: rest) := by
    have e1 : isReSpace EQUALS = false := by decide
    have e2 : isReSpace QUOTE = false := by decide
    simp only [attrNameK, attrTail, Regex.run, starLoop, e1, e2, Bool.false_eq_true, if_false,
      beq_self_eq_true, if_true]
    rfl
  rw [hval, starLoop_longest _ _ (attrValueK_rejects _)]
  have hv : ∀ c ∈ v, (c != QUOTE) = true := by
    intro c hc
    have : c ≠ QUOTE := fun e => hq (e ▸ hc)
    simpa using this
  have htv := takeWhile_append_stop (· != QUOTE) hv (d := QUOTE) (by simp) rest
  rw [htv.1, htv.2]
  simp only [attrValueK, Regex.run, beq_self_eq_true, if_true, List.length_cons]
  have a1 : pos + 1 + k'.length + 1 + 1 + v.length + 1 = pos + (k'.length + 1) + 2 + v.length + 1 := by
    omega
  have a2 : pos + 1 + k'.length + 1 + 1 = pos + (k'.length + 1) + 2 := by omega
  have a3 : pos + 1 + k'.length = pos + (k'.length + 1) := by omega
  rw [a1, a2, a3]

theorem findAll_skip (r : Regex) :
    ∀ (t : Str) (skip pos : Nat), t.length ≤ skip → r.findAll skip pos t = [] := by
  intro t
  induction t with
  | nil => intro skip pos _; simp [Regex.findAll]
  | cons c u ih =>
    intro skip pos h
    obtain ⟨m, rfl⟩ : ∃ m, skip = m + 1 := ⟨skip - 1, by simp at h; omega⟩
    simp only [Regex.findAll]
    exact ih m (pos + 1) (by simp at h; omega)

theorem isNameByte_ne_quote {c : Nat} (h : isNameByte c = true) : c ≠ QUOTE := by
  simp only [isNameByte, Bool.or_eq_true, Bool.and_eq_true, decide_eq_true_eq, beq_iff_eq] at h
  simp only [QUOTE]
  omega

/-- `parseAttributes` on the raw attribute text ` k="v"`. -/
theorem parseAttributes_pair {k v : Str} (hk : IsName k) (hq : QUOTE ∉ v) :
    parseAttributes (32 :: (k ++ EQUALS :: QUOTE :: (v ++ [QUOTE]))) = [(k, v)] := by
  obtain ⟨k0, k', hkk⟩ := List.exists_cons_of_ne_nil hk.1
  have hm := attrRx_pair hk hq 1 []
  have hall : attrRx.findAll 0 0 (32 :: (k ++ EQUALS :: QUOTE :: (v ++ [QUOTE])))
      = [⟨1 + k.length + 2 + v.length + 1, [],
          [(2, 1 + k.length + 2, 1 + k.length + 2 + v.length), (1, 1, 1 + k.length)]⟩] := by
    rw [Regex.findAll, attrRx_no_name 0 32 _ (by decide)]
    simp only [Nat.zero_add]
    subst hkk
    rw [List.cons_append, Regex.findAll, ← List.cons_append, hm]
    simp only
    rw [findAll_skip]
    simp only [List.length_append, List.length_cons, List.length_nil]
    omega
  simp only [parseAttributes, hall, List.foldl_cons, List.foldl_nil, MState.group, List.find?]
  have e1 : ((2 : Nat) == 1) = false := by decide
  have e2 : ((2 : Nat) == 2) = true := by decide
  have e3 : ((1 : Nat) == 1) = true := by decide
  simp only [e1, e2, e3]
  have s1 : slice (32 :: (k ++ EQUALS :: QUOTE :: (v ++ [QUOTE]))) 1 (1 + k.length) = k := by
    simp [slice, Nat.add_comm 1]
  have s2 : slice (32 :: (k ++ EQUALS :: QUOTE :: (v ++ [QUOTE]))) (1 + k.length + 2)
      (1 + k.length + 2 + v.length) = v := by
    have e : (32 :: (k ++ EQUALS :: QUOTE :: (v ++ [QUOTE])))
        = (32 :: (k ++ [EQUALS, QUOTE])) ++ (v ++ [QUOTE]) := by simp
    have hl : (32 :: (k ++ [EQUALS, QUOTE])).length = 1 + k.length + 2 := by
      simp; omega
    rw [slice, e, ← hl, List.take_append, List.drop_left, List.take_left]
  rw [s1, s2]
  rfl

theorem attribute_eq (t k v : Str) :
    bytes "<" ++ t ++ bytes " " ++ k ++ bytes "=\"" ++ v ++ bytes "\"></" ++ t ++ bytes ">"
      = LT :: (t ++ (32 :: (k ++ EQUALS :: QUOTE :: (v ++ [QUOTE]))) ++ GT :: ([] ++ endTagOf t))
      := by
  have e1 : bytes " " = [32] := by rfl
  have e2 : bytes "=\"" = [EQUALS, QUOTE] := by rfl
  have e3 : bytes "\"></" = [QUOTE, GT, LT, SLASH] := by rfl
  simp [bytes_lt, bytes_close, e1, e2, e3, endTagOf_eq]

/-- C10: for names `t` and `k` and a value `v` without `"` and `>`,
`ParseMarkup` of `<t k="v"></t>` returns no error and one root node with tag
`t` whose attribute map has the one entry `k: v`, the value unmodified. -/
theorem ParseMarkup_attribute (t k v : Str) (ht : IsName t) (hk : IsName k)
    (hq : QUOTE ∉ v) (hg : GT ∉ v) :
    ParseMarkup
        (bytes "<" ++ t ++ bytes " " ++ k ++ bytes "=\"" ++ v ++ bytes "\"></" ++ t ++ bytes ">")
      = some ([.mk t [(k, v)] [] []], none) := by
  rw [attribute_eq]
  have hreg : GT ∉ (32 :: (k ++ EQUALS :: QUOTE :: (v ++ [QUOTE]))) := by
    intro h
    simp only [List.mem_cons, List.mem_append, List.mem_singleton, List.not_mem_nil,
      or_false] at h
    rcases h with h | h | h | h | h | h
    · revert h; decide
    · exact isNameByte_ne_gt (hk.2 _ h) rfl
    · revert h; decide
    · revert h; decide
    · exact hg h
    · revert h; decide
  have ho : OpensWith
      (LT :: (t ++ (32 :: (k ++ EQUALS :: QUOTE :: (v ++ [QUOTE]))) ++ GT :: ([] ++ endTagOf t)))
      t (32 :: (k ++ EQUALS :: QUOTE :: (v ++ [QUOTE]))) ([] ++ endTagOf t) :=
    ⟨ht.1, ht.2, Or.inr ⟨32, _, rfl, by decide⟩, hreg, rfl⟩
  have hb : Index [] (endTagOf t) = none := by
    rw [endTagOf_eq]; rfl
  have hc : parseChildren [] = some ([], []) := by rfl
  rw [ParseMarkup_element t _ [] ho hb hc]
  have hat : attrText (32 :: (k ++ EQUALS :: QUOTE :: (v ++ [QUOTE])))
      = 32 :: (k ++ EQUALS :: QUOTE :: (v ++ [QUOTE])) := by
    simp [attrText]
  rw [hat, parseAttributes_pair hk hq]

/-- C10 at `<tag attribute="value"></tag>`. -/
theorem ParseMarkup_attribute_witness :
    ParseMarkup (bytes "<tag attribute=\"value\"></tag>")
      = some ([.mk (bytes "tag") [(bytes "attribute", bytes "value")] [] []], none) ∧
    ParseMarkup (bytes "<" ++ bytes "tag" ++ bytes " " ++ bytes "attribute" ++ bytes "=\""
        ++ bytes "value" ++ bytes "\"></" ++ bytes "tag" ++ bytes ">")
      = some ([.mk (bytes "tag") [(bytes "attribute", bytes "value")] [] []], none) :=
  ⟨by rfl, ParseMarkup_attribute (bytes "tag") (bytes "attribute") (bytes "value")
    ⟨by decide, by decide⟩ ⟨by decide, by decide⟩ (by decide) (by decide)⟩

/-- C1: `parseNode` returns the error "invalid tag start" exactly when the input
does not begin with a well-formed opening tag; when it does, with name `name`
and `rest` after the opening tag, `parseNode` returns the error "no closing
tag" exactly when `</name>` does not occur in `rest`, and in every other case
it returns a node with tag `name`. -/
theorem parseNode_errors (input : Str) :
    ((∃ s, parseNode input = some (.err (.invalidTagStart s))) ↔
        ¬ ∃ name region rest, OpensWith input name region rest) ∧
    ((¬ ∃ name region rest, OpensWith input name region rest) →
        parseNode input = some (.err (.invalidTagStart input))) ∧
    (∀ name region rest, OpensWith input name region rest →
        ((∃ t, parseNode input = some (.err (.unclosedTag t))) ↔
            ¬ endTagOf name <:+: rest) ∧
        (¬ endTagOf name <:+: rest → parseNode input = some (.err (.unclosedTag name))) ∧
        (endTagOf name <:+: rest →
            ∃ node consumed, parseNode input = some (.ok node consumed) ∧
              node.Tag = name)) := by
  have hB : ∀ name region rest, OpensWith input name region rest →
      (¬ endTagOf name <:+: rest → parseNode input = some (.err (.unclosedTag name))) ∧
      (endTagOf name <:+: rest →
          ∃ node consumed, parseNode input = some (.ok node consumed) ∧ node.Tag = name) := by
    intro name region rest ho
    constructor
    · intro hn
      exact parseNode_unclosed ho ((Index_eq_none_iff _ _).mpr hn)
    · intro hi
      cases hidx : Index rest (endTagOf name) with
      | none => exact absurd hi ((Index_eq_none_iff _ _).mp hidx)
      | some endIdx =>
        cases hc : parseChildren (rest.take endIdx) with
        | none => exact absurd hc (childrenFrom_ne_none _ [] [])
        | some q =>
          obtain ⟨children, text⟩ := q
          exact ⟨_, _, parseNode_closed ho hidx hc, rfl⟩
  refine ⟨⟨?_, ?_⟩, parseNode_no_tag, ?_⟩
  · rintro ⟨s, hs⟩ ⟨name, region, rest, ho⟩
    by_cases hi : endTagOf name <:+: rest
    · obtain ⟨node, c, hok, _⟩ := (hB name region rest ho).2 hi
      rw [hok] at hs
      simp at hs
    · rw [(hB name region rest ho).1 hi] at hs
      simp at hs
  · intro h
    exact ⟨input, parseNode_no_tag h⟩
  · intro name region rest ho
    refine ⟨⟨?_, ?_⟩, (hB name region rest ho).1, (hB name region rest ho).2⟩
    · rintro ⟨t, ht⟩ hi
      obtain ⟨node, c, hok, _⟩ := (hB name region rest ho).2 hi
      rw [hok] at ht
      simp at ht
    · intro hi
      exact ⟨name, (hB name region rest ho).1 hi⟩

/-- C1 on four inputs: no opening tag, a self-closing tag, an opening tag
without closing tag, and a complete element. -/
theorem parseNode_on_examples :
    parseNode (bytes "text") = some (.err (.invalidTagStart (bytes "text"))) ∧
    parseNode (bytes "<br/></br>") = some (.err (.invalidTagStart (bytes "<br/></br>"))) ∧
    parseNode (bytes "<a x=\"1\">b</A>") = some (.err (.unclosedTag (bytes "a"))) ∧
    parseNode (bytes "<a x=\"1\">b</a>c")
      = some (.ok (.mk (bytes "a") [(bytes "x", bytes "1")] [] (bytes "b")) 14) :=
  ⟨by rfl, by rfl, by rfl, by rfl⟩

/-! ## Consumed bytes, bounds and termination -/

theorem OpensWith.matchStart_pos {input name region rest : Str}
    (h : OpensWith input name region rest) :
    ∃ loc, tagOpen.matchStart input = some loc ∧ loc.pos = name.length + region.length + 2 ∧
      input.drop loc.pos = rest :=
  ⟨_, tagOpen_of_opensWith h, rfl, by rw [h.2.2.2.2]; exact drop_opening name region rest⟩

/-- C12: when `parseNode` succeeds with tag `n`, the consumed count is the
length of the matched opening tag, plus the index of the first `</n>` in the
remainder after the opening tag, plus the length of `</n>`; so it is at least
the length of the opening tag plus the length of the closing tag, and the
consumed bytes end with `</n>`. -/
theorem parseNode_consumed (input : Str) (node : Node) (consumed : Nat)
    (h : parseNode input = some (.ok node consumed)) :
    ∃ loc endIdx, tagOpen.matchStart input = some loc ∧
      Index (input.drop loc.pos) (endTagOf node.Tag) = some endIdx ∧
      consumed = loc.pos + endIdx + (endTagOf node.Tag).length ∧
      loc.pos + (endTagOf node.Tag).length ≤ consumed ∧
      endTagOf node.Tag <:+ input.take consumed := by
  obtain ⟨name, region, rest, endIdx, children, text, ho, hi, hc, hnode, hcons⟩ :=
    parseNode_ok_inv h
  obtain ⟨loc, hloc, hpos, hdrop⟩ := ho.matchStart_pos
  have htag : node.Tag = name := by rw [hnode]; rfl
  obtain ⟨hsplit, hle⟩ := Index_some_split hi
  refine ⟨loc, endIdx, hloc, by rw [hdrop, htag]; exact hi, by rw [htag, hpos]; exact hcons,
    by rw [htag, hpos, hcons]; omega, ?_⟩
  rw [htag]
  have hin := ho.2.2.2.2
  have htk : (rest.take endIdx).length = endIdx := by
    rw [List.length_take]; omega
  have e : input = (LT :: (name ++ region ++ GT :: (rest.take endIdx)) ++ endTagOf name)
      ++ rest.drop (endIdx + (endTagOf name).length) := by
    rw [hin]
    conv_lhs => rw [hsplit]
    simp
  have hl : (LT :: (name ++ region ++ GT :: (rest.take endIdx)) ++ endTagOf name).length
      = consumed := by
    rw [hcons]
    simp only [List.length_append, List.length_cons, htk]
    omega
  have : input.take consumed = LT :: (name ++ region ++ GT :: (rest.take endIdx)) ++ endTagOf name
      := by
    conv_lhs => rw [e]
    exact List.take_left' hl
  rw [this]
  exact List.suffix_append _ _

/-- C12 at `<a x="1">b</a>c`: 9 bytes of opening tag, index 1, 4 bytes of
closing tag. -/
theorem parseNode_consumed_witness :
    parseNode (bytes "<a x=\"1\">b</a>c")
      = some (.ok (.mk (bytes "a") [(bytes "x", bytes "1")] [] (bytes "b")) 14) ∧
    ∃ loc endIdx, tagOpen.matchStart (bytes "<a x=\"1\">b</a>c") = some loc ∧
      Index ((bytes "<a x=\"1\">b</a>c").drop loc.pos) (endTagOf (bytes "a")) = some endIdx ∧
      14 = loc.pos + endIdx + (endTagOf (bytes "a")).length ∧
      loc.pos + (endTagOf (bytes "a")).length ≤ 14 ∧
      endTagOf (bytes "a") <:+ (bytes "<a x=\"1\">b</a>c").take 14 :=
  ⟨by rfl, parseNode_consumed (bytes "<a x=\"1\">b</a>c")
    (.mk (bytes "a") [(bytes "x", bytes "1")] [] (bytes "b")) 14 (by rfl)⟩

theorem no_tag_of_slash (t : Str) :
    ¬ ∃ name region rest, OpensWith (LT :: SLASH :: t) name region rest := by
  rintro ⟨name, region, rest, hne, hname, _, _, hin⟩
  obtain ⟨k0, k', rfl⟩ := List.exists_cons_of_ne_nil hne
  simp only [List.cons_append, List.cons.injEq, true_and] at hin
  have := hname k0 (by simp)
  rw [← hin.1] at this
  revert this; decide

theorem Index_none_of_short {s sub : Str} (h : s.length < sub.length) : Index s sub = none := by
  rw [Index_eq_none_iff]
  intro hi
  have := hi.length_le
  omega

theorem parseChildren_open_only {n : Str} (hn : IsName n) :
    parseChildren (LT :: (n ++ [GT])) = some ([], []) := by
  have ho := opensWith_plain hn.1 hn.2 []
  have hi : Index [] (endTagOf n) = none := by rw [endTagOf_eq]; rfl
  have hp := parseNode_unclosed ho hi
  have ht : trimRight (n ++ [GT]) = n ++ [GT] := by
    have := trimRight_append_solid solid_GT n []
    rw [trimRight_nil] at this
    exact this
  rw [parseChildren_eq, childrenFrom_lt_cons, ht, childrenNode, hp]
  rfl

/-- C14: the closing tag is the first literal occurrence of `</n>`.  When
`parseNode` succeeds, the children and text of the node are those of the part
of the input between the opening tag and the first `</n>` after it.  So on
`<n><n></n></n>` `parseNode` returns a node `n` without children and text that
consumes `<n><n></n>` only, and `ParseMarkup` returns the error "invalid tag
start" for the `</n>` left over, and no nodes. -/
theorem parseNode_first_closing :
    (∀ (input : Str) (node : Node) (consumed : Nat),
      parseNode input = some (.ok node consumed) →
      ∃ loc endIdx, tagOpen.matchStart input = some loc ∧
        Index (input.drop loc.pos) (endTagOf node.Tag) = some endIdx ∧
        parseChildren ((input.drop loc.pos).take endIdx) = some (node.Children, node.Text)) ∧
    (∀ n : Str, IsName n →
      parseNode (bytes "<" ++ n ++ bytes ">" ++ bytes "<" ++ n ++ bytes ">" ++ bytes "</"
          ++ n ++ bytes ">" ++ bytes "</" ++ n ++ bytes ">")
        = some (.ok (.mk n [] [] [])
            (bytes "<" ++ n ++ bytes ">" ++ bytes "<" ++ n ++ bytes ">" ++ bytes "</"
              ++ n ++ bytes ">").length) ∧
      ParseMarkup (bytes "<" ++ n ++ bytes ">" ++ bytes "<" ++ n ++ bytes ">" ++ bytes "</"
          ++ n ++ bytes ">" ++ bytes "</" ++ n ++ bytes ">")
        = some ([], some (.invalidTagStart (bytes "</" ++ n ++ bytes ">")))) ∧
    parseNode (bytes "<a><a></a></a>") = some (.ok (.mk (bytes "a") [] [] []) 10) := by
  refine ⟨?_, ?_, by rfl⟩
  · intro input node consumed h
    obtain ⟨name, region, rest, endIdx, children, text, ho, hi, hc, hnode, hcons⟩ :=
      parseNode_ok_inv h
    obtain ⟨loc, hloc, hpos, hdrop⟩ := ho.matchStart_pos
    have htag : node.Tag = name := by rw [hnode]; rfl
    refine ⟨loc, endIdx, hloc, by rw [hdrop, htag]; exact hi, ?_⟩
    rw [hdrop, hc, hnode]
    rfl
  · intro n hn
    have e : bytes "<" ++ n ++ bytes ">" ++ bytes "<" ++ n ++ bytes ">" ++ bytes "</"
          ++ n ++ bytes ">" ++ bytes "</" ++ n ++ bytes ">"
        = LT :: (n ++ [] ++ GT :: ((LT :: (n ++ [GT])) ++ endTagOf n ++ endTagOf n)) := by
      simp [bytes_lt, bytes_close, bytes_open, endTagOf_eq]
    have el : (bytes "<" ++ n ++ bytes ">" ++ bytes "<" ++ n ++ bytes ">" ++ bytes "</"
          ++ n ++ bytes ">").length
        = n.length + ([] : Str).length + 2 + (LT :: (n ++ [GT])).length + (endTagOf n).length := by
      simp [bytes_lt, bytes_close, bytes_open, endTagOf_eq]
      omega
    have ee : bytes "</" ++ n ++ bytes ">" = endTagOf n := rfl
    have ho : OpensWith
        (LT :: (n ++ [] ++ GT :: ((LT :: (n ++ [GT])) ++ endTagOf n ++ endTagOf n))) n []
        ((LT :: (n ++ [GT])) ++ endTagOf n ++ endTagOf n) :=
      ⟨hn.1, hn.2, Or.inl rfl, by simp, rfl⟩
    have hb : Index (LT :: (n ++ [GT])) (endTagOf n) = none :=
      Index_none_of_short (by rw [endTagOf_length]; simp)
    have hp := parseNode_element ho hb (parseChildren_open_only hn)
    have hattr : parseAttributes (attrText []) = [] := by rfl
    rw [hattr] at hp
    rw [e, el, ee]
    refine ⟨hp, ?_⟩
    have htr : trimRight (n ++ [] ++ GT :: ((LT :: (n ++ [GT])) ++ endTagOf n ++ endTagOf n))
        = n ++ [] ++ GT :: ((LT :: (n ++ [GT])) ++ endTagOf n ++ endTagOf n) := by
      have e2 : n ++ [] ++ GT :: ((LT :: (n ++ [GT])) ++ endTagOf n ++ endTagOf n)
          = (n ++ [] ++ GT :: ((LT :: (n ++ [GT])) ++ endTagOf n ++ LT :: SLASH :: n))
            ++ GT :: [] := by
        simp [endTagOf_eq]
      rw [e2, trimRight_append_solid solid_GT, trimRight_nil]
    have hd : (LT :: (n ++ [] ++ GT :: ((LT :: (n ++ [GT])) ++ endTagOf n ++ endTagOf n))).drop
        (n.length + ([] : Str).length + 2 + (LT :: (n ++ [GT])).length + (endTagOf n).length)
        = endTagOf n := by
      have e3 : LT :: (n ++ [] ++ GT :: ((LT :: (n ++ [GT])) ++ endTagOf n ++ endTagOf n))
          = (LT :: (n ++ [] ++ GT :: ((LT :: (n ++ [GT])) ++ endTagOf n))) ++ endTagOf n := by
        simp
      rw [e3]
      exact List.drop_left' (by simp; omega)
    have htr2 : trimRight (SLASH :: (n ++ [GT])) = SLASH :: (n ++ [GT]) := by
      have := trimRight_append_solid solid_GT (SLASH :: n) []
      rw [trimRight_nil] at this
      simpa using this
    rw [ParseMarkup_eq_markupFrom, markupFrom_lt_cons, htr, markupNode, hp]
    simp only
    rw [hd, endTagOf_eq, markupFrom_lt_cons, htr2, markupNode,
      parseNode_no_tag (no_tag_of_slash _)]

theorem isNameByte_SLASH : isNameByte SLASH = false := by decide

theorem parseNode_slash_after_name {n : Str} (hn : IsName n) (t : Str) :
    parseNode (LT :: (n ++ SLASH :: t)) = some (.err (.invalidTagStart (LT :: (n ++ SLASH :: t))))
    := by
  apply parseNodeFuel_no_tag
  rw [tagOpen_matchStart_eq, tagOpenClosed]
  have htd := takeWhile_append_stop isNameByte hn.2 isNameByte_SLASH t
  have hlen : n.length ≠ 0 := fun e => hn.1 (List.length_eq_zero.mp e)
  have e1 : (SLASH = GT) = False := by simp [SLASH, GT]
  have e2 : isReSpace SLASH = false := by decide
  simp [htd.1, htd.2, hlen, e1, e2]

/-- C15, as the code has it: a self-closing tag `<n/>` is no opening tag, and
`parseNode` returns the error "invalid tag start" on every input that begins
with it, whether `</n>` occurs later or not.  With white space before the
slash, `<n />`, the tag is an opening tag: `parseNode` returns the error "no
closing tag" when `</n>` does not occur later, and a node with tag `n` when
it does. -/
theorem parseNode_self_closing (n : Str) (hn : IsName n) :
    (∀ rest : Str, parseNode (bytes "<" ++ n ++ bytes "/>" ++ rest)
        = some (.err (.invalidTagStart (bytes "<" ++ n ++ bytes "/>" ++ rest)))) ∧
    (∀ rest : Str, Index rest (endTagOf n) = none →
        parseNode (bytes "<" ++ n ++ bytes " />" ++ rest) = some (.err (.unclosedTag n))) ∧
    (∀ rest : Str, Index rest (endTagOf n) ≠ none →
        ∃ node consumed, parseNode (bytes "<" ++ n ++ bytes " />" ++ rest)
          = some (.ok node consumed) ∧ node.Tag = n) := by
  have e1 : bytes "/>" = [SLASH, GT] := by rfl
  have e2 : bytes " />" = [32, SLASH, GT] := by rfl
  have ho : ∀ rest : Str, OpensWith (bytes "<" ++ n ++ bytes " />" ++ rest) n [32, SLASH] rest := by
    intro rest
    refine ⟨hn.1, hn.2, Or.inr ⟨32, _, rfl, by decide⟩, by decide, ?_⟩
    simp [bytes_lt, e2]
  refine ⟨?_, ?_, ?_⟩
  · intro rest
    have e : bytes "<" ++ n ++ bytes "/>" ++ rest = LT :: (n ++ SLASH :: (GT :: rest)) := by
      simp [bytes_lt, e1]
    rw [e]
    exact parseNode_slash_after_name hn _
  · intro rest hi
    exact parseNode_unclosed (ho rest) hi
  · intro rest hi
    cases hidx : Index rest (endTagOf n) with
    | none => exact absurd hidx hi
    | some endIdx =>
      cases hc : parseChildren (rest.take endIdx) with
      | none => exact absurd hc (childrenFrom_ne_none _ [] [])
      | some q =>
        obtain ⟨children, text⟩ := q
        exact ⟨_, _, parseNode_closed (ho rest) hidx hc, rfl⟩

/-- C15 at `br`: `<br/>...`, `<br />` and `<br /></br>`. -/
theorem parseNode_self_closing_witness :
    parseNode (bytes "<br />") = some (.err (.unclosedTag (bytes "br"))) ∧
    parseNode (bytes "<br /></br>")
      = some (.ok (.mk (bytes "br") [] [] []) 11) ∧
    ∀ rest : Str, parseNode (bytes "<" ++ bytes "br" ++ bytes "/>" ++ rest)
      = some (.err (.invalidTagStart (bytes "<" ++ bytes "br" ++ bytes "/>" ++ rest))) :=
  ⟨by rfl, by rfl, (parseNode_self_closing (bytes "br") ⟨by decide, by decide⟩).1⟩

/-- C15 as stated fails: `</br>` occurs after `<br/>` in `<br/></br>`, and
`parseNode` returns the error "invalid tag start", no node; on `<br/>` alone
the error is "invalid tag start" too, not "no closing tag". -/
theorem parseNode_self_closing_counterexample :
    Index (bytes "</br>") (endTagOf (bytes "br")) = some 0 ∧
    parseNode (bytes "<br/>" ++ bytes "</br>")
      = some (.err (.invalidTagStart (bytes "<br/></br>"))) ∧
    Index (bytes "") (endTagOf (bytes "br")) = none ∧
    parseNode (bytes "<br/>" ++ bytes "")
      = some (.err (.invalidTagStart (bytes "<br/>"))) :=
  ⟨by rfl, by rfl, by rfl, by rfl⟩

theorem tagOpen_bounds {input : Str} {loc : MState} (h : tagOpen.matchStart input = some loc) :
    (loc.group 1).1 ≤ (loc.group 1).2 ∧ (loc.group 1).2 ≤ (loc.group 2).1 ∧
    (loc.group 2).1 ≤ (loc.group 2).2 ∧ (loc.group 2).2 < loc.pos ∧
    0 < loc.pos ∧ loc.pos ≤ input.length := by
  obtain ⟨name, region, rest, ho⟩ := opensWith_of_tagOpen h
  have hm := tagOpen_of_opensWith ho
  rw [h] at hm
  simp only [Option.some.injEq] at hm
  have hlen := ho.length_eq
  have hat : (attrText region).length ≤ region.length := by
    simp only [attrText]
    split
    · simp
    · exact Nat.le_refl _
  have e1 : ((2 : Nat) == 1) = false := by decide
  have e2 : ((2 : Nat) == 2) = true := by decide
  have e3 : ((1 : Nat) == 1) = true := by decide
  rw [hm]
  simp only [MState.group, List.find?, e1, e2, e3]
  omega

/-- C19: `ParseMarkup`, `parseNode` and `parseChildren` return on every input,
and more fuel than the length of the input does not change the result.  The
loops go on with a strictly shorter string: `TrimSpace` does not lengthen it,
a skipped text span is not empty, and a parsed node consumes at least one
byte; the body `parseNode` hands to `parseChildren` is strictly shorter than
its input. -/
theorem parser_terminates :
    (∀ input : Str, ∃ r, ParseMarkup input = some r) ∧
    (∀ input : Str, ∃ r, parseNode input = some r) ∧
    (∀ body : Str, ∃ r, parseChildren body = some r) ∧
    (∀ (fuel : Nat) (input : Str), input.length < fuel →
      parseNodeFuel fuel input = parseNode input) ∧
    (∀ (fuel : Nat) (body : Str) (res : List Node) (txt : Str), body.length < fuel →
      parseChildrenLoop parseNode fuel body res txt
        = parseChildrenLoop parseNode (body.length + 1) body res txt) ∧
    (∀ (fuel : Nat) (input : Str) (nodes : List Node), input.length < fuel →
      parseMarkupLoop fuel input nodes = parseMarkupLoop (input.length + 1) input nodes) ∧
    (∀ s : Str, (TrimSpace s).length ≤ s.length) ∧
    (∀ (b : Str) (i : Nat), b.head? ≠ some LT → Index b [LT] = some i →
      0 < i ∧ (b.drop i).length < b.length) ∧
    (∀ (b : Str) (node : Node) (consumed : Nat), parseNode b = some (.ok node consumed) →
      0 < consumed ∧ (b.drop consumed).length < b.length) ∧
    (∀ (input : Str) (loc : MState) (endIdx : Nat), tagOpen.matchStart input = some loc →
      ((input.drop loc.pos).take endIdx).length < input.length) := by
  refine ⟨?_, ?_, ?_, fun f x h => parseNodeFuel_eq_parseNode h,
    fun f b r t h => childrenFrom_fuel h r t, fun f x nodes h => markupFrom_fuel h nodes,
    TrimSpace_length_le, ?_, ?_, ?_⟩
  · intro input
    cases h : ParseMarkup input with
    | none => exact absurd h (ParseMarkup_ne_none input)
    | some r => exact ⟨r, rfl⟩
  · intro input
    cases h : parseNode input with
    | none => exact absurd h (parseNode_ne_none input)
    | some r => exact ⟨r, rfl⟩
  · intro body
    cases h : parseChildren body with
    | none => exact absurd h (childrenFrom_ne_none body [] [])
    | some r => exact ⟨r, rfl⟩
  · intro b i hh hi
    have hpos := Index_lt_pos hh hi
    have hlt := (Index_byte_some hi).2.2
    exact ⟨hpos, drop_length_lt (by omega) hpos⟩
  · intro b node c h
    have hpos := parseNode_progress _ _ _ h
    obtain ⟨name, region, rest, _, _, _, ho, _⟩ := parseNode_ok_inv h
    have := ho.length_eq
    exact ⟨hpos, drop_length_lt (by omega) hpos⟩
  · intro input loc endIdx h
    have hb := tagOpen_bounds h
    rw [List.length_take, List.length_drop]
    omega

/-- C20: when `parseNode` succeeds the consumed count is positive and at most
the length of the input; whenever the opening-tag pattern matches, the offsets
of its capturing groups and the end of the match are ordered and lie within
the input; and an index that `Index` returns, with the string searched for,
lies within the string searched.  So no slice expression of `ParseMarkup`,
`parseNode` and `parseChildren` is out of range. -/
theorem slices_in_range :
    (∀ (input : Str) (node : Node) (consumed : Nat),
      parseNode input = some (.ok node consumed) → 0 < consumed ∧ consumed ≤ input.length) ∧
    (∀ (input : Str) (loc : MState), tagOpen.matchStart input = some loc →
      (loc.group 1).1 ≤ (loc.group 1).2 ∧ (loc.group 1).2 ≤ input.length ∧
      (loc.group 2).1 ≤ (loc.group 2).2 ∧ (loc.group 2).2 ≤ input.length ∧
      loc.pos ≤ input.length) ∧
    (∀ (s sub : Str) (i : Nat), Index s sub = some i → i + sub.length ≤ s.length) := by
  refine ⟨?_, ?_, fun s sub i h => (Index_some_split h).2⟩
  · intro input node c h
    obtain ⟨name, region, rest, endIdx, _, _, ho, hi, _, _, hc⟩ := parseNode_ok_inv h
    have := ho.length_eq
    have := (Index_some_split hi).2
    rw [endTagOf_length] at hc
    rw [endTagOf_length] at this
    omega
  · intro input loc h
    have := tagOpen_bounds h
    omega

/-! ## The attribute pattern on every input -/

theorem attrEqK_rejects (pos c : Nat) (t : Str) (caps : List (Nat × Nat × Nat))
    (h : isReSpace c = true) : attrEqK ⟨pos, c :: t, caps⟩ = none := by
  have : c ≠ EQUALS := by
    intro e; subst e; revert h; decide
  simp [attrEqK, Regex.run, this]

theorem attrQuoteK_rejects (pos c : Nat) (t : Str) (caps : List (Nat × Nat × Nat))
    (h : isReSpace c = true) : attrQuoteK ⟨pos, c :: t, caps⟩ = none := by
  have : c ≠ QUOTE := by
    intro e; subst e; revert h; decide
  simp [attrQuoteK, Regex.run, this]

theorem attrNameK_eq (p0 pos : Nat) (s : Str) (caps : List (Nat × Nat × Nat)) :
    attrNameK p0 ⟨pos, s, caps⟩ =
      attrEqK ⟨pos + (s.takeWhile isReSpace).length, s.dropWhile isReSpace,
        (1, p0, pos) :: caps⟩ := by
  have h : attrNameK p0 ⟨pos, s, caps⟩
      = starLoop isReSpace attrEqK ((1, p0, pos) :: caps) pos s := rfl
  rw [h, starLoop_longest isReSpace attrEqK attrEqK_rejects]

theorem attrEqK_eq (pos : Nat) (t : Str) (caps : List (Nat × Nat × Nat)) :
    attrEqK ⟨pos, EQUALS :: t, caps⟩ =
      attrQuoteK ⟨pos + 1 + (t.takeWhile isReSpace).length, t.dropWhile isReSpace, caps⟩ := by
  have h : attrEqK ⟨pos, EQUALS :: t, caps⟩
      = starLoop isReSpace attrQuoteK caps (pos + 1) t := rfl
  rw [h, starLoop_longest isReSpace attrQuoteK attrQuoteK_rejects]

theorem attrQuoteK_eq (pos : Nat) (t : Str) (caps : List (Nat × Nat × Nat)) :
    attrQuoteK ⟨pos, QUOTE :: t, caps⟩ =
      attrValueK (pos + 1) ⟨pos + 1 + (t.takeWhile (· != QUOTE)).length,
        t.dropWhile (· != QUOTE), caps⟩ := by
  have h : attrQuoteK ⟨pos, QUOTE :: t, caps⟩
      = starLoop (· != QUOTE) (attrValueK (pos + 1)) caps (pos + 1) t := rfl
  rw [h, starLoop_longest _ _ (attrValueK_rejects _)]

theorem attrRx_run_eq (pos : Nat) (s : Str) :
    attrRx.run ⟨pos, s, []⟩ some =
      if (s.takeWhile isNameByte).length = 0 then none
      else attrNameK pos ⟨pos + (s.takeWhile isNameByte).length, s.dropWhile isNameByte, []⟩ := by
  cases s with
  | nil => rfl
  | cons c t =>
    have hrun : attrRx.run ⟨pos, c :: t, []⟩ some =
        if isNameByte c = true then starLoop isNameByte (attrNameK pos) [] (pos + 1) t
        else none := rfl
    rw [hrun]
    by_cases hc : isNameByte c = true
    · rw [if_pos hc, starLoop_longest isNameByte (attrNameK pos) (attrNameK_rejects pos)]
      simp only [List.takeWhile_cons_of_pos hc, List.dropWhile_cons_of_pos hc, List.length_cons,
        Nat.add_one_ne_zero, if_false]
      have : pos + 1 + (List.takeWhile isNameByte t).length
          = pos + ((List.takeWhile isNameByte t).length + 1) := by omega
      rw [this]
    · simp [hc]

/-- What a match of the attribute pattern holds: a name at the start and a
value without `"`, between two `"`. -/
theorem attrRx_match {pos : Nat} {s : Str} {m : MState}
    (h : attrRx.run ⟨pos, s, []⟩ some = some m) :
    ∃ k pre v post, IsName k ∧ QUOTE ∉ v ∧ k <+: s ∧ s = pre ++ v ++ QUOTE :: post ∧
      k.length < pre.length ∧
      m.group 1 = (pos, pos + k.length) ∧
      m.group 2 = (pos + pre.length, pos + pre.length + v.length) ∧
      m.pos = pos + pre.length + v.length + 1 ∧ m.rest = post := by
  rw [attrRx_run_eq] at h
  by_cases hk : (s.takeWhile isNameByte).length = 0
  · simp [hk] at h
  · rw [if_neg hk, attrNameK_eq] at h
    have hs1 : s = s.takeWhile isNameByte ++ s.dropWhile isNameByte :=
      (List.takeWhile_append_dropWhile _ _).symm
    generalize hkd : s.takeWhile isNameByte = k at h hk hs1
    have hkn : IsName k := by
      refine ⟨fun e => hk (by rw [e]; rfl), ?_⟩
      intro c hc
      rw [← hkd] at hc
      exact List.mem_takeWhile_imp hc
    generalize s.dropWhile isNameByte = s1 at h hs1
    have hs2 : s1 = s1.takeWhile isReSpace ++ s1.dropWhile isReSpace :=
      (List.takeWhile_append_dropWhile _ _).symm
    generalize s1.takeWhile isReSpace = w1 at h hs2
    generalize hd1 : s1.dropWhile isReSpace = s2 at h hs2
    cases s2 with
    | nil => simp [attrEqK, Regex.run] at h
    | cons e t =>
      by_cases he : e = EQUALS
      · subst he
        rw [attrEqK_eq] at h
        have hs3 : t = t.takeWhile isReSpace ++ t.dropWhile isReSpace :=
          (List.takeWhile_append_dropWhile _ _).symm
        generalize t.takeWhile isReSpace = w2 at h hs3
        generalize t.dropWhile isReSpace = s3 at h hs3
        cases s3 with
        | nil => simp [attrQuoteK, Regex.run] at h
        | cons q u =>
          by_cases hq : q = QUOTE
          · subst hq
            rw [attrQuoteK_eq] at h
            have hs4 : u = u.takeWhile (· != QUOTE) ++ u.dropWhile (· != QUOTE) :=
              (List.takeWhile_append_dropWhile _ _).symm
            have hv : QUOTE ∉ u.takeWhile (· != QUOTE) := by
              intro hm
              have := List.mem_takeWhile_imp hm
              simp at this
            generalize u.takeWhile (· != QUOTE) = v at h hs4 hv
            generalize u.dropWhile (· != QUOTE) = s5 at h hs4
            cases s5 with
            | nil => simp [attrValueK, Regex.run] at h
            | cons q2 post =>
              by_cases hq2 : q2 = QUOTE
              · subst hq2
                simp only [attrValueK, Regex.run, beq_self_eq_true, if_true,
                  Option.some.injEq] at h
                refine ⟨k, k ++ w1 ++ EQUALS :: w2 ++ [QUOTE], v, post, hkn, hv,
                  ⟨_, hs1.symm⟩, ?_, by simp, ?_, ?_, ?_, ?_⟩
                · rw [hs1, hs2, hs3, hs4]; simp
                · rw [← h]
                  simp [MState.group, List.find?]
                · rw [← h]
                  simp only [MState.group, List.find?, beq_self_eq_true, List.length_append,
                    List.length_cons, List.length_nil, Prod.mk.injEq]
                  omega
                · rw [← h]
                  simp only [List.length_append, List.length_cons, List.length_nil]
                  omega
                · rw [← h]
              · simp [attrValueK, Regex.run, hq2] at h
          · simp [attrQuoteK, Regex.run, hq] at h
      · simp [attrEqK, Regex.run, he] at h

theorem slice_mid (a b c : Str) : slice (a ++ b ++ c) a.length (a.length + b.length) = b := by
  have h : (a ++ b ++ c).take (a.length + b.length) = a ++ b :=
    List.take_left' (by rw [List.length_append])
  rw [slice, h, List.drop_left]

theorem slice_mid' {s a b c : Str} {i j : Nat} (hs : s = a ++ b ++ c) (hi : i = a.length)
    (hj : j = a.length + b.length) : slice s i j = b := by
  rw [hs, hi, hj, slice_mid]

/-- Every match that `findAll` finds for the attribute pattern gives a name as
key and a value without `"`. -/
theorem findAll_attr_all :
    ∀ (t : Str) (skip pos : Nat) (P : Str), P.length = pos →
      ∀ m ∈ attrRx.findAll skip pos t,
        IsName (slice (P ++ t) (m.group 1).1 (m.group 1).2) ∧
        QUOTE ∉ slice (P ++ t) (m.group 2).1 (m.group 2).2 := by
  intro t
  induction t with
  | nil => intro skip pos P _ m hm; simp [Regex.findAll] at hm
  | cons c u ih =>
    intro skip pos P hP m hm
    have hPc : P ++ c :: u = (P ++ [c]) ++ u := by simp
    have hPl : (P ++ [c]).length = pos + 1 := by simp [hP]
    cases skip with
    | succ k =>
      simp only [Regex.findAll] at hm
      rw [hPc]
      exact ih k (pos + 1) (P ++ [c]) hPl m hm
    | zero =>
      simp only [Regex.findAll] at hm
      cases hr : attrRx.run ⟨pos, c :: u, []⟩ some with
      | none =>
        rw [hr] at hm
        rw [hPc]
        exact ih 0 (pos + 1) (P ++ [c]) hPl m hm
      | some m0 =>
        rw [hr] at hm
        simp only [List.mem_cons] at hm
        rcases hm with rfl | hm
        · obtain ⟨k, pre, v, post, hk, hv, ⟨w, hw⟩, hs, _, hg1, hg2, _, _⟩ := attrRx_match hr
          rw [hg1, hg2]
          have s1 : slice (P ++ c :: u) pos (pos + k.length) = k :=
            slice_mid' (a := P) (b := k) (c := w) (by rw [← hw]; simp) hP.symm (by rw [hP])
          have s2 : slice (P ++ c :: u) (pos + pre.length) (pos + pre.length + v.length) = v :=
            slice_mid' (a := P ++ pre) (b := v) (c := QUOTE :: post) (by rw [hs]; simp)
              (by simp [hP]) (by simp [hP])
          rw [s1, s2]
          exact ⟨hk, hv⟩
        · rw [hPc]
          exact ih _ (pos + 1) (P ++ [c]) hPl m hm

theorem findAll_attr_no_quote :
    ∀ (t : Str) (skip pos : Nat), QUOTE ∉ t → attrRx.findAll skip pos t = [] := by
  intro t
  induction t with
  | nil => intro skip pos _; simp [Regex.findAll]
  | cons c u ih =>
    intro skip pos hq
    have hu : QUOTE ∉ u := fun h => hq (by simp [h])
    cases skip with
    | succ k =>
      simp only [Regex.findAll]
      exact ih k (pos + 1) hu
    | zero =>
      simp only [Regex.findAll]
      cases hr : attrRx.run ⟨pos, c :: u, []⟩ some with
      | none => exact ih 0 (pos + 1) hu
      | some m0 =>
        obtain ⟨k, pre, v, post, _, _, _, hs, _⟩ := attrRx_match hr
        exfalso
        apply hq
        rw [hs]
        simp

theorem parseAttributes_eq_fold (s : Str) :
    parseAttributes s = (attrMatches s).foldl (fun res p => AttrMap.set res p.1 p.2) [] := by
  simp only [parseAttributes, attrMatches, List.foldl_map]

theorem AttrMap.mem_set {m : AttrMap} {k v : Str} {e : Str × Str} (h : e ∈ m.set k v) :
    e ∈ m ∨ e = (k, v) := by
  simp only [AttrMap.set, List.mem_append, List.mem_filter, List.mem_singleton] at h
  rcases h with h | h
  · exact Or.inl h.1
  · exact Or.inr h

theorem AttrMap.mem_fold {e : Str × Str} :
    ∀ (pairs : List (Str × Str)) (init : AttrMap),
      e ∈ pairs.foldl (fun res p => AttrMap.set res p.1 p.2) init → e ∈ init ∨ e ∈ pairs := by
  intro pairs
  induction pairs with
  | nil => intro init h; exact Or.inl h
  | cons p ps ih =>
    intro init h
    simp only [List.foldl_cons] at h
    rcases ih _ h with h1 | h1
    · rcases AttrMap.mem_set h1 with h2 | h2
      · exact Or.inl h2
      · exact Or.inr (by rw [h2]; simp)
    · exact Or.inr (by simp [h1])

/-- C17: `parseAttributes` returns a map for every raw attribute text (it has
no error result); for a text without `"` the map is empty; and in every map
it returns every key is a non-empty string over `[a-zA-Z0-9_-]` and every
value is a string without `"`. -/
theorem parseAttributes_entries :
    (∀ s : Str, QUOTE ∉ s → parseAttributes s = []) ∧
    (∀ (s k v : Str), (k, v) ∈ parseAttributes s → IsName k ∧ QUOTE ∉ v) ∧
    (∀ (s k v : Str), (parseAttributes s).get k = some v → IsName k ∧ QUOTE ∉ v) := by
  have h2 : ∀ (s k v : Str), (k, v) ∈ parseAttributes s → IsName k ∧ QUOTE ∉ v := by
    intro s k v h
    rw [parseAttributes_eq_fold] at h
    rcases AttrMap.mem_fold _ _ h with h | h
    · simp at h
    · simp only [attrMatches, List.mem_map, Prod.mk.injEq] at h
      obtain ⟨m, hm, hk, hv⟩ := h
      have := findAll_attr_all s 0 0 [] rfl m hm
      rw [List.nil_append, hk, hv] at this
      exact this
  refine ⟨?_, h2, ?_⟩
  · intro s hq
    simp [parseAttributes, findAll_attr_no_quote s 0 0 hq]
  · intro s k v h
    simp only [AttrMap.get] at h
    split at h
    · rename_i e he
      simp only [Option.some.injEq] at h
      have hmem := List.mem_of_find?_eq_some he
      have hk := List.find?_some he
      simp only [beq_iff_eq] at hk
      have : (k, v) ∈ parseAttributes s := by
        rw [← hk, ← h]; exact hmem
      exact h2 s k v this
    · simp at h

/-- C17 on single-quoted, unquoted and boolean attributes, and on a text with
two double-quoted values. -/
theorem parseAttributes_entries_examples :
    parseAttributes (bytes " a='1' b=2 checked") = [] ∧
    parseAttributes (bytes " a = \"1\" b=\"x y\" c='3'")
      = [(bytes "a", bytes "1"), (bytes "b", bytes "x y")] :=
  ⟨by rfl, by rfl⟩

theorem findAll_skip_append (r : Regex) :
    ∀ (a b : Str) (pos : Nat), b ≠ [] →
      r.findAll a.length pos (a ++ b) = r.findAll 0 (pos + a.length) b := by
  intro a
  induction a with
  | nil => intro b pos _; rfl
  | cons c u ih =>
    intro b pos hb
    show r.findAll (u.length + 1) pos (c :: (u ++ b)) = _
    rw [Regex.findAll, ih b (pos + 1) hb]
    have : pos + 1 + u.length = pos + (c :: u).length := by simp; omega
    rw [this]

theorem find?_filter_other (k k' : Str) (h : ¬ k' = k) (m : AttrMap) :
    List.find? (fun e => e.1 == k') (List.filter (fun e => e.1 != k) m)
      = List.find? (fun e => e.1 == k') m := by
  induction m with
  | nil => rfl
  | cons e es ih =>
    by_cases he : e.1 = k
    · have hb : ¬ ((fun e : Str × Str => e.1 != k) e = true) := by simp [he]
      have hk' : ¬ ((fun e : Str × Str => e.1 == k') e = true) := by
        simp only [beq_iff_eq]
        exact fun h' => h (h'.symm.trans he)
      rw [List.filter_cons_of_neg (p := fun e : Str × Str => e.1 != k) hb, ih,
        List.find?_cons_of_neg (p := fun e : Str × Str => e.1 == k') _ hk']
    · have hb : (fun e : Str × Str => e.1 != k) e = true := by simp [he]
      rw [List.filter_cons_of_pos (p := fun e : Str × Str => e.1 != k) hb]
      by_cases he' : (fun e : Str × Str => e.1 == k') e = true
      · rw [List.find?_cons_of_pos (p := fun e : Str × Str => e.1 == k') _ he',
          List.find?_cons_of_pos (p := fun e : Str × Str => e.1 == k') _ he']
      · rw [List.find?_cons_of_neg (p := fun e : Str × Str => e.1 == k') _ he',
          List.find?_cons_of_neg (p := fun e : Str × Str => e.1 == k') _ he', ih]

theorem AttrMap.get_set (m : AttrMap) (k v k' : Str) :
    (m.set k v).get k' = if k' = k then some v else m.get k' := by
  simp only [AttrMap.get, AttrMap.set, List.find?_append]
  by_cases h : k' = k
  · subst h
    have : List.find? (fun e => e.1 == k') (List.filter (fun e => e.1 != k') m) = none := by
      rw [List.find?_eq_none]
      intro e he
      simp only [List.mem_filter, bne_iff_ne, ne_eq] at he
      simpa using he.2
    simp [this]
  · rw [find?_filter_other k k' h, if_neg h]
    cases List.find? (fun e => e.1 == k') m with
    | some e => rfl
    | none =>
      have hk : ¬ ((fun e : Str × Str => e.1 == k') (k, v) = true) := by
        simp only [beq_iff_eq]
        exact fun h' => h h'.symm
      simp only [Option.none_or]
      rw [List.find?_cons_of_neg (p := fun e : Str × Str => e.1 == k') _ hk]
      rfl

theorem AttrMap.get_fold (k : Str) :
    ∀ (pairs : List (Str × Str)) (init : AttrMap),
      (pairs.foldl (fun res p => AttrMap.set res p.1 p.2) init).get k =
        match pairs.reverse.find? (fun e => e.1 == k) with
        | some e => some e.2
        | none => init.get k := by
  intro pairs
  induction pairs with
  | nil => intro init; rfl
  | cons p ps ih =>
    intro init
    simp only [List.foldl_cons, List.reverse_cons, List.find?_append]
    rw [ih]
    cases List.find? (fun e => e.1 == k) ps.reverse with
    | some e => rfl
    | none =>
      simp only [Option.none_or, AttrMap.get_set]
      by_cases h : k = p.1
      · simp [List.find?, h]
      · have hb : (p.1 == k) = false := by
          simp only [beq_eq_false_iff_ne, ne_eq]
          exact fun h' => h h'.symm
        simp [List.find?, h, hb]

theorem two_attrs_eq (k v1 v2 : Str) :
    bytes " " ++ k ++ bytes "=\"" ++ v1 ++ bytes "\" " ++ k ++ bytes "=\"" ++ v2 ++ bytes "\""
      = 32 :: (k ++ EQUALS :: QUOTE :: (v1 ++ QUOTE :: (32 ::
          (k ++ EQUALS :: QUOTE :: (v2 ++ QUOTE :: []))))) := by
  have e1 : bytes " " = [32] := by rfl
  have e2 : bytes "=\"" = [EQUALS, QUOTE] := by rfl
  have e3 : bytes "\" " = [QUOTE, 32] := by rfl
  have e4 : bytes "\"" = [QUOTE] := by rfl
  simp [e1, e2, e3, e4]

theorem attrMatches_two {k v1 v2 : Str} (hk : IsName k) (h1 : QUOTE ∉ v1) (h2 : QUOTE ∉ v2) :
    attrMatches (32 :: (k ++ EQUALS :: QUOTE :: (v1 ++ QUOTE :: (32 ::
        (k ++ EQUALS :: QUOTE :: (v2 ++ QUOTE :: []))))))
      = [(k, v1), (k, v2)] := by
  obtain ⟨k0, k', hkk⟩ := List.exists_cons_of_ne_nil hk.1
  have hm1 := attrRx_pair hk h1 1 (32 :: (k ++ EQUALS :: QUOTE :: (v2 ++ QUOTE :: [])))
  have hm2 := attrRx_pair hk h2 (1 + k.length + 2 + v1.length + 1 + 1) []
  have hall : attrRx.findAll 0 0 (32 :: (k ++ EQUALS :: QUOTE :: (v1 ++ QUOTE :: (32 ::
        (k ++ EQUALS :: QUOTE :: (v2 ++ QUOTE :: []))))))
      = [⟨1 + k.length + 2 + v1.length + 1, 32 :: (k ++ EQUALS :: QUOTE :: (v2 ++ QUOTE :: [])),
          [(2, 1 + k.length + 2, 1 + k.length + 2 + v1.length), (1, 1, 1 + k.length)]⟩,
         ⟨1 + k.length + 2 + v1.length + 1 + 1 + k.length + 2 + v2.length + 1, [],
          [(2, 1 + k.length + 2 + v1.length + 1 + 1 + k.length + 2,
              1 + k.length + 2 + v1.length + 1 + 1 + k.length + 2 + v2.length),
            (1, 1 + k.length + 2 + v1.length + 1 + 1,
              1 + k.length + 2 + v1.length + 1 + 1 + k.length)]⟩] := by
    rw [Regex.findAll, attrRx_no_name 0 32 _ (by decide)]
    simp only [Nat.zero_add]
    have ht : k ++ EQUALS :: QUOTE :: (v1 ++ QUOTE :: (32 ::
          (k ++ EQUALS :: QUOTE :: (v2 ++ QUOTE :: []))))
        = k0 :: ((k' ++ EQUALS :: QUOTE :: (v1 ++ [QUOTE])) ++ (32 ::
          (k ++ EQUALS :: QUOTE :: (v2 ++ QUOTE :: [])))) := by
      rw [hkk]; simp
    have hlen : 1 + k.length + 2 + v1.length + 1 - 1 - 1
        = (k' ++ EQUALS :: QUOTE :: (v1 ++ [QUOTE])).length := by
      rw [hkk]; simp; omega
    conv_lhs => rw [ht, Regex.findAll, ← ht, hm1]
    simp only
    rw [hlen, findAll_skip_append _ _ _ _ (by simp), Regex.findAll,
      attrRx_no_name _ 32 _ (by decide)]
    simp only
    have hp : 1 + 1 + (k' ++ EQUALS :: QUOTE :: (v1 ++ [QUOTE])).length + 1
        = 1 + k.length + 2 + v1.length + 1 + 1 := by
      rw [hkk]; simp; omega
    rw [hp]
    have ht2 : k ++ EQUALS :: QUOTE :: (v2 ++ [QUOTE])
        = k0 :: (k' ++ EQUALS :: QUOTE :: (v2 ++ [QUOTE])) := by
      rw [hkk]; simp
    conv_lhs => rw [ht2, Regex.findAll, ← ht2, hm2]
    simp only
    rw [findAll_skip]
    rw [hkk]
    simp only [List.length_append, List.length_cons, List.length_nil]
    omega
  simp only [attrMatches, hall, List.map_cons, List.map_nil, MState.group, List.find?]
  have e1 : ((2 : Nat) == 1) = false := by decide
  have e2 : ((2 : Nat) == 2) = true := by decide
  have e3 : ((1 : Nat) == 1) = true := by decide
  simp only [e1, e2, e3]
  have s1 := slice_mid' (s := 32 :: (k ++ EQUALS :: QUOTE :: (v1 ++ QUOTE :: (32 ::
        (k ++ EQUALS :: QUOTE :: (v2 ++ QUOTE :: []))))))
      (a := [32]) (b := k) (c := EQUALS :: QUOTE :: (v1 ++ QUOTE :: (32 ::
        (k ++ EQUALS :: QUOTE :: (v2 ++ QUOTE :: [])))))
      (i := 1) (j := 1 + k.length) (by simp) (by simp) (by simp)
  have s2 := slice_mid' (s := 32 :: (k ++ EQUALS :: QUOTE :: (v1 ++ QUOTE :: (32 ::
        (k ++ EQUALS :: QUOTE :: (v2 ++ QUOTE :: []))))))
      (a := 32 :: (k ++ [EQUALS, QUOTE])) (b := v1) (c := QUOTE :: (32 ::
        (k ++ EQUALS :: QUOTE :: (v2 ++ QUOTE :: []))))
      (i := 1 + k.length + 2) (j := 1 + k.length + 2 + v1.length)
      (by simp) (by simp; omega) (by simp; omega)
  have s3 := slice_mid' (s := 32 :: (k ++ EQUALS :: QUOTE :: (v1 ++ QUOTE :: (32 ::
        (k ++ EQUALS :: QUOTE :: (v2 ++ QUOTE :: []))))))
      (a := 32 :: (k ++ EQUALS :: QUOTE :: (v1 ++ [QUOTE, 32]))) (b := k)
      (c := EQUALS :: QUOTE :: (v2 ++ QUOTE :: []))
      (i := 1 + k.length + 2 + v1.length + 1 + 1)
      (j := 1 + k.length + 2 + v1.length + 1 + 1 + k.length)
      (by simp) (by simp; omega) (by simp; omega)
  have s4 := slice_mid' (s := 32 :: (k ++ EQUALS :: QUOTE :: (v1 ++ QUOTE :: (32 ::
        (k ++ EQUALS :: QUOTE :: (v2 ++ QUOTE :: []))))))
      (a := 32 :: (k ++ EQUALS :: QUOTE :: (v1 ++ QUOTE :: 32 :: (k ++ [EQUALS, QUOTE]))))
      (b := v2) (c := [QUOTE])
      (i := 1 + k.length + 2 + v1.length + 1 + 1 + k.length + 2)
      (j := 1 + k.length + 2 + v1.length + 1 + 1 + k.length + 2 + v2.length)
      (by simp) (by simp; omega) (by simp; omega)
  rw [s1, s2, s3, s4]

/-- C11: duplicate attribute names keep the last value.  For a name `k` and
values `v1`, `v2` without `"`, `parseAttributes` of ` k="v1" k="v2"` is the map
with the one entry `k: v2`; and for every raw attribute text the value stored
under a key is the value of the last match of the pattern with that name
(no value when no match has that name). -/
theorem parseAttributes_last_wins :
    (∀ k v1 v2 : Str, IsName k → QUOTE ∉ v1 → QUOTE ∉ v2 →
      parseAttributes (bytes " " ++ k ++ bytes "=\"" ++ v1 ++ bytes "\" " ++ k ++ bytes "=\""
        ++ v2 ++ bytes "\"") = [(k, v2)]) ∧
    (∀ s k : Str, (parseAttributes s).get k =
      match (attrMatches s).reverse.find? (fun e => e.1 == k) with
      | some e => some e.2
      | none => none) ∧
    parseAttributes (bytes " a=\"1\" b=\"2\" a=\"3\"") = [(bytes "b", bytes "2"), (bytes "a", bytes "3")]
    := by
  refine ⟨?_, ?_, by rfl⟩
  · intro k v1 v2 hk h1 h2
    rw [two_attrs_eq, parseAttributes_eq_fold, attrMatches_two hk h1 h2]
    simp [AttrMap.set]
  · intro s k
    rw [parseAttributes_eq_fold, AttrMap.get_fold]
    cases List.find? (fun e => e.1 == k) (attrMatches s).reverse with
    | some e => rfl
    | none => rfl

/-! ## `TrimSpace` twice, and trimming in either order -/

section strip
variable (p1 : Nat → Bool) (p2 : Nat → Nat → Bool) (p3 : Nat → Nat → Nat → Bool)

theorem strip_length_le (s : Str) : (stripRunes p1 p2 p3 s).length ≤ s.length := by
  obtain ⟨w, hw, _⟩ := strip_split p1 p2 p3 s
  have := congrArg List.length hw
  rw [List.length_append] at this
  omega

/-- A string that `stripRunes` leaves as it is starts with no sequence to
remove. -/
theorem strip_fixed_one {a : Nat} {t : Str} (h : stripRunes p1 p2 p3 (a :: t) = a :: t) :
    p1 a = false := by
  cases h1 : p1 a with
  | false => rfl
  | true =>
    have hl := strip_length_le p1 p2 p3 t
    rw [strip_one p1 p2 p3 h1] at h
    rw [h] at hl
    simp at hl

theorem strip_fixed_two {a b : Nat} {t : Str}
    (h : stripRunes p1 p2 p3 (a :: b :: t) = a :: b :: t) : p2 a b = false := by
  have h1 := strip_fixed_one p1 p2 p3 h
  cases h2 : p2 a b with
  | false => rfl
  | true =>
    have hl := strip_length_le p1 p2 p3 t
    rw [strip_two p1 p2 p3 h1 h2] at h
    rw [h] at hl
    simp at hl
    omega

theorem strip_fixed_three {a b c : Nat} {t : Str}
    (h : stripRunes p1 p2 p3 (a :: b :: c :: t) = a :: b :: c :: t) : p3 a b c = false := by
  have h1 := strip_fixed_one p1 p2 p3 h
  have h2 := strip_fixed_two p1 p2 p3 h
  cases h3 : p3 a b c with
  | false => rfl
  | true =>
    have hl := strip_length_le p1 p2 p3 t
    rw [strip_three p1 p2 p3 h1 h2 h3] at h
    rw [h] at hl
    simp at hl
    omega

/-- An initial part of a string that `stripRunes` leaves as it is is left as
it is too. -/
theorem strip_fixed_initial {v u : Str} (h : stripRunes p1 p2 p3 v = v) (hu : u <+: v) :
    stripRunes p1 p2 p3 u = u := by
  obtain ⟨w, hw⟩ := hu
  match u, hw with
  | [], _ => simp [stripRunes]
  | [a], hw =>
    rw [← hw] at h
    simp [stripRunes, strip_fixed_one p1 p2 p3 h]
  | [a, b], hw =>
    rw [← hw] at h
    simp [stripRunes, strip_fixed_one p1 p2 p3 h, strip_fixed_two p1 p2 p3 h]
  | a :: b :: c :: t, hw =>
    rw [← hw] at h
    simp [stripRunes, strip_fixed_one p1 p2 p3 h, strip_fixed_two p1 p2 p3 h,
      strip_fixed_three p1 p2 p3 h]

/-- A complete sequence at the end of a string, which no sequence that starts
before it reaches into, is removed exactly when all that stands before it is
removed. -/
theorem strip_append_sealed {h : Nat} {tail : Str}
    (hC : stripRunes p1 p2 p3 (h :: tail) = [])
    (hU1 : ∀ x, p2 x h = false) (hU2 : ∀ x y, p3 x y h = false)
    (hU3 : ∀ x h2 tl, tail = h2 :: tl → p3 x h h2 = false) (t : Str) :
    stripRunes p1 p2 p3 (t ++ h :: tail) =
      if stripRunes p1 p2 p3 t = [] then [] else stripRunes p1 p2 p3 t ++ h :: tail := by
  induction t using stripRunes.induct p1 p2 p3 with
  | case1 => simp [stripRunes, hC]
  | case2 a ha =>
    rw [List.singleton_append, strip_one p1 p2 p3 ha, hC]
    simp [stripRunes, ha]
  | case3 a ha =>
    have ha' : p1 a = false := by simpa using ha
    have hs : stripRunes p1 p2 p3 [a] = [a] := by simp [stripRunes, ha']
    rw [hs]
    simp only [List.cons_ne_nil, if_false]
    match tail, hU3 with
    | [], _ => simp [stripRunes, ha', hU1 a]
    | h2 :: tl, hU3 => simp [stripRunes, ha', hU1 a, hU3 a h2 tl rfl]
  | case4 a b ha ih =>
    have e : [a, b] ++ h :: tail = a :: ([b] ++ h :: tail) := rfl
    rw [e, strip_one p1 p2 p3 ha, ih, strip_one p1 p2 p3 ha]
  | case5 a b ha hb =>
    have ha' : p1 a = false := by simpa using ha
    have e : [a, b] ++ h :: tail = a :: b :: (h :: tail) := rfl
    rw [e, strip_two p1 p2 p3 ha' hb, hC]
    simp [stripRunes, ha', hb]
  | case6 a b ha hb =>
    have ha' : p1 a = false := by simpa using ha
    have hb' : p2 a b = false := by simpa using hb
    have hs : stripRunes p1 p2 p3 [a, b] = [a, b] := by simp [stripRunes, ha', hb']
    rw [hs]
    simp [stripRunes, ha', hb', hU2 a b]
  | case7 a b d u ha ih =>
    have e : a :: b :: d :: u ++ h :: tail = a :: (b :: d :: u ++ h :: tail) := rfl
    rw [e, strip_one p1 p2 p3 ha, ih, strip_one p1 p2 p3 ha]
  | case8 a b d u ha hb ih =>
    have ha' : p1 a = false := by simpa using ha
    have e : a :: b :: d :: u ++ h :: tail = a :: b :: (d :: u ++ h :: tail) := rfl
    rw [e, strip_two p1 p2 p3 ha' hb, ih, strip_two p1 p2 p3 ha' hb]
  | case9 a b d u ha hb hd ih =>
    have ha' : p1 a = false := by simpa using ha
    have hb' : p2 a b = false := by simpa using hb
    have e : a :: b :: d :: u ++ h :: tail = a :: b :: d :: (u ++ h :: tail) := rfl
    rw [e, strip_three p1 p2 p3 ha' hb' hd, ih, strip_three p1 p2 p3 ha' hb' hd]
  | case10 a b d u ha hb hd =>
    have ha' : p1 a = false := by simpa using ha
    have hb' : p2 a b = false := by simpa using hb
    have hd' : p3 a b d = false := by simpa using hd
    simp [stripRunes, ha', hb', hd']

end strip

theorem trimRight_is_initial (s : Str) : trimRight s <+: s := by
  obtain ⟨w, hw, _⟩ := trimRight_split s
  exact ⟨w, hw.symm⟩

theorem trimLeft_fixed_initial {v u : Str} (h : trimLeft v = v) (hu : u <+: v) :
    trimLeft u = u :=
  strip_fixed_initial _ _ _ h hu

/-- `TrimSpace` is idempotent. -/
theorem TrimSpace_idem (s : Str) : TrimSpace (TrimSpace s) = TrimSpace s := by
  have h1 : trimLeft (TrimSpace s) = TrimSpace s :=
    trimLeft_fixed_initial (trimLeft_idem s) (trimRight_is_initial (trimLeft s))
  conv_lhs => rw [TrimSpace, h1]
  rw [TrimSpace, trimRight_idem]

theorem trimRight_eq_nil_iff (s : Str) :
    trimRight s = [] ↔
      stripRunes isAsciiSpace (fun b a => isSpace2 a b) (fun c b a => isSpace3 a b c) s.reverse
        = [] := by
  simp [trimRight]

/-- A white-space rune before a string is removed by `trimRight` exactly when
the whole string is. -/
theorem trimRight_rune_append {e : Str} {h : Nat} {r : Str} (he : e.reverse = h :: r)
    (hC : stripRunes isAsciiSpace (fun b a => isSpace2 a b) (fun c b a => isSpace3 a b c)
      (h :: r) = [])
    (hU1 : ∀ x, isSpace2 h x = false) (hU2 : ∀ x y, isSpace3 h y x = false)
    (hU3 : ∀ x h2 tl, r = h2 :: tl → isSpace3 h2 h x = false) (s : Str) :
    trimRight (e ++ s) = if trimRight s = [] then [] else e ++ trimRight s := by
  have hs := strip_append_sealed isAsciiSpace (fun b a => isSpace2 a b)
    (fun c b a => isSpace3 a b c) hC hU1 hU2 hU3 s.reverse
  rw [trimRight, List.reverse_append, he, hs]
  by_cases hn : stripRunes isAsciiSpace (fun b a => isSpace2 a b) (fun c b a => isSpace3 a b c)
      s.reverse = []
  · rw [if_pos hn, if_pos ((trimRight_eq_nil_iff s).mpr hn)]
    rfl
  · rw [if_neg hn, if_neg (fun h' => hn ((trimRight_eq_nil_iff s).mp h'))]
    rw [List.reverse_append, ← he, List.reverse_reverse]
    rfl

theorem trimRight_space1 {a : Nat} (ha : isAsciiSpace a = true) (s : Str) :
    trimRight (a :: s) = if trimRight s = [] then [] else a :: trimRight s := by
  have h := trimRight_rune_append (e := [a]) (h := a) (r := []) rfl
    (by simp [stripRunes, ha])
    (by
      intro x
      simp only [isAsciiSpace, Bool.or_eq_true, beq_iff_eq] at ha
      simp only [isSpace2, Bool.and_eq_false_iff, beq_eq_false_iff_ne]
      left; omega)
    (by
      intro x y
      simp only [isAsciiSpace, Bool.or_eq_true, beq_iff_eq] at ha
      simp only [isSpace3, Bool.or_eq_false_iff, Bool.and_eq_false_iff, beq_eq_false_iff_ne]
      omega)
    (by intro x h2 tl h'; cases h') s
  simpa using h

theorem trimRight_space2 {a b : Nat} (hab : isSpace2 a b = true) (s : Str) :
    trimRight (a :: b :: s) = if trimRight s = [] then [] else a :: b :: trimRight s := by
  have hab' := hab
  simp only [isSpace2, Bool.and_eq_true, Bool.or_eq_true, beq_iff_eq] at hab'
  have hb : isAsciiSpace b = false := by
    simp only [isAsciiSpace, Bool.or_eq_false_iff, beq_eq_false_iff_ne]
    omega
  have h := trimRight_rune_append (e := [a, b]) (h := b) (r := [a]) rfl
    (by simp [stripRunes, hb, hab])
    (by
      intro x
      simp only [isSpace2, Bool.and_eq_false_iff, beq_eq_false_iff_ne]
      left; omega)
    (by
      intro x y
      simp only [isSpace3, Bool.or_eq_false_iff, Bool.and_eq_false_iff, beq_eq_false_iff_ne]
      omega)
    (by
      intro x h2 tl h'
      simp only [List.cons.injEq] at h'
      rw [← h'.1]
      simp only [isSpace3, Bool.or_eq_false_iff, Bool.and_eq_false_iff, beq_eq_false_iff_ne]
      omega) s
  simpa using h

theorem trimRight_space3 {a b c : Nat} (habc : isSpace3 a b c = true) (s : Str) :
    trimRight (a :: b :: c :: s) =
      if trimRight s = [] then [] else a :: b :: c :: trimRight s := by
  have h3 := habc
  simp only [isSpace3, Bool.or_eq_true, Bool.and_eq_true, beq_iff_eq, decide_eq_true_eq] at h3
  have hc : isAsciiSpace c = false := by
    simp only [isAsciiSpace, Bool.or_eq_false_iff, beq_eq_false_iff_ne]
    omega
  have hbc : isSpace2 b c = false := by
    simp only [isSpace2, Bool.and_eq_false_iff, beq_eq_false_iff_ne]
    left; omega
  have h := trimRight_rune_append (e := [a, b, c]) (h := c) (r := [b, a]) rfl
    (by simp [stripRunes, hc, hbc, habc])
    (by
      intro x
      simp only [isSpace2, Bool.and_eq_false_iff, beq_eq_false_iff_ne]
      left; omega)
    (by
      intro x y
      simp only [isSpace3, Bool.or_eq_false_iff, Bool.and_eq_false_iff, beq_eq_false_iff_ne]
      omega)
    (by
      intro x h2 tl h'
      simp only [List.cons.injEq] at h'
      rw [← h'.1]
      simp only [isSpace3, Bool.or_eq_false_iff, Bool.and_eq_false_iff, beq_eq_false_iff_ne]
      omega) s
  simpa using h

theorem trim_comm_step {e s : Str} (hL : ∀ r : Str, trimLeft (e ++ r) = trimLeft r)
    (hR : trimRight (e ++ s) = if trimRight s = [] then [] else e ++ trimRight s)
    (ih : trimLeft (trimRight s) = trimRight (trimLeft s)) :
    trimLeft (trimRight (e ++ s)) = trimRight (trimLeft (e ++ s)) := by
  rw [hR, hL s, ← ih]
  by_cases hn : trimRight s = []
  · rw [if_pos hn, hn]
  · rw [if_neg hn, hL]

theorem trim_comm_fixed {s : Str} (h : trimLeft s = s) :
    trimLeft (trimRight s) = trimRight (trimLeft s) := by
  rw [h]
  exact trimLeft_fixed_initial h (trimRight_is_initial s)

/-- Leading and trailing white space can be removed in either order. -/
theorem trimLeft_trimRight_comm (s : Str) :
    trimLeft (trimRight s) = trimRight (trimLeft s) := by
  induction s using stripRunes.induct isAsciiSpace isSpace2 isSpace3 with
  | case1 => simp [trimLeft_nil, trimRight_nil]
  | case2 a ha =>
    exact trim_comm_step (e := [a]) (fun r => strip_one _ _ _ ha r)
      (trimRight_space1 ha []) (by simp [trimLeft_nil, trimRight_nil])
  | case3 a ha =>
    exact trim_comm_fixed (by simp [trimLeft, stripRunes, ha])
  | case4 a b ha ih =>
    exact trim_comm_step (e := [a]) (fun r => strip_one _ _ _ ha r) (trimRight_space1 ha [b]) ih
  | case5 a b ha hb =>
    have ha' : isAsciiSpace a = false := by simpa using ha
    exact trim_comm_step (e := [a, b]) (fun r => strip_two _ _ _ ha' hb r)
      (trimRight_space2 hb []) (by simp [trimLeft_nil, trimRight_nil])
  | case6 a b ha hb =>
    exact trim_comm_fixed (by simp [trimLeft, stripRunes, ha, hb])
  | case7 a b d u ha ih =>
    exact trim_comm_step (e := [a]) (fun r => strip_one _ _ _ ha r)
      (trimRight_space1 ha (b :: d :: u)) ih
  | case8 a b d u ha hb ih =>
    have ha' : isAsciiSpace a = false := by simpa using ha
    exact trim_comm_step (e := [a, b]) (fun r => strip_two _ _ _ ha' hb r)
      (trimRight_space2 hb (d :: u)) ih
  | case9 a b d u ha hb hd ih =>
    have ha' : isAsciiSpace a = false := by simpa using ha
    have hb' : isSpace2 a b = false := by simpa using hb
    exact trim_comm_step (e := [a, b, d]) (fun r => strip_three _ _ _ ha' hb' hd r)
      (trimRight_space3 hd u) ih
  | case10 a b d u ha hb hd =>
    exact trim_comm_fixed (by simp [trimLeft, stripRunes, ha, hb, hd])

/-- Trailing white space removed beforehand does not change `TrimSpace`. -/
theorem TrimSpace_trimRight (s : Str) : TrimSpace (trimRight s) = TrimSpace s := by
  rw [TrimSpace, trimLeft_trimRight_comm, trimRight_idem, TrimSpace]

/-! ## Properties of every node of the result -/

/-- The nodes `parseChildren` returns are nodes `pn` has returned. -/
theorem parseChildrenLoop_all (pn : Str → Option NodeResult) (Q : Node → Prop)
    (hpn : ∀ y node c, pn y = some (.ok node c) → Q node) (n : Nat) :
    ∀ (b : Str) (res : List Node) (t : Str) (ch : List Node) (tx : Str),
      (∀ x ∈ res, Q x) → parseChildrenLoop pn n b res t = some (ch, tx) → ∀ x ∈ ch, Q x := by
  induction n with
  | zero => intro b res t ch tx _ h; simp [parseChildrenLoop] at h
  | succ m ih =>
    intro b res t ch tx hres h
    simp only [parseChildrenLoop] at h
    split at h
    · simp only [Option.some.injEq, Prod.mk.injEq] at h
      rw [← h.1]; exact hres
    · split at h
      · split at h
        · simp only [Option.some.injEq, Prod.mk.injEq] at h
          rw [← h.1]; exact hres
        · exact ih _ _ _ _ _ hres h
      · split at h
        · simp at h
        · simp only [Option.some.injEq, Prod.mk.injEq] at h
          rw [← h.1]; exact hres
        · rename_i node c hc
          refine ih _ _ _ _ _ ?_ h
          intro x hx
          rcases List.mem_append.mp hx with hx | hx
          · exact hres x hx
          · simp only [List.mem_singleton] at hx
            rw [hx]; exact hpn _ _ _ hc

/-- The text `parseChildren` returns is `TrimSpace` of a string without `<`. -/
theorem parseChildrenLoop_text (pn : Str → Option NodeResult) (n : Nat) :
    ∀ (b : Str) (res : List Node) (t : Str) (ch : List Node) (tx : Str),
      LT ∉ t → parseChildrenLoop pn n b res t = some (ch, tx) →
      ∃ X, LT ∉ X ∧ tx = TrimSpace X := by
  induction n with
  | zero => intro b res t ch tx _ h; simp [parseChildrenLoop] at h
  | succ m ih =>
    intro b res t ch tx ht h
    simp only [parseChildrenLoop] at h
    split at h
    · simp only [Option.some.injEq, Prod.mk.injEq] at h
      exact ⟨t, ht, h.2.symm⟩
    · split at h
      · split at h
        · rename_i hi
          simp only [Option.some.injEq, Prod.mk.injEq] at h
          refine ⟨_, ?_, h.2.symm⟩
          have := Index_byte_none hi
          simp only [List.mem_append, not_or]
          exact ⟨ht, this⟩
        · rename_i i hi
          refine ih _ _ _ _ _ ?_ h
          have := (Index_byte_some hi).2.1
          simp only [List.mem_append, not_or]
          exact ⟨ht, this⟩
      · split at h
        · simp at h
        · simp only [Option.some.injEq, Prod.mk.injEq] at h
          exact ⟨t, ht, h.2.symm⟩
        · exact ih _ _ _ _ _ ht h

/-- One level of a successful `parseNode`, with the run of the loop of
`parseChildren` that gave the children and the text. -/
theorem parseNodeFuel_succ_ok_inv {f : Nat} {x : Str} {node : Node} {c : Nat}
    (h : parseNodeFuel (f + 1) x = some (.ok node c)) :
    ∃ name region rest endIdx children text,
      OpensWith x name region rest ∧ Index rest (endTagOf name) = some endIdx ∧
      parseChildrenLoop (parseNodeFuel f) ((rest.take endIdx).length + 1) (rest.take endIdx)
        [] [] = some (children, text) ∧
      node = .mk name (parseAttributes (attrText region)) children text := by
  cases hm : tagOpen.matchStart x with
  | none => rw [parseNodeFuel_no_tag hm] at h; simp at h
  | some loc =>
    obtain ⟨name, region, rest, ho⟩ := opensWith_of_tagOpen hm
    rw [parseNodeFuel_opens ho] at h
    cases hi : Index rest (endTagOf name) with
    | none => rw [hi] at h; simp at h
    | some endIdx =>
      rw [hi] at h
      simp only at h
      cases hl : parseChildrenLoop (parseNodeFuel f) ((rest.take endIdx).length + 1)
          (rest.take endIdx) [] [] with
      | none => rw [hl] at h; simp at h
      | some p =>
        obtain ⟨children, text⟩ := p
        rw [hl] at h
        simp only [Option.some.injEq, NodeResult.ok.injEq] at h
        exact ⟨name, region, rest, endIdx, children, text, ho, hi, hl, h.1.symm⟩

/-- A property that holds for every node `parseNode` builds, given its tag
and its text, holds at every depth of every node `parseNode` returns. -/
theorem parseNodeFuel_forall (P : Node → Prop)
    (hP : ∀ (name : Str) (attrs : AttrMap) (children : List Node) (X : Str),
      IsName name → LT ∉ X → P (.mk name attrs children (TrimSpace X))) (f : Nat) :
    ∀ (x : Str) (node : Node) (c : Nat),
      parseNodeFuel f x = some (.ok node c) → Node.Forall P node := by
  induction f with
  | zero => intro x node c h; simp [parseNodeFuel] at h
  | succ f ih =>
    intro x node c h
    obtain ⟨name, region, rest, endIdx, children, text, ho, _, hl, hnode⟩ :=
      parseNodeFuel_succ_ok_inv h
    obtain ⟨X, hX, htx⟩ := parseChildrenLoop_text _ _ _ _ _ _ _ (by simp) hl
    rw [hnode, htx]
    refine Node.Forall.mk _ _ _ _ (hP _ _ _ _ ⟨ho.1, ho.2.1⟩ hX) ?_
    exact parseChildrenLoop_all _ _ ih _ _ _ _ _ _ (by simp) hl

theorem parseMarkupLoop_all (Q : Node → Prop)
    (hpn : ∀ y node c, parseNode y = some (.ok node c) → Q node) (n : Nat) :
    ∀ (x : Str) (nodes A : List Node) (e : Option ParseError),
      (∀ y ∈ nodes, Q y) → parseMarkupLoop n x nodes = some (A, e) → ∀ y ∈ A, Q y := by
  induction n with
  | zero => intro x nodes A e _ h; simp [parseMarkupLoop] at h
  | succ m ih =>
    intro x nodes A e hn h
    simp only [parseMarkupLoop] at h
    split at h
    · split at h
      · simp only [Option.some.injEq, Prod.mk.injEq] at h
        rw [← h.1]; exact hn
      · split at h
        · split at h
          · simp only [Option.some.injEq, Prod.mk.injEq] at h
            rw [← h.1]; exact hn
          · exact ih _ _ _ _ hn h
        · split at h
          · simp at h
          · simp only [Option.some.injEq, Prod.mk.injEq] at h
            rw [← h.1]; simp
          · rename_i node c hc
            refine ih _ _ _ _ ?_ h
            intro y hy
            rcases List.mem_append.mp hy with hy | hy
            · exact hn y hy
            · simp only [List.mem_singleton] at hy
              rw [hy]; exact hpn _ _ _ hc
    · simp only [Option.some.injEq, Prod.mk.injEq] at h
      rw [← h.1]; exact hn

theorem ParseMarkup_forall (P : Node → Prop)
    (hP : ∀ (name : Str) (attrs : AttrMap) (children : List Node) (X : Str),
      IsName name → LT ∉ X → P (.mk name attrs children (TrimSpace X)))
    {input : Str} {forest : List Node} {e : Option ParseError}
    (h : ParseMarkup input = some (forest, e)) : ∀ node ∈ forest, Node.Forall P node :=
  parseMarkupLoop_all _ (fun y node c hy => parseNodeFuel_forall P hP _ y node c hy) _ _ _ _ _
    (by simp) h

/-- C13: every node of a forest `ParseMarkup` returns, at every depth, has a
non-empty tag over `[a-zA-Z0-9_-]`. -/
theorem ParseMarkup_tags (input : Str) (forest : List Node)
    (h : ParseMarkup input = some (forest, none)) :
    ∀ node ∈ forest, Node.Forall (fun n => IsName n.Tag) node :=
  ParseMarkup_forall _ (fun _ _ _ _ hn _ => hn) h

/-- C13 at `<a><b-1>x</b-1></a><c_2></c_2>`. -/
theorem ParseMarkup_tags_witness :
    ParseMarkup (bytes "<a><b-1>x</b-1></a><c_2></c_2>")
      = some ([.mk (bytes "a") [] [.mk (bytes "b-1") [] [] (bytes "x")] [],
          .mk (bytes "c_2") [] [] []], none) ∧
    ∀ node ∈ [Node.mk (bytes "a") [] [.mk (bytes "b-1") [] [] (bytes "x")] [],
        Node.mk (bytes "c_2") [] [] []], Node.Forall (fun n => IsName n.Tag) node :=
  ⟨by rfl, ParseMarkup_tags (bytes "<a><b-1>x</b-1></a><c_2></c_2>") _ (by rfl)⟩

/-- C18: every node of a forest `ParseMarkup` returns, at every depth, has a
text without leading and trailing white space (`TrimSpace` leaves it as it is)
and without `<`. -/
theorem ParseMarkup_texts (input : Str) (forest : List Node)
    (h : ParseMarkup input = some (forest, none)) :
    ∀ node ∈ forest, Node.Forall (fun n => TrimSpace n.Text = n.Text ∧ LT ∉ n.Text) node :=
  ParseMarkup_forall _
    (fun _ _ _ X _ hX => ⟨TrimSpace_idem X, fun hm => hX (mem_of_mem_TrimSpace hm)⟩) h

/-- C18 at `<a> x <b> y </b> z </a>`. -/
theorem ParseMarkup_texts_witness :
    ParseMarkup (bytes "<a> x <b> y </b> z </a>")
      = some ([.mk (bytes "a") [] [.mk (bytes "b") [] [] (bytes "y")] (bytes "x z")], none) ∧
    ∀ node ∈ [Node.mk (bytes "a") [] [.mk (bytes "b") [] [] (bytes "y")] (bytes "x z")],
      Node.Forall (fun n => TrimSpace n.Text = n.Text ∧ LT ∉ n.Text) node :=
  ⟨by rfl, ParseMarkup_texts (bytes "<a> x <b> y </b> z </a>") _ (by rfl)⟩

/-! ## Text segments -/

theorem Index_lt_skip {c : Nat} (hc : c ≠ LT) (t E : Str) :
    Index (c :: t) (LT :: E) = none ↔ Index t (LT :: E) = none := by
  have hp : List.isPrefixOf (LT :: E) (c :: t) = false := by
    simp [List.isPrefixOf, Ne.symm hc]
  rw [Index_cons, hp]
  cases Index t (LT :: E) <;> simp

theorem Index_lt_skip_all {p : Str} (hp : LT ∉ p) (s E : Str) :
    Index (p ++ s) (LT :: E) = none ↔ Index s (LT :: E) = none := by
  induction p with
  | nil => rfl
  | cons a u ih =>
    have ha : a ≠ LT := fun e => hp (by simp [e])
    have hu : LT ∉ u := fun e => hp (by simp [e])
    rw [List.cons_append, Index_lt_skip ha, ih hu]

theorem Index_lt_none_of_not_mem {s : Str} (hs : LT ∉ s) (E : Str) :
    Index s (LT :: E) = none := by
  have := (Index_lt_skip_all hs [] E).mpr rfl
  simpa using this

theorem Index_lt_head {s E : Str} (hp : ¬ E <+: s) (hi : Index s (LT :: E) = none) :
    Index (LT :: s) (LT :: E) = none := by
  have hpre : List.isPrefixOf (LT :: E) (LT :: s) = false := by
    cases h : List.isPrefixOf (LT :: E) (LT :: s) with
    | false => rfl
    | true =>
      have := List.isPrefixOf_iff_prefix.mp h
      exact absurd ((List.prefix_cons_inj LT).mp this) hp
  rw [Index_cons, hpre, hi]
  rfl

/-- A name followed by `>` determines the name. -/
theorem name_gt_initial {n c : Str} (hn : ∀ y ∈ n, isNameByte y = true)
    (hc : ∀ y ∈ c, isNameByte y = true) (t : Str) (h : n ++ [GT] <+: c ++ GT :: t) : n = c := by
  induction n generalizing c with
  | nil =>
    cases c with
    | nil => rfl
    | cons c0 c' =>
      obtain ⟨w, hw⟩ := h
      simp only [List.nil_append, List.cons_append, List.cons.injEq] at hw
      have := hc c0 (by simp)
      rw [← hw.1] at this
      exact absurd this (by decide)
  | cons n0 n' ih =>
    cases c with
    | nil =>
      obtain ⟨w, hw⟩ := h
      simp only [List.nil_append, List.cons_append, List.cons.injEq] at hw
      have := hn n0 (by simp)
      rw [hw.1] at this
      exact absurd this (by decide)
    | cons c0 c' =>
      obtain ⟨w, hw⟩ := h
      simp only [List.cons_append, List.cons.injEq] at hw
      have := ih (fun y hy => hn y (by simp [hy])) (fun y hy => hc y (by simp [hy]))
        ⟨w, hw.2⟩
      rw [hw.1, this]

theorem text_element_eq (n c t1 t2 x : Str) :
    bytes "<" ++ n ++ bytes ">" ++ t1 ++ bytes "<" ++ c ++ bytes ">" ++ x ++ bytes "</" ++ c
        ++ bytes ">" ++ t2 ++ bytes "</" ++ n ++ bytes ">"
      = LT :: (n ++ [] ++ GT :: ((t1 ++ LT :: (c ++ GT :: (x ++ endTagOf c ++ t2)))
          ++ endTagOf n)) := by
  simp [bytes_lt, bytes_close, bytes_open, endTagOf_eq]

/-- C16: the text of a node is made of the text segments of its own body, in
order, and holds nothing of the text inside a child.  For distinct names `n`
and `c` and strings `t1`, `x`, `t2` without `<`, `ParseMarkup` of
`<n>t1<c>x</c>t2</n>` returns one root `n` with the one child `c`; the text of
the child is `TrimSpace x`, and the text of the root is
`TrimSpace (trimLeft t1 ++ TrimSpace t2)`. -/
theorem ParseMarkup_text_segments (n c t1 t2 x : Str) (hn : IsName n) (hc : IsName c)
    (hne : n ≠ c) (h1 : LT ∉ t1) (h2 : LT ∉ t2) (hx : LT ∉ x) :
    ParseMarkup (bytes "<" ++ n ++ bytes ">" ++ t1 ++ bytes "<" ++ c ++ bytes ">" ++ x
        ++ bytes "</" ++ c ++ bytes ">" ++ t2 ++ bytes "</" ++ n ++ bytes ">")
      = some ([.mk n [] [.mk c [] [] (TrimSpace x)]
          (TrimSpace (trimLeft t1 ++ TrimSpace t2))], none) := by
  rw [text_element_eq]
  obtain ⟨c0, c', hcc⟩ := List.exists_cons_of_ne_nil hc.1
  have hc0 : isNameByte c0 = true := hc.2 c0 (by rw [hcc]; simp)
  -- no `</n>` in the body
  have hb : Index (t1 ++ LT :: (c ++ GT :: (x ++ endTagOf c ++ t2))) (endTagOf n) = none := by
    rw [endTagOf_eq n, Index_lt_skip_all h1]
    apply Index_lt_head
    · rintro ⟨w, hw⟩
      rw [hcc] at hw
      simp only [List.cons_append, List.cons.injEq] at hw
      rw [← hw.1] at hc0
      exact absurd hc0 (by decide)
    · have e : c ++ GT :: (x ++ endTagOf c ++ t2)
          = (c ++ GT :: x) ++ (LT :: (SLASH :: (c ++ GT :: t2))) := by
        simp [endTagOf_eq]
      have hp : LT ∉ c ++ GT :: x := by
        simp only [List.mem_append, List.mem_cons, not_or]
        exact ⟨fun h => isNameByte_ne_lt (hc.2 _ h) rfl, by decide, hx⟩
      rw [e, Index_lt_skip_all hp]
      apply Index_lt_head
      · intro h
        have h' : n ++ [GT] <+: c ++ GT :: t2 := by
          have := (List.prefix_cons_inj SLASH).mp h
          exact this
        exact hne (name_gt_initial hn.2 hc.2 t2 h')
      · apply Index_lt_none_of_not_mem
        simp only [List.mem_cons, List.mem_append, not_or]
        exact ⟨by decide, fun h => isNameByte_ne_lt (hc.2 _ h) rfl, by decide, h2⟩
  -- the child
  have hxi : Index x (endTagOf c) = none := by
    rw [endTagOf_eq]; exact Index_lt_none_of_not_mem hx _
  have hxc : parseChildren x = some ([], TrimSpace x) := by
    rw [parseChildren_eq, childrenFrom_no_lt hx, List.nil_append, TrimSpace_idem]
  have hoc : OpensWith (LT :: (c ++ GT :: (x ++ endTagOf c ++ trimRight t2))) c []
      (x ++ endTagOf c ++ trimRight t2) := opensWith_plain hc.1 hc.2 _
  have hpc := parseNode_element hoc hxi hxc
  have hattr : parseAttributes (attrText []) = [] := by rfl
  rw [hattr] at hpc
  -- the body
  have htr : trimRight (c ++ GT :: (x ++ endTagOf c ++ t2))
      = c ++ GT :: (x ++ endTagOf c ++ trimRight t2) := by
    have e : c ++ GT :: (x ++ endTagOf c ++ t2)
        = (c ++ GT :: (x ++ LT :: SLASH :: c)) ++ GT :: t2 := by
      simp [endTagOf_eq]
    rw [e, trimRight_append_solid solid_GT]
    simp [endTagOf_eq]
  have hdrop : (LT :: (c ++ GT :: (x ++ endTagOf c ++ trimRight t2))).drop
      (c.length + ([] : Str).length + 2 + x.length + (endTagOf c).length) = trimRight t2 := by
    have e : LT :: (c ++ GT :: (x ++ endTagOf c ++ trimRight t2))
        = (LT :: (c ++ GT :: (x ++ endTagOf c))) ++ trimRight t2 := by simp
    rw [e]
    exact List.drop_left' (by simp; omega)
  have h2' : LT ∉ trimRight t2 := fun h => h2 (mem_of_mem_trimRight h)
  have hbody : parseChildren (t1 ++ LT :: (c ++ GT :: (x ++ endTagOf c ++ t2)))
      = some ([.mk c [] [] (TrimSpace x)], TrimSpace (trimLeft t1 ++ TrimSpace t2)) := by
    rw [parseChildren_eq, childrenFrom_lt h1, htr, childrenNode, hpc]
    simp only
    rw [hdrop, childrenFrom_no_lt h2', TrimSpace_trimRight]
    rfl
  have ho := opensWith_plain hn.1 hn.2
    ((t1 ++ LT :: (c ++ GT :: (x ++ endTagOf c ++ t2))) ++ endTagOf n)
  rw [ParseMarkup_element n [] _ (by simpa using ho) hb hbody]
  rfl

/-- C16 at `<p> one <b> two </b> three </p>`. -/
theorem ParseMarkup_text_segments_witness :
    ParseMarkup (bytes "<p> one <b> two </b> three </p>")
      = some ([.mk (bytes "p") [] [.mk (bytes "b") [] [] (bytes "two")]
          (bytes "one three")], none) ∧
    ParseMarkup (bytes "<" ++ bytes "p" ++ bytes ">" ++ bytes " one " ++ bytes "<" ++ bytes "b"
        ++ bytes ">" ++ bytes " two " ++ bytes "</" ++ bytes "b" ++ bytes ">" ++ bytes " three "
        ++ bytes "</" ++ bytes "p" ++ bytes ">")
      = some ([.mk (bytes "p") [] [.mk (bytes "b") [] [] (TrimSpace (bytes " two "))]
          (TrimSpace (trimLeft (bytes " one ") ++ TrimSpace (bytes " three ")))], none) :=
  ⟨by rfl, ParseMarkup_text_segments (bytes "p") (bytes "b") (bytes " one ") (bytes " three ")
    (bytes " two ") ⟨by decide, by decide⟩ ⟨by decide, by decide⟩ (by decide) (by decide)
    (by decide) (by decide)⟩

end GoMarkup
